import Mathlib

/-!
Verification development for the computational core of the pycamv repository.

The Python modules under verification are shallowly embedded below:
  * src/pycamv/gen_sequences.py  (enumeration of variable-modification placements)
  * src/pycamv/fragments.py      (theoretical fragment-ion m/z calculation)
  * src/pycamv/compare.py        (tolerance matching of ions against spectrum peaks)
  * src/pycamv/losses.py         (static neutral-loss tables)

Modelling conventions:
  * Python floats are modelled as rationals; Python ints as Nat or Int.
  * Python dicts keyed by strings are modelled as association lists in
    insertion order; dict lookup is last-occurrence-wins (dict.update
    overwrites earlier bindings), see mapLookup below.
  * Python generators are modelled as eagerly produced lists in yield order.
    A generator that can raise mid-stream is modelled as a pair of the list
    of values yielded before any exception and an Option String error.
  * The static mass tables (masses.py and ms_labels.py are not part of the
    sources provided under src/) are modelled from the spec as an abstract
    table structure MassData passed explicitly; every claim proved below is
    parametric in those table values.
  * Literal brace characters inside string literals are written with the
    escapes \x7b and \x7d.
-/

/-- Decimal digit character for a value below ten, as produced by Python
string formatting of a nonnegative integer. -/
def digitChar : ℕ → Char
  | 0 => '0'
  | 1 => '1'
  | 2 => '2'
  | 3 => '3'
  | 4 => '4'
  | 5 => '5'
  | 6 => '6'
  | 7 => '7'
  | 8 => '8'
  | 9 => '9'
  | _ => '*'

/-- Fuel-indexed helper for the decimal digit expansion; structural so that
the kernel can evaluate it. -/
def natDigitsF : ℕ → ℕ → List Char
  | 0, _ => []
  | fuel + 1, n =>
    if n < 10 then [digitChar n]
    else natDigitsF fuel (n / 10) ++ [digitChar (n % 10)]

/-- Decimal digit list of a natural number, most significant digit first,
mirroring the output of Python str() on a nonnegative int. -/
def natDigits (n : ℕ) : List Char := natDigitsF (n + 1) n

/-- Decimal string of a natural number, as Python str() / format produce. -/
def natStr (n : ℕ) : String := String.mk (natDigits n)

/-- Concatenation of a list of strings, as the Python idiom
sep.join(parts) with the empty separator. -/
def strJoin : List String → String
  | [] => ""
  | s :: rest => s ++ strJoin rest

/-- Stable insertion of an element into a list: it lands in front of the
first element it compares le to. -/
def stableInsert {α : Type} (le : α → α → Bool) (x : α) : List α → List α
  | [] => [x]
  | y :: ys => if le x y then x :: y :: ys else y :: stableInsert le x ys

/-- Stable sort by a boolean comparison, as foldr insertion.  A stable sort
is uniquely determined by the key comparison, so on every input this agrees
with the stable Python sorted builtin (timsort). -/
def sortBy {α : Type} (le : α → α → Bool) (l : List α) : List α :=
  l.foldr (stableInsert le) []

/-- Lexicographic comparison of character lists by code point, the Python
string order. -/
def charListLe : List Char → List Char → Bool
  | [], _ => true
  | _ :: _, [] => false
  | a :: as, b :: bs =>
    if a < b then true else if b < a then false else charListLe as bs

/-- Python string less-or-equal, by code points. -/
def strLe (a b : String) : Bool := charListLe a.data b.data

/-- Python str.startswith on the underlying characters. -/
def startsWithStr (s pre : String) : Bool := pre.data.isPrefixOf s.data

/-- Python str.lower for ASCII strings: characterwise lower casing. -/
def strLower (s : String) : String := String.mk (s.data.map Char.toLower)

/-- Python str.upper for ASCII strings: characterwise upper casing. -/
def strUpper (s : String) : String := String.mk (s.data.map Char.toUpper)

/-- Python str.split with a single-character separator, on the character
list: the runs between separator occurrences, empty runs kept. -/
def splitCharList (sep : Char) : List Char → List (List Char)
  | [] => [[]]
  | c :: cs =>
    if c = sep then [] :: splitCharList sep cs
    else
      match splitCharList sep cs with
      | [] => [[c]]
      | g :: gs => (c :: g) :: gs

/-- Python str.split with a single-character separator. -/
def pySplit (s : String) (sep : Char) : List String :=
  (splitCharList sep s.data).map String.mk

/-! ### Embedding of src/pycamv/gen_sequences.py -/

/-- A residue of a (partially) modified sequence: the residue letter
(or the sentinels N-term / C-term / C=O) together with the ordered
modification tags applied to it.  This is the Python pair
(letter, mods-tuple). -/
abbrev Residue := String × List String

/-- A modified sequence: ordered list of residues. -/
abbrev ModSeq := List Residue

/-- A variable-modification spec (count, modification name, eligible
letters), the Python triple in var_mods. -/
abbrev VarModSpec := ℕ × String × List String

/-- Cap on the number of combinations consumed in screening mode
(gen_sequences.MAX_NUM_COMB); not used by the enumeration itself. -/
def MAX_NUM_COMB : ℕ := 10

/-- Candidate indices for a spec: positions of seq whose letter is in
letters and which do not yet carry any modification.  Mirrors the list
comprehension building indices in gen_possible_seq._gen_mods. -/
def modIndices (seq : ModSeq) (letters : List String) : List ℕ :=
  (seq.enum.filter fun p => decide (p.2.1 ∈ letters ∧ p.2.2 = [])).map Prod.fst

/-- Application of one modification to the residues at the given indices,
mirroring the tmp_seq list comprehension in _gen_mods. -/
def applyMod (seq : ModSeq) (mod : String) (modIdx : List ℕ) : ModSeq :=
  seq.enum.map fun p =>
    (p.2.1, if p.1 ∈ modIdx then p.2.2 ++ [mod] else p.2.2)

/-- All size-k combinations of a list, in the order produced by
itertools.combinations: each combination is a length-k subsequence of the
input, enumerated lexicographically by position. -/
def combinations : ℕ → List ℕ → List (List ℕ)
  | 0, _ => [[]]
  | _ + 1, [] => []
  | k + 1, x :: xs => (combinations k xs).map (x :: ·) ++ combinations (k + 1) xs

/-- The exception message raised by _gen_mods on a site shortage.  Note that
the source interpolates pep_seq[1:-1] where pep_seq is the plain peptide
string, so the first and last characters of the peptide are dropped from
the message. -/
def tooFewSitesMsg (pep_seq : String) (count : ℕ) (mod : String)
    (letters : List String) : String :=
  "Too few sites for modification \"" ++ natStr count ++ " " ++ mod ++ " (" ++
    strJoin letters ++ ")\" in peptide \"" ++
    String.mk (pep_seq.toList.drop 1).dropLast ++ "\""

/-- The recursive generator _gen_mods of gen_possible_seq.  The result is
the list of sequences yielded before any exception, together with the
message of the exception if one is raised.  The loop over combinations
stops extending the yield list once a branch has raised. -/
def gen_mods (pep_seq : String) : ModSeq → List VarModSpec →
    List ModSeq × Option String
  | seq, [] => ([seq], none)
  | seq, (count, mod, letters) :: rest =>
    let indices := modIndices seq letters
    if indices.length < count then
      ([], some (tooFewSitesMsg pep_seq count mod letters))
    else
      (combinations count indices).foldl
        (fun acc combo =>
          if acc.2.isSome then acc
          else
            let r := gen_mods pep_seq (applyMod seq mod combo) rest
            (acc.1 ++ r.1, r.2))
        ([], none)

/-- Embedding of gen_sequences.gen_possible_seq: wraps the peptide letters
with the terminal sentinels, sorts the variable modifications by eligible
letter-set size (stable, as Python sorted), and runs _gen_mods. -/
def gen_possible_seq (pep_seq : String) (var_mods : List VarModSpec) :
    List ModSeq × Option String :=
  let tmp_seq : List String :=
    "N-term" :: pep_seq.toList.map Char.toString ++ ["C-term"]
  let var_sorted :=
    sortBy (fun a b => decide (a.2.2.length ≤ b.2.2.length)) var_mods
  gen_mods pep_seq (tmp_seq.map fun l => (l, [])) var_sorted

/-- Total occurrence count of a modification name across all residues of a
sequence. -/
def modNameCount (m : String) (seq : ModSeq) : ℕ :=
  (seq.map fun r => r.2.count m).sum

/-- Total declared count for a modification name over a spec list. -/
def declaredCount (m : String) (specs : List VarModSpec) : ℕ :=
  (specs.map fun v => if v.2.1 = m then v.1 else 0).sum

/-! ### Embedding of src/pycamv/compare.py -/

/-- Tolerance constants from compare.py (parts-per-million). -/
def CID_TOL : ℚ := 1000

/-- HCD collision tolerance from compare.py. -/
def HCD_TOL : ℚ := 10

/-- A peak assignment record, mirroring class PeptideHit.  The Python
attributes name, score, predicted_mz and match_list default to None and
are modelled as Options; predicted_mz stores the tuple
(ion m/z, absolute error) exactly as the source assigns it from the
candidate dictionary. -/
structure PeptideHit where
  mz : ℚ
  intensity : ℚ
  name : Option String
  score : Option ℤ
  predicted_mz : Option (ℚ × ℚ)
  match_list : Option (List (String × ℚ × ℚ))
  num_losses : ℕ
  deriving Repr, DecidableEq

/-- Number of dash characters in an ion name, the Python
ion_name.count("-"). -/
def countDash (s : String) : ℕ := s.toList.count '-'

/-- Embedding of compare._calculate_ion_score: 12 base points for a parent
(MH) ion, 10 for a b or y backbone ion, 0 otherwise, minus one point per
dash in the name. -/
def calculate_ion_score (ion_name : String) : ℤ :=
  (if startsWithStr ion_name "MH" then (12 : ℤ)
   else if startsWithStr ion_name "b_" || startsWithStr ion_name "y_" then 10
   else 0) - countDash ion_name

/-- The inner candidate scan of compare_spectra over the ion list slice
frag_ions[last_frag_index:], carrying the enumerate counter.  Returns the
candidate list (ion name, ion m/z, absolute error) in scan order together
with the enumerate index of the first in-tolerance ion if any (the value
the source assigns to last_frag_index; note it is the slice-relative
index).  The scan breaks once an ion is too heavy. -/
def scan_ions (mz tol : ℚ) : List (String × ℚ) → ℕ →
    List (String × ℚ × ℚ) × Option ℕ
  | [], _ => ([], none)
  | (nm, imz) :: rest, idx =>
    if 1000000 * |imz - mz| / imz < 3 / 2 * tol then
      let r := scan_ions mz tol rest (idx + 1)
      ((nm, imz, |imz - mz|) :: r.1, some idx)
    else if 1000000 * (imz - mz) / imz > 3 / 2 * tol then
      ([], none)
    else
      scan_ions mz tol rest (idx + 1)

/-- Python min over the candidate names keyed by stored absolute error:
the first candidate attaining the minimal error.  Total with a dummy
default on the empty list, on which the source never calls it. -/
def closest_ion (cands : List (String × ℚ × ℚ)) : String :=
  match cands with
  | [] => ""
  | c :: cs => (cs.foldl (fun acc x => if x.2.2 < acc.2.2 then x else acc) c).1

/-- The per-candidate base scores, in candidate (dict insertion) order. -/
def ion_scores (cands : List (String × ℚ × ℚ)) : List (String × ℤ) :=
  cands.map fun c => (c.1, calculate_ion_score c.1)

/-- The score table after the bonus point for the closest candidate
(scores[closest_ion] += 1). -/
def scores_with_bonus (cands : List (String × ℚ × ℚ)) : List (String × ℤ) :=
  (ion_scores cands).map fun s =>
    if s.1 = closest_ion cands then (s.1, s.2 + 1) else s

/-- Python max over the score table keyed by score: the first name
attaining the maximal score. -/
def best_ion (cands : List (String × ℚ × ℚ)) : String :=
  match scores_with_bonus cands with
  | [] => ""
  | s :: ss => (ss.foldl (fun acc x => if x.2 > acc.2 then x else acc) s).1

/-- Assembly of the PeptideHit for one peak from its candidate list,
mirroring the loop body of compare_spectra after the candidate scan:
an unassigned hit when there are no candidates, otherwise the scored
hit with the retention rule applied to the best ion. -/
def process_cands (maxY mz intensity : ℚ)
    (cands : List (String × ℚ × ℚ)) : PeptideHit :=
  match cands with
  | [] => ⟨mz, intensity, none, none, none, none, 0⟩
  | _ :: _ =>
    let scores := scores_with_bonus cands
    let best := best_ion cands
    let retain : Bool :=
      decide (intensity > 1 / 10 * maxY) ||
      startsWithStr best "MH" || startsWithStr best "b_" ||
      startsWithStr best "y_" ||
      (decide (countDash best = 0) && decide (intensity > 1 / 40 * maxY))
    if retain then
      ⟨mz, intensity, some best, List.lookup best scores,
        List.lookup best cands, some cands, countDash best⟩
    else
      ⟨mz, intensity, none, none, none, some cands, 0⟩

/-- The peak loop of compare_spectra, threading the advancing cursor
last_frag_index and the previous peak m/z last_mz.  The source asserts
mz >= last_mz for every peak; a violation is modelled as an error. -/
def compare_loop (ions : List (String × ℚ)) (tol maxY : ℚ) :
    List (ℚ × ℚ) → ℕ → ℚ → Except String (List PeptideHit)
  | [], _, _ => .ok []
  | (mz, intensity) :: rest, cursor, lastMz =>
    if mz < lastMz then .error "AssertionError: mz >= last_mz" else
    let r := scan_ions mz tol (ions.drop cursor) 0
    match compare_loop ions tol maxY rest (r.2.getD cursor) mz with
    | .error e => .error e
    | .ok hits => .ok (process_cands maxY mz intensity r.1 :: hits)

/-- Maximum intensity of the spectrum, max(spectra.i).  Python max raises
ValueError on an empty sequence; compare_spectra models that as an error. -/
def spectrum_max (peaks : List (ℚ × ℚ)) : ℚ :=
  match peaks with
  | [] => 0
  | p :: ps => (ps.map Prod.snd).foldl max p.2

/-- Embedding of compare.compare_spectra.  The spectrum is its centroided
peak list of (m/z, intensity) pairs in file order; frag_ions is the item
list of the ion-name to m/z dictionary (keys distinct).  The ion list is
sorted ascending by m/z (stable) before the peak sweep.  On an empty peak
list the computation of max(spectra.i) fails. -/
def compare_spectra (peaks : List (ℚ × ℚ)) (frag_ions : List (String × ℚ))
    (tol? : Option ℚ) : Except String (List PeptideHit) :=
  let tol := tol?.getD CID_TOL
  match peaks with
  | [] => .error "ValueError: max() arg is an empty sequence"
  | _ :: _ =>
    let sortedIons := sortBy (fun a b => decide (a.2 ≤ b.2)) frag_ions
    compare_loop sortedIons tol (spectrum_max peaks) peaks 0 0

/-- Decidable in-tolerance test of one ion against one peak: relative mass
error strictly below 1.5 times the tolerance. -/
def in_tol (tol mz imz : ℚ) : Bool :=
  decide (1000000 * |imz - mz| / imz < 3 / 2 * tol)

/-- Rescan characterization of the candidate list of one peak: all ions of
the m/z-sorted ion list within 1.5 tolerance, annotated with their
absolute error, in sorted order. -/
def ideal_cands (sortedIons : List (String × ℚ)) (tol mz : ℚ) :
    List (String × ℚ × ℚ) :=
  (sortedIons.filter fun p => in_tol tol mz p.2).map fun p =>
    (p.1, p.2, |p.2 - mz|)

/-! ### Embedding of src/pycamv/losses.py -/

/-- Neutral losses applicable to whole peptides (losses.PEPTIDE_LOSSES). -/
def PEPTIDE_LOSSES : List String := ["H_2O", "NH_3"]

/-- Neutral losses applicable to internal fragments
(losses.INTERNAL_LOSSES). -/
def INTERNAL_LOSSES : List String := ["H_2O", "NH_3", "CO"]

/-- Per-amino-acid neutral losses (losses.AA_LOSSES, empty). -/
def AA_LOSSES : List (String × List String) := []

/-- Per-(amino acid, modification) neutral losses (losses.MOD_LOSSES), in
dict insertion order. -/
def MOD_LOSSES : List ((String × String) × List String) :=
  [(("M", "Oxidation"), ["SOCH_4"]),
   (("M", "Dioxidation"), ["SO_2CH_4"]),
   (("S", "Phospho"), ["H_3PO_4"]),
   (("T", "Phospho"), ["H_3PO_4"]),
   (("Y", "Phospho"), ["HPO_3", "HPO_3-H_2O"])]

/-! ### Embedding of src/pycamv/fragments.py -/

/-- Modelled from the spec: the static monoisotopic mass and label tables
(the modules masses.py and ms_labels.py are not among the provided
sources).  Per the spec these are immutable global tables: amino-acid
masses (including the terminal sentinels), per-(letter, modification)
mass shifts, named molecule masses (for neutral losses and CO), the
proton mass, the carbon-13 minus carbon-12 mass difference
(fragments.DELTA_C13), immonium-ion masses, and the reporter-label name
and mass lists per label modification with the membership test of a
modification in the label table.  All theorems below are parametric in
these values. -/
structure MassData where
  AMINO_ACIDS : String → ℚ
  MODIFICATIONS : String → String → ℚ
  MASSES : String → ℚ
  PROTON : ℚ
  DELTA_C13 : ℚ
  IMMONIUM_IONS : String → ℚ
  LABEL_NAMES : String → List String
  LABEL_MASSES : String → List ℚ
  isLabel : String → Bool

/-- Embedding of fragments._sequence_mass: total mass of a (fragment of a)
modified sequence, each residue contributing its amino-acid mass plus the
masses of its modifications. -/
def sequence_mass (md : MassData) (pep_seq : ModSeq) : ℚ :=
  (pep_seq.map fun r =>
    md.AMINO_ACIDS r.1 + (r.2.map fun mod => md.MODIFICATIONS r.1 mod).sum).sum

/-- Embedding of fragments._sequence_name: residue letters with sentinels
dropped, lower case when the residue is modified, upper case otherwise. -/
def sequence_name (pep_seq : ModSeq) : String :=
  strJoin (pep_seq.filterMap fun r =>
    if r.1 ∈ ["N-term", "C-term", "C=O"] then none
    else some (if r.2 = [] then strUpper r.1 else strLower r.1))

/-- A neutral-loss counter, the Python collections.Counter mapping loss
molecule names to signed occurrence counts, in insertion order. -/
abbrev LossCounter := List (String × ℤ)

/-- The initial counter Counter(\x7b"": 0\x7d) of _generate_loss_combos. -/
def initLossCounter : LossCounter := [("", 0)]

/-- Decrement of one ion key in a counter (new_losses[ion] -= 1); a missing
key is created with count -1 at the end, as in a Python dict. -/
def counterSub (c : LossCounter) (ion : String) : LossCounter :=
  if (c.map Prod.fst).contains ion then
    c.map fun p => if p.1 = ion then (p.1, p.2 - 1) else p
  else c ++ [(ion, -1)]

/-- Application of one tabulated loss to a counter: the loss name is split
on dashes and each part is decremented once. -/
def counterSubLoss (c : LossCounter) (loss : String) : LossCounter :=
  (pySplit loss (Char.ofNat 45)).foldl counterSub c

/-- The recursive generator _generate_loss_combos for a non-None counter:
returns the yielded counters in order.  An empty sequence yields nothing;
at depth zero the current counter is yielded once more; otherwise each
applicable whole-peptide, per-amino-acid and per-modification loss is
applied, yielded, and recursed on with the losing residue removed for the
residue-specific tables. -/
def loss_combos (anyL : List String) (aaL : List (String × List String))
    (modL : List ((String × String) × List String)) :
    ℕ → ModSeq → LossCounter → List LossCounter
  | d, seq, losses =>
    if seq = [] then []
    else
      match d with
      | 0 => [losses]
      | d' + 1 =>
        (anyL.flatMap fun loss =>
          let nl := counterSubLoss losses loss
          nl :: loss_combos anyL aaL modL d' seq nl)
        ++ (aaL.flatMap fun al =>
            seq.enum.flatMap fun p =>
              if al.1 = p.2.1 then
                al.2.flatMap fun loss =>
                  let nl := counterSubLoss losses loss
                  nl :: loss_combos anyL aaL modL d' (seq.eraseIdx p.1) nl
              else [])
        ++ (modL.flatMap fun ml =>
            seq.enum.flatMap fun p =>
              if ml.1.1 = p.2.1 ∧ (ml.1.2 = "" ∨ ml.1.2 ∈ p.2.2) then
                ml.2.flatMap fun loss =>
                  let nl := counterSubLoss losses loss
                  nl :: loss_combos anyL aaL modL d' (seq.eraseIdx p.1) nl
              else [])

/-- The top-level call of _generate_loss_combos with losses=None: the
initial counter is yielded first, then the recursion proceeds on it. -/
def loss_combos_top (anyL : List String) (aaL : List (String × List String))
    (modL : List ((String × String) × List String))
    (seq : ModSeq) (maxDepth : ℕ) : List LossCounter :=
  initLossCounter :: loss_combos anyL aaL modL maxDepth seq initLossCounter

/-- Embedding of fragments._format_loss: empty for an empty name or zero
count, otherwise sign, absolute count when above one, and the name. -/
def format_loss (name : String) (count : ℤ) : String :=
  if name = "" ∨ count = 0 then ""
  else
    (if count > 0 then "+" else "-") ++
    (if 1 < count.natAbs then natStr count.natAbs ++ " " else "") ++ name

/-- Counter items sorted by key, the sorted(loss.items()) of
_generate_losses (Python string order; stable). -/
def counter_items_sorted (c : LossCounter) : LossCounter :=
  sortBy (fun a b => strLe a.1 b.1) c

/-- Canonical loss-name suffix of a counter: formatted items joined in
sorted key order. -/
def loss_counter_name (c : LossCounter) : String :=
  strJoin ((counter_items_sorted c).map fun p => format_loss p.1 p.2)

/-- Total mass shift of a counter: tabulated mass times signed count,
summed over items with a nonempty name. -/
def loss_counter_mass (md : MassData) (c : LossCounter) : ℚ :=
  (c.map fun p => if p.1 = "" then 0 else md.MASSES p.1 * (p.2 : ℚ)).sum

/-- Embedding of fragments._generate_c13: isotope shifts 0..c13_num with
the formatted carbon-13 tag (empty at zero). -/
def generate_c13 (md : MassData) (c13_num : ℕ) : List (String × ℚ) :=
  (List.range (c13_num + 1)).map fun k =>
    (format_loss "^\x7b13\x7dC" (k : ℤ), (k : ℚ) * md.DELTA_C13)

/-- Embedding of fragments._generate_losses: every loss combination,
named and massed, crossed with every isotope shift. -/
def generate_losses (md : MassData) (anyL : List String)
    (aaL : List (String × List String))
    (modL : List ((String × String) × List String))
    (seq : ModSeq) (maxDepth c13_num : ℕ) : List (String × ℚ) :=
  (loss_combos_top anyL aaL modL seq maxDepth).flatMap fun c =>
    (generate_c13 md c13_num).map fun q =>
      (loss_counter_name c ++ q.1, loss_counter_mass md c + q.2)

/-- Charge-state name suffix of _charged_m_zs: the caret tag with the
signed charge, abbreviated for charge one. -/
def charge_suffix (charge : ℕ) : String :=
  if 1 < charge then "^\x7b+" ++ natStr charge ++ "\x7d" else "^\x7b+\x7d"

/-- Embedding of fragments._charged_m_zs: the charge ladder 1..maxCharge of
a base mass, m/z = (mass + charge * proton) / charge. -/
def charged_m_zs (md : MassData) (name : String) (mass : ℚ)
    (maxCharge : ℕ) : List (String × ℚ) :=
  (List.range' 1 maxCharge).map fun c =>
    (name ++ charge_suffix c, (mass + (c : ℚ) * md.PROTON) / (c : ℚ))

/-- Embedding of fragments._get_frag_masses: per-residue masses along the
backbone. -/
def get_frag_masses (md : MassData) (pep_seq : ModSeq) : List ℚ :=
  pep_seq.map fun r => sequence_mass md [r]

/-- The base_ions dictionary of _b_y_ions as an association list in
insertion order: a and b prefix ions for each cut index, then y suffix
ions, each with base mass and the generating sub-sequence. -/
def base_ions (md : MassData) (pep_seq : ModSeq) (frag_masses : List ℚ) :
    List (String × ℚ × ModSeq) :=
  ((List.range' 2 (pep_seq.length - 3)).flatMap fun idx =>
    [("a_\x7b" ++ natStr (idx - 1) ++ "\x7d",
      ((frag_masses.take idx).sum - md.MASSES "CO", pep_seq.take idx)),
     ("b_\x7b" ++ natStr (idx - 1) ++ "\x7d",
      ((frag_masses.take idx).sum, pep_seq.take idx))])
  ++ ((List.range' 1 (pep_seq.length - 2)).map fun idx =>
    ("y_\x7b" ++ natStr (pep_seq.length - idx - 1) ++ "\x7d",
      ((frag_masses.drop idx).sum + md.PROTON, pep_seq.drop idx)))

/-- Embedding of fragments._b_y_ions: every base ion crossed with its
neutral-loss and isotope combinations and laddered over fragment
charges. -/
def b_y_ions (md : MassData) (anyL : List String)
    (aaL : List (String × List String))
    (modL : List ((String × String) × List String))
    (pep_seq : ModSeq) (frag_masses : List ℚ)
    (fragment_max_charge c13_num : ℕ) : List (String × ℚ) :=
  (base_ions md pep_seq frag_masses).flatMap fun bi =>
    (generate_losses md anyL aaL modL bi.2.2 2 c13_num).flatMap fun lq =>
      charged_m_zs md (bi.1 ++ lq.1) (bi.2.1 + lq.2) fragment_max_charge

/-- Embedding of fragments._label_ions: reporter ions from the label table
for each quantification-label modification on the first residue. -/
def label_ions (md : MassData) (pep_seq : ModSeq) : List (String × ℚ) :=
  ((pep_seq.headD ("", [])).2.filter fun mod => md.isLabel mod).flatMap
    fun mod => (md.LABEL_NAMES mod).zip (md.LABEL_MASSES mod)

/-- The parent MH mass of _parent_ions: total backbone mass plus one
proton. -/
def parent_mh_mass (md : MassData) (frag_masses : List ℚ) : ℚ :=
  frag_masses.sum + md.PROTON

/-- Embedding of fragments._parent_ions: the parent mass crossed with
whole-peptide losses and isotope shifts, laddered over parent charges. -/
def parent_ions (md : MassData) (anyL : List String)
    (aaL : List (String × List String))
    (modL : List ((String × String) × List String))
    (pep_seq : ModSeq) (frag_masses : List ℚ)
    (parent_max_charge c13_num : ℕ) : List (String × ℚ) :=
  (generate_losses md anyL aaL modL pep_seq 2 c13_num).flatMap fun lq =>
    charged_m_zs md ("MH" ++ lq.1) (parent_mh_mass md frag_masses + lq.2)
      parent_max_charge

/-- Embedding of fragments._py_ions: the phosphotyrosine immonium
diagnostic ion, present when some residue is a phosphorylated Y, crossed
with isotope shifts only (the loss generator is called without a
sequence). -/
def py_ions (md : MassData) (pep_seq : ModSeq) (c13_num : ℕ) :
    List (String × ℚ) :=
  if pep_seq.any fun r => decide (r.1 = "Y" ∧ "Phospho" ∈ r.2) then
    (generate_losses md [] [] [] [] 2 c13_num).map fun lq =>
      ("pY" ++ lq.1, (md.IMMONIUM_IONS "Y" + md.MODIFICATIONS "Y" "Phospho") + lq.2)
  else []

/-- Embedding of fragments._internal_fragment_ions: every interior
sub-sequence capped with a synthetic N-terminus and a C=O pseudo-residue,
with depth-1 losses and isotope shifts.  The whole-peptide loss table of
this generator is always INTERNAL_LOSSES (fragment_ions does not override
it). -/
def internal_fragment_ions (md : MassData) (anyL : List String)
    (aaL : List (String × List String))
    (modL : List ((String × String) × List String))
    (pep_seq : ModSeq) (c13_num : ℕ) : List (String × ℚ) :=
  (List.range' 2 (pep_seq.length - 4)).flatMap fun start =>
    (List.range' (start + 1) (pep_seq.length - 1 - (start + 1))).flatMap
      fun stop =>
        let frag : ModSeq :=
          ("N-term", []) :: ((pep_seq.drop start).take (stop - start))
            ++ [("C=O", [])]
        (generate_losses md anyL aaL modL frag 1 c13_num).map fun lq =>
          (sequence_name frag ++ lq.1, sequence_mass md frag + lq.2)

/-- Embedding of fragments.fragment_ions: the full ion dictionary as an
association list in update order (b/y family, parent, labels,
phosphotyrosine diagnostic, internal fragments).  Optional arguments
resolve as in the source: parent max charge defaults to the precursor
charge, fragment max charge to one below the parent max charge, and the
loss tables to the static tables of losses.py. -/
def fragment_ions (md : MassData) (pep_seq : ModSeq) (charge : ℕ)
    (parent_max_charge? fragment_max_charge? : Option ℕ) (c13_num : ℕ)
    (any_losses? : Option (List String))
    (aa_losses? : Option (List (String × List String)))
    (mod_losses? : Option (List ((String × String) × List String))) :
    List (String × ℚ) :=
  let pmc := parent_max_charge?.getD charge
  let fmc := fragment_max_charge?.getD (pmc - 1)
  let anyL := any_losses?.getD PEPTIDE_LOSSES
  let aaL := aa_losses?.getD AA_LOSSES
  let modL := mod_losses?.getD MOD_LOSSES
  let fm := get_frag_masses md pep_seq
  b_y_ions md anyL aaL modL pep_seq fm fmc c13_num
    ++ parent_ions md anyL aaL modL pep_seq fm pmc c13_num
    ++ label_ions md pep_seq
    ++ py_ions md pep_seq c13_num
    ++ internal_fragment_ions md INTERNAL_LOSSES aaL modL pep_seq c13_num

/-- Lookup in an association list with the semantics of a Python dict
built by successive updates: the last binding of a key wins. -/
def mapLookup (l : List (String × ℚ)) (key : String) : Option ℚ :=
  l.foldl (fun acc p => if p.1 = key then some p.2 else acc) none

/-- The singly charged b-ion key for cut index n, as formatted by
_b_y_ions and _charged_m_zs. -/
def b1Key (n : ℕ) : String := "b_\x7b" ++ natStr n ++ "\x7d" ++ charge_suffix 1

/-- The singly charged y-ion key for suffix length n. -/
def y1Key (n : ℕ) : String := "y_\x7b" ++ natStr n ++ "\x7d" ++ charge_suffix 1

/-- The twenty-six upper-case amino-acid letter strings. -/
def validLetters : List String :=
  ["A", "B", "C", "D", "E", "F", "G", "H", "I", "J", "K", "L", "M",
   "N", "O", "P", "Q", "R", "S", "T", "U", "V", "W", "X", "Y", "Z"]

/-- A well-formed modified sequence: an N-term sentinel, interior residues
with single upper-case letters, and a C-term sentinel, as asserted by
fragment_ions and produced by gen_possible_seq. -/
def wellFormed (pep_seq : ModSeq) : Prop :=
  ∃ mid mN mC, pep_seq = ("N-term", mN) :: mid ++ [("C-term", mC)] ∧
    ∀ r ∈ mid, r.1 ∈ validLetters

/-- A string beginning with a decimal digit. -/
def digitStart (s : String) : Prop :=
  ∃ c t, s.data = c :: t ∧ c.isDigit = true

/-- Hypothesis on the label table: reporter-ion names start with a digit
(the spec gives 126..131). -/
def labelNamesDigit (md : MassData) : Prop :=
  ∀ mod nm, nm ∈ md.LABEL_NAMES mod → digitStart nm

/-- The carbon-13 isotope tag appearing in ion names. -/
def c13Tag : String := "^\x7b13\x7dC"

/-- A string carrying the carbon-13 isotope tag as a substring. -/
def hasC13Tag (s : String) : Prop :=
  ∃ u v, s.data = u ++ c13Tag.data ++ v

/-- Modelled from the spec: a concrete instance of the mass and label
tables (masses.py and ms_labels.py are not among the provided sources),
with the TMT6plex reporter names 126..131 from the spec scenarios; used
only to witness the table-parametric theorems. -/
def specMassData : MassData where
  AMINO_ACIDS := fun l => if l = "N-term" then 1 else if l = "C-term" then 17 else 100
  MODIFICATIONS := fun _ m => if m = "Phospho" then 80 else if m = "TMT6plex" then 229 else 0
  MASSES := fun s =>
    if s = "CO" then 28 else if s = "H_2O" then 18 else if s = "NH_3" then 17
    else if s = "H_3PO_4" then 98 else if s = "HPO_3" then 80
    else if s = "SOCH_4" then 64 else if s = "SO_2CH_4" then 80 else 0
  PROTON := 1007 / 1000
  DELTA_C13 := 1
  IMMONIUM_IONS := fun l => if l = "Y" then 136 else 0
  LABEL_NAMES := fun m =>
    if m = "TMT6plex" then ["126", "127", "128", "129", "130", "131"] else []
  LABEL_MASSES := fun m =>
    if m = "TMT6plex" then [126, 127, 128, 129, 130, 131] else []
  isLabel := fun m => m = "TMT6plex"

/-! ### Infrastructure lemmas: decimal strings and string data -/

theorem digitChar_isDigit : ∀ n < 10, (digitChar n).isDigit = true := by decide

theorem digitChar_injOn : ∀ m < 10, ∀ n < 10, digitChar m = digitChar n → m = n := by
  decide

theorem natDigitsF_fuel : ∀ (fuel fuel' n : ℕ), n < fuel → n < fuel' →
    natDigitsF fuel n = natDigitsF fuel' n := by
  intro fuel
  induction fuel with
  | zero => intro fuel' n h _; omega
  | succ fuel ih =>
    intro fuel' n h h'
    match fuel' with
    | 0 => omega
    | fuel' + 1 =>
      simp only [natDigitsF]
      by_cases h10 : n < 10
      · simp [h10]
      · have hdiv : n / 10 < n := Nat.div_lt_self (by omega) (by omega)
        simp only [if_neg h10]
        rw [ih fuel' (n / 10) (by omega) (by omega)]

theorem natDigits_lt10 {n : ℕ} (h : n < 10) : natDigits n = [digitChar n] := by
  unfold natDigits
  simp only [natDigitsF, if_pos h]

theorem natDigits_ge10 {n : ℕ} (h : ¬n < 10) :
    natDigits n = natDigits (n / 10) ++ [digitChar (n % 10)] := by
  have hdiv : n / 10 < n := Nat.div_lt_self (by omega) (by omega)
  have h1 : natDigits n = natDigitsF n (n / 10) ++ [digitChar (n % 10)] := by
    show natDigitsF (n + 1) n = _
    rw [show natDigitsF (n + 1) n =
      if n < 10 then [digitChar n]
      else natDigitsF n (n / 10) ++ [digitChar (n % 10)] from rfl, if_neg h]
  rw [h1]
  congr 1
  exact natDigitsF_fuel n (n / 10 + 1) (n / 10) (by omega) (by omega)

theorem natDigits_ne_nil (n : ℕ) : natDigits n ≠ [] := by
  by_cases h : n < 10
  · rw [natDigits_lt10 h]
    simp
  · rw [natDigits_ge10 h]
    simp

theorem natDigits_isDigit (n : ℕ) : ∀ c ∈ natDigits n, c.isDigit = true := by
  induction n using Nat.strong_induction_on with
  | _ n ih =>
    by_cases h10 : n < 10
    · rw [natDigits_lt10 h10]
      intro c hc
      rw [List.mem_singleton] at hc
      subst hc
      exact digitChar_isDigit n (by omega)
    · rw [natDigits_ge10 h10]
      intro c hc
      rcases List.mem_append.1 hc with h | h
      · exact ih (n / 10) (Nat.div_lt_self (by omega) (by omega)) c h
      · rw [List.mem_singleton] at h
        subst h
        exact digitChar_isDigit (n % 10) (Nat.mod_lt _ (by omega))

theorem natDigits_inj : ∀ m n : ℕ, natDigits m = natDigits n → m = n := by
  intro m
  induction m using Nat.strong_induction_on with
  | _ m ih =>
    intro n h
    by_cases hm : m < 10 <;> by_cases hn : n < 10
    · rw [natDigits_lt10 hm, natDigits_lt10 hn] at h
      exact digitChar_injOn m hm n hn (List.singleton_injective h)
    · exfalso
      rw [natDigits_lt10 hm, natDigits_ge10 hn] at h
      have hlen := congrArg List.length h
      rcases List.exists_cons_of_ne_nil (natDigits_ne_nil (n / 10)) with ⟨a, l, hal⟩
      rw [hal] at hlen
      simp at hlen
    · exfalso
      rw [natDigits_ge10 hm, natDigits_lt10 hn] at h
      have hlen := congrArg List.length h
      rcases List.exists_cons_of_ne_nil (natDigits_ne_nil (m / 10)) with ⟨a, l, hal⟩
      rw [hal] at hlen
      simp at hlen
    · rw [natDigits_ge10 hm, natDigits_ge10 hn] at h
      have h' := congrArg List.reverse h
      simp only [List.reverse_append, List.reverse_singleton, List.singleton_append,
        List.cons.injEq] at h'
      obtain ⟨hd, htl⟩ := h'
      have hdiv : m / 10 = n / 10 := by
        apply ih (m / 10) (Nat.div_lt_self (by omega) (by omega))
        have := congrArg List.reverse htl
        simpa using this
      have hmod : m % 10 = n % 10 :=
        digitChar_injOn _ (Nat.mod_lt _ (by omega)) _ (Nat.mod_lt _ (by omega)) hd
      omega

theorem natStr_inj : ∀ m n : ℕ, natStr m = natStr n → m = n := by
  intro m n h
  apply natDigits_inj
  have := congrArg String.data h
  simpa [natStr] using this

theorem natStr_data (n : ℕ) : (natStr n).data = natDigits n := rfl

theorem strJoin_data : ∀ l : List String,
    (strJoin l).data = (l.map String.data).flatten := by
  intro l
  induction l with
  | nil => rfl
  | cons s rest ih => simp [strJoin, String.data_append, ih]

theorem string_eq_of_data {s t : String} (h : s.data = t.data) : s = t := by
  cases s
  cases t
  exact congrArg String.mk h

/-! ### Lemmas on the placement enumerator -/

theorem combinations_sublist : ∀ (k : ℕ) (l c : List ℕ),
    c ∈ combinations k l → c.Sublist l ∧ c.length = k := by
  intro k l
  induction l generalizing k with
  | nil =>
    intro c hc
    match k with
    | 0 =>
      simp [combinations] at hc
      subst hc
      simp
    | k + 1 => simp [combinations] at hc
  | cons x xs ih =>
    intro c hc
    match k with
    | 0 =>
      simp [combinations] at hc
      subst hc
      simp
    | k + 1 =>
      simp only [combinations, List.mem_append, List.mem_map] at hc
      rcases hc with ⟨c', hc', rfl⟩ | hc
      · obtain ⟨hs, hl⟩ := ih k c' hc'
        exact ⟨List.Sublist.cons₂ x hs, by simp [hl]⟩
      · obtain ⟨hs, hl⟩ := ih (k + 1) c hc
        exact ⟨List.Sublist.cons x hs, hl⟩

theorem take_mem_combinations : ∀ (k : ℕ) (l : List ℕ), k ≤ l.length →
    l.take k ∈ combinations k l := by
  intro k l
  induction l generalizing k with
  | nil =>
    intro hk
    match k with
    | 0 => simp [combinations]
  | cons x xs ih =>
    intro hk
    match k with
    | 0 => simp [combinations]
    | k + 1 =>
      simp only [combinations, List.take_succ_cons, List.mem_append, List.mem_map]
      exact Or.inl ⟨xs.take k, ih k (by simpa using hk), rfl⟩

theorem modIndices_sublist (seq : ModSeq) (letters : List String) :
    (modIndices seq letters).Sublist (List.range seq.length) := by
  have h1 : (modIndices seq letters).Sublist (seq.enum.map Prod.fst) :=
    List.Sublist.map Prod.fst (List.filter_sublist _)
  rwa [List.enum_map_fst] at h1

theorem modIndices_nodup (seq : ModSeq) (letters : List String) :
    (modIndices seq letters).Nodup :=
  List.Nodup.sublist (modIndices_sublist seq letters) (List.nodup_range _)

theorem mem_modIndices {seq : ModSeq} {letters : List String} {i : ℕ}
    (h : i ∈ modIndices seq letters) :
    ∃ hi : i < seq.length,
      (getElem seq (i) hi).1 ∈ letters ∧ (getElem seq (i) hi).2 = [] := by
  simp only [modIndices, List.mem_map, List.mem_filter] at h
  obtain ⟨p, ⟨hpm, hpc⟩, hpi⟩ := h
  obtain ⟨j, hj, hpj⟩ := List.mem_iff_getElem.1 hpm
  have hjlen : j < seq.length := by simpa using hj
  rw [List.getElem_enum] at hpj
  subst hpj
  simp only at hpi
  subst hpi
  simp only [decide_eq_true_eq] at hpc
  exact ⟨hjlen, hpc⟩

theorem mem_modIndices_lt {seq : ModSeq} {letters : List String} {i : ℕ}
    (h : i ∈ modIndices seq letters) : i < seq.length :=
  (mem_modIndices h).1

theorem applyMod_length (seq : ModSeq) (mod : String) (idxs : List ℕ) :
    (applyMod seq mod idxs).length = seq.length := by
  simp [applyMod]

theorem applyMod_getElem (seq : ModSeq) (mod : String) (idxs : List ℕ)
    {i : ℕ} (hi : i < seq.length) :
    getElem (applyMod seq mod idxs) i (by rw [applyMod_length]; exact hi) =
      ((getElem seq (i) hi).1,
        if i ∈ idxs then (getElem seq (i) hi).2 ++ [mod] else (getElem seq (i) hi).2) := by
  simp [applyMod, List.getElem_enum]

theorem sum_map_add {α : Type} (l : List α) (f g : α → ℕ) :
    (l.map fun x => f x + g x).sum = (l.map f).sum + (l.map g).sum := by
  induction l with
  | nil => simp
  | cons a t ih => simp [ih]; omega

theorem sum_range_indicator_single (a : ℕ) : ∀ n : ℕ,
    ((List.range n).map fun i => if i = a then (1 : ℕ) else 0).sum =
      if a < n then 1 else 0 := by
  intro n
  induction n with
  | zero => simp
  | succ n ih =>
    rw [List.range_succ]
    simp only [List.map_append, List.sum_append, ih, List.map_cons, List.map_nil,
      List.sum_cons, List.sum_nil]
    by_cases h2 : n = a
    · subst h2
      simp
    · by_cases h1 : a < n
      · have h3 : a < n + 1 := by omega
        simp [h1, h2, h3]
      · have h3 : ¬a < n + 1 := by omega
        simp [h1, h2, h3]

theorem sum_range_indicator (c : List ℕ) (n : ℕ) (hnd : c.Nodup)
    (hlt : ∀ i ∈ c, i < n) :
    ((List.range n).map fun i => if i ∈ c then (1 : ℕ) else 0).sum = c.length := by
  induction c with
  | nil => simp
  | cons a rest ih =>
    have hna : a ∉ rest := (List.nodup_cons.1 hnd).1
    have heq : ∀ i ∈ List.range n,
        (if i ∈ a :: rest then (1 : ℕ) else 0) =
          (if i = a then 1 else 0) + (if i ∈ rest then 1 else 0) := by
      intro i _
      by_cases h1 : i = a
      · subst h1
        simp [hna]
      · by_cases h2 : i ∈ rest <;> simp [h1, h2]
    rw [List.map_congr_left heq, sum_map_add,
      sum_range_indicator_single, ih (List.nodup_cons.1 hnd).2
        (fun i hi => hlt i (List.mem_cons_of_mem a hi)),
      if_pos (hlt a (List.mem_cons_self a rest))]
    simp only [List.length_cons]
    omega

theorem modNameCount_applyMod (seq : ModSeq) (mod m : String) (combo : List ℕ)
    (hnd : combo.Nodup) (hlt : ∀ i ∈ combo, i < seq.length) :
    modNameCount m (applyMod seq mod combo) =
      modNameCount m seq + (if mod = m then combo.length else 0) := by
  have key : modNameCount m (applyMod seq mod combo) =
      (seq.enum.map fun p : ℕ × Residue => p.2.2.count m).sum +
      (seq.enum.map fun p : ℕ × Residue =>
        if p.1 ∈ combo then (if mod = m then 1 else 0) else 0).sum := by
    unfold modNameCount applyMod
    rw [List.map_map, ← sum_map_add]
    apply congrArg
    apply List.map_congr_left
    intro p _
    by_cases hc : p.1 ∈ combo
    · simp only [Function.comp_apply, hc, if_true, List.count_append]
      by_cases hm : mod = m
      · subst hm
        simp
      · have hm2 : ¬(m = mod) := fun hh => hm hh.symm
        simp [List.count_cons, hm2]
        exact hm
    · simp [hc]
  rw [key]
  have h1 : (seq.enum.map fun p : ℕ × Residue => p.2.2.count m).sum =
      modNameCount m seq := by
    have he : (seq.enum.map fun p : ℕ × Residue => p.2.2.count m) =
        (seq.enum.map Prod.snd).map fun r : Residue => r.2.count m := by
      rw [List.map_map]
      rfl
    rw [he, List.enum_map_snd]
    rfl
  have h2 : (seq.enum.map fun p : ℕ × Residue =>
      if p.1 ∈ combo then (if mod = m then 1 else 0) else 0).sum =
      if mod = m then combo.length else 0 := by
    by_cases hm : mod = m
    · simp only [hm, if_true]
      have he : (seq.enum.map fun p : ℕ × Residue =>
          if p.1 ∈ combo then (1 : ℕ) else 0) =
          (seq.enum.map Prod.fst).map fun i => if i ∈ combo then (1 : ℕ) else 0 := by
        rw [List.map_map]
        rfl
      rw [he, List.enum_map_fst, sum_range_indicator combo seq.length hnd hlt]
    · simp [hm]
  rw [h1, h2]

theorem gen_fold_mem {f : List ℕ → List ModSeq × Option String} :
    ∀ (combos : List (List ℕ)) (acc : List ModSeq × Option String) (s' : ModSeq),
      s' ∈ (combos.foldl
        (fun acc combo =>
          if acc.2.isSome then acc
          else
            let r := f combo
            (acc.1 ++ r.1, r.2)) acc).1 →
      s' ∈ acc.1 ∨ ∃ combo ∈ combos, s' ∈ (f combo).1 := by
  intro combos
  induction combos with
  | nil =>
    intro acc s' h
    exact Or.inl h
  | cons c cs ih =>
    intro acc s' h
    rw [List.foldl_cons] at h
    by_cases hs : acc.2.isSome
    · rw [if_pos hs] at h
      rcases ih acc s' h with h' | ⟨combo, hc, hm⟩
      · exact Or.inl h'
      · exact Or.inr ⟨combo, List.mem_cons_of_mem c hc, hm⟩
    · rw [if_neg hs] at h
      rcases ih _ s' h with h' | ⟨combo, hc, hm⟩
      · rcases List.mem_append.1 h' with h'' | h''
        · exact Or.inl h''
        · exact Or.inr ⟨c, List.mem_cons_self c cs, h''⟩
      · exact Or.inr ⟨combo, List.mem_cons_of_mem c hc, hm⟩

theorem gen_mods_sound (pep : String) :
    ∀ (specs : List VarModSpec) (seq s' : ModSeq),
      s' ∈ (gen_mods pep seq specs).1 →
      (∀ m, modNameCount m s' = modNameCount m seq + declaredCount m specs) ∧
      s'.length = seq.length ∧
      (∀ i (hi : i < seq.length) (hi' : i < s'.length),
        (getElem s' (i) hi').1 = (getElem seq (i) hi).1 ∧
        ((getElem s' (i) hi').2 = (getElem seq (i) hi).2 ∨
          ((getElem seq (i) hi).2 = [] ∧ ∃ v ∈ specs, (getElem s' (i) hi').2 = [v.2.1] ∧
            (getElem seq (i) hi).1 ∈ v.2.2))) := by
  intro specs
  induction specs with
  | nil =>
    intro seq s' h
    simp only [gen_mods, List.mem_singleton] at h
    subst h
    refine ⟨fun m => by simp [declaredCount], rfl, fun i hi hi' => ⟨rfl, Or.inl rfl⟩⟩
  | cons spec rest ih =>
    intro seq s' h
    obtain ⟨count, mod, letters⟩ := spec
    simp only [gen_mods] at h
    split at h
    · simp at h
    · rcases gen_fold_mem _ _ _ h with h' | ⟨combo, hcombo, hmem⟩
      · simp at h'
      · obtain ⟨hsub, hlen⟩ := combinations_sublist _ _ _ hcombo
        have hnd : combo.Nodup :=
          List.Nodup.sublist hsub (modIndices_nodup seq letters)
        have hlt : ∀ i ∈ combo, i < seq.length := fun i hi =>
          mem_modIndices_lt (hsub.subset hi)
        obtain ⟨ihc, ihl, ihg⟩ := ih (applyMod seq mod combo) s' hmem
        have hmidlen : (applyMod seq mod combo).length = seq.length :=
          applyMod_length seq mod combo
        refine ⟨?_, by rw [ihl, hmidlen], ?_⟩
        · intro m
          rw [ihc m, modNameCount_applyMod seq mod m combo hnd hlt, hlen]
          simp only [declaredCount, List.map_cons, List.sum_cons]
          by_cases hm : mod = m
          · simp [hm, declaredCount]
            omega
          · have hm2 : ¬((count, mod, letters) : VarModSpec).2.1 = m := hm
            simp [hm, hm2, declaredCount]
        · intro i hi hi'
          have hmid : i < (applyMod seq mod combo).length := by
            rw [hmidlen]; exact hi
          obtain ⟨hg1, hg2⟩ := ihg i hmid hi'
          rw [applyMod_getElem seq mod combo hi] at hg1 hg2
          simp only at hg1 hg2
          refine ⟨hg1, ?_⟩
          by_cases hc : i ∈ combo
          · obtain ⟨hilt, hlett, hempty⟩ := mem_modIndices (hsub.subset hc)
            rw [if_pos hc] at hg2
            rcases hg2 with hg2 | ⟨hg2, _⟩
            · right
              rw [hempty] at hg2
              exact ⟨hempty, ⟨(count, mod, letters), List.mem_cons_self _ _,
                by simpa using hg2, hlett⟩⟩
            · rw [hempty] at hg2
              simp at hg2
          · rw [if_neg hc] at hg2
            rcases hg2 with hg2 | ⟨hg2, v, hv, hg3, hg4⟩
            · exact Or.inl hg2
            · exact Or.inr ⟨hg2, v, List.mem_cons_of_mem _ hv, hg3, hg4⟩

theorem stableInsert_perm {α : Type} (le : α → α → Bool) (x : α) :
    ∀ l : List α, (stableInsert le x l).Perm (x :: l) := by
  intro l
  induction l with
  | nil => exact List.Perm.refl _
  | cons y ys ih =>
    simp only [stableInsert]
    split
    · exact List.Perm.refl _
    · exact List.Perm.trans (List.Perm.cons y ih) (List.Perm.swap x y ys)

theorem sortBy_perm {α : Type} (le : α → α → Bool) :
    ∀ l : List α, (sortBy le l).Perm l := by
  intro l
  induction l with
  | nil => exact List.Perm.refl _
  | cons a as ih =>
    exact List.Perm.trans (stableInsert_perm le a (sortBy le as))
      (List.Perm.cons a ih)

theorem mem_stableInsert {α : Type} {le : α → α → Bool} {x z : α} {l : List α} :
    z ∈ stableInsert le x l ↔ z = x ∨ z ∈ l :=
  ⟨fun h => by
    have := (stableInsert_perm le x l).mem_iff.1 h
    simpa using this,
   fun h => (stableInsert_perm le x l).mem_iff.2 (by simpa using h)⟩

theorem map_pair_snd_nil {r : Residue} {tmp : List String}
    (hr : r ∈ tmp.map fun l => (l, ([] : List String))) : r.2 = [] := by
  rcases List.mem_map.1 hr with ⟨l, _, rfl⟩
  rfl

/-- C1: every sequence yielded by gen_possible_seq assigns each modification
name to residues exactly as many times in total as the declared counts of
the specs carrying that name, places each tag only on residues whose
letter is eligible for a spec carrying that tag, and gives each residue at
most one tag. -/
theorem claim_C1 (pep : String) (var_mods : List VarModSpec) (s' : ModSeq)
    (h : s' ∈ (gen_possible_seq pep var_mods).1) :
    (∀ m, modNameCount m s' = declaredCount m var_mods) ∧
    (∀ r ∈ s', ∀ m ∈ r.2, ∃ v ∈ var_mods, v.2.1 = m ∧ r.1 ∈ v.2.2) ∧
    (∀ r ∈ s', r.2.length ≤ 1) := by
  simp only [gen_possible_seq] at h
  set seq0 := (("N-term" :: pep.toList.map Char.toString ++ ["C-term"]).map
    fun l => (l, ([] : List String))) with hseq0
  set sorted := sortBy
    (fun a b : VarModSpec => decide (a.2.2.length ≤ b.2.2.length)) var_mods
    with hsorted
  obtain ⟨hc, hlen, hg⟩ := gen_mods_sound pep sorted seq0 s' h
  have hperm : sorted.Perm var_mods := sortBy_perm _ var_mods
  have hdecl : ∀ m, declaredCount m sorted = declaredCount m var_mods :=
    fun m => List.Perm.sum_eq (List.Perm.map _ hperm)
  have hzero : ∀ m, modNameCount m seq0 = 0 := by
    intro m
    refine List.sum_eq_zero ?_
    intro x hx
    rcases List.mem_map.1 hx with ⟨r, hr, rfl⟩
    rw [map_pair_snd_nil hr]
    rfl
  have hseq0snd : ∀ (i : ℕ) (hi : i < seq0.length), (getElem seq0 (i) hi).2 = [] :=
    fun i hi => map_pair_snd_nil (List.getElem_mem hi)
  refine ⟨?_, ?_, ?_⟩
  · intro m
    rw [hc m, hzero m, hdecl m, Nat.zero_add]
  · intro r hr m hm
    obtain ⟨i, hi', hri⟩ := List.mem_iff_getElem.1 hr
    have hi0 : i < seq0.length := by rw [← hlen]; exact hi'
    obtain ⟨h1, h2⟩ := hg i hi0 hi'
    rcases h2 with h2 | ⟨_, v, hv, hveq, hvlet⟩
    · exfalso
      rw [← hri, h2, hseq0snd i hi0] at hm
      exact List.not_mem_nil m hm
    · refine ⟨v, hperm.mem_iff.1 hv, ?_, ?_⟩
      · rw [← hri, hveq] at hm
        rw [List.mem_singleton] at hm
        exact hm.symm
      · rw [← hri, h1]
        exact hvlet
  · intro r hr
    obtain ⟨i, hi', hri⟩ := List.mem_iff_getElem.1 hr
    have hi0 : i < seq0.length := by rw [← hlen]; exact hi'
    obtain ⟨h1, h2⟩ := hg i hi0 hi'
    rcases h2 with h2 | ⟨_, v, hv, hveq, hvlet⟩
    · rw [← hri, h2, hseq0snd i hi0]
      simp
    · rw [← hri, hveq]
      simp

/-- Witness for C1 at the test peptide IEFTTER with one Phospho on T. -/
theorem claim_C1_witness :
    ([("N-term", []), ("I", []), ("E", []), ("F", []), ("T", ["Phospho"]),
      ("T", []), ("E", []), ("R", []), ("C-term", [])] : ModSeq) ∈
      (gen_possible_seq "IEFTTER" [(1, "Phospho", ["T"])]).1 ∧
    ((∀ m, modNameCount m
        [("N-term", []), ("I", []), ("E", []), ("F", []), ("T", ["Phospho"]),
         ("T", []), ("E", []), ("R", []), ("C-term", [])] =
        declaredCount m [(1, "Phospho", ["T"])]) ∧
     (∀ r ∈ ([("N-term", []), ("I", []), ("E", []), ("F", []),
         ("T", ["Phospho"]), ("T", []), ("E", []), ("R", []),
         ("C-term", [])] : ModSeq), ∀ m ∈ r.2,
        ∃ v ∈ [((1 : ℕ), "Phospho", ["T"])], v.2.1 = m ∧ r.1 ∈ v.2.2) ∧
     (∀ r ∈ ([("N-term", []), ("I", []), ("E", []), ("F", []),
         ("T", ["Phospho"]), ("T", []), ("E", []), ("R", []),
         ("C-term", [])] : ModSeq), r.2.length ≤ 1)) :=
  ⟨by decide, claim_C1 "IEFTTER" [(1, "Phospho", ["T"])] _ (by decide)⟩

/-- C3 evaluation at a failing input: on peptide AB with a required Phospho
on T there are no eligible sites, so enumeration yields nothing and raises;
the message names the modification, but the interpolated peptide is
pep_seq[1:-1] = the empty string rather than AB, because the source slices
the plain peptide string instead of the sentinel-wrapped list. -/
theorem claim_C3_failing_eval :
    gen_possible_seq "AB" [(1, "Phospho", ["T"])] =
      ([], some
        "Too few sites for modification \"1 Phospho (T)\" in peptide \"\"") := by
  decide

/-! ### Lemmas on the spectrum matcher -/

theorem stableInsert_pairwise {α : Type} {le : α → α → Bool}
    (htrans : ∀ a b c, le a b = true → le b c = true → le a c = true)
    (htot : ∀ a b, le a b = true ∨ le b a = true) (x : α) :
    ∀ {l : List α}, l.Pairwise (fun a b => le a b = true) →
      (stableInsert le x l).Pairwise (fun a b => le a b = true) := by
  intro l
  induction l with
  | nil =>
    intro _
    simp [stableInsert]
  | cons y ys ih =>
    intro hl
    rw [List.pairwise_cons] at hl
    obtain ⟨hy, hys⟩ := hl
    simp only [stableInsert]
    split
    · rename_i hxy
      rw [List.pairwise_cons]
      constructor
      · intro z hz
        rcases List.mem_cons.1 hz with rfl | hz
        · exact hxy
        · exact htrans x y z hxy (hy z hz)
      · exact List.pairwise_cons.2 ⟨hy, hys⟩
    · rename_i hxy
      have hyx : le y x = true := by
        rcases htot x y with h | h
        · exact absurd h hxy
        · exact h
      rw [List.pairwise_cons]
      constructor
      · intro z hz
        rcases mem_stableInsert.1 hz with rfl | hz
        · exact hyx
        · exact hy z hz
      · exact ih hys

theorem sortBy_pairwise {α : Type} {le : α → α → Bool}
    (htrans : ∀ a b c, le a b = true → le b c = true → le a c = true)
    (htot : ∀ a b, le a b = true ∨ le b a = true) :
    ∀ l : List α, (sortBy le l).Pairwise (fun a b => le a b = true) := by
  intro l
  induction l with
  | nil => simp [sortBy]
  | cons a as ih => exact stableInsert_pairwise htrans htot a ih

theorem ppm_mono {mz a b : ℚ} (hmz : 0 ≤ mz) (ha : 0 < a) (hab : a ≤ b) :
    1000000 * (a - mz) / a ≤ 1000000 * (b - mz) / b := by
  have hb : 0 < b := lt_of_lt_of_le ha hab
  rw [div_le_div_iff₀ ha hb]
  nlinarith

theorem ppm_mono_mz {mz mz' a : ℚ} (ha : 0 < a) (h : mz ≤ mz') :
    1000000 * (a - mz') / a ≤ 1000000 * (a - mz) / a := by
  rw [div_le_div_iff₀ ha ha]
  nlinarith

theorem ppm_abs {mz imz : ℚ} (hi : 0 < imz) :
    1000000 * |imz - mz| / imz = |1000000 * (imz - mz) / imz| := by
  rw [abs_div, abs_mul, abs_of_pos hi]
  norm_num

theorem not_in_tol_of_heavy {tol mz imz : ℚ} (hi : 0 < imz)
    (h : 1000000 * (imz - mz) / imz ≥ 3 / 2 * tol) :
    in_tol tol mz imz = false := by
  rw [in_tol, decide_eq_false_iff_not, ppm_abs hi]
  intro hlt
  have := le_abs_self (1000000 * (imz - mz) / imz)
  linarith

theorem not_in_tol_of_light {tol mz imz : ℚ} (hi : 0 < imz)
    (h : 1000000 * (imz - mz) / imz ≤ -(3 / 2 * tol)) :
    in_tol tol mz imz = false := by
  rw [in_tol, decide_eq_false_iff_not, ppm_abs hi]
  intro hlt
  have := neg_abs_le (1000000 * (imz - mz) / imz)
  linarith

theorem scan_ions_cands (mz tol : ℚ) (hmz : 0 ≤ mz) :
    ∀ (l : List (String × ℚ)) (idx : ℕ),
      l.Pairwise (fun a b => a.2 ≤ b.2) → (∀ p ∈ l, 0 < p.2) →
      (scan_ions mz tol l idx).1 =
        (l.filter fun p => in_tol tol mz p.2).map fun p =>
          (p.1, p.2, |p.2 - mz|) := by
  intro l
  induction l with
  | nil => intro idx _ _; rfl
  | cons q rest ih =>
    intro idx hsort hpos
    obtain ⟨nm, imz⟩ := q
    rw [List.pairwise_cons] at hsort
    obtain ⟨hhd, hrest⟩ := hsort
    have hipos : 0 < imz := hpos (nm, imz) (List.mem_cons_self _ _)
    have ihr := ih (idx + 1) hrest fun p hp => hpos p (List.mem_cons_of_mem _ hp)
    by_cases c1 : 1000000 * |imz - mz| / imz < 3 / 2 * tol
    · have hf : in_tol tol mz imz = true := by
        rw [in_tol, decide_eq_true_eq]
        exact c1
      simp only [scan_ions, if_pos c1, List.filter_cons, hf, if_true,
        List.map_cons]
      rw [ihr]
    · by_cases c2 : 1000000 * (imz - mz) / imz > 3 / 2 * tol
      · have hall : ∀ p ∈ (nm, imz) :: rest, in_tol tol mz p.2 = false := by
          intro p hp
          rcases List.mem_cons.1 hp with rfl | hp
          · exact not_in_tol_of_heavy hipos (le_of_lt c2)
          · have hple : imz ≤ p.2 := hhd p hp
            have hppos : 0 < p.2 := hpos p (List.mem_cons_of_mem _ hp)
            exact not_in_tol_of_heavy hppos
              (le_trans (le_of_lt c2) (ppm_mono hmz hipos hple))
        simp only [scan_ions, if_neg c1, if_pos c2]
        rw [List.filter_eq_nil_iff.2 (by intro p hp; rw [hall p hp]; simp)]
        rfl
      · have hf : in_tol tol mz imz = false := by
          rw [in_tol, decide_eq_false_iff_not]
          exact c1
        simp only [scan_ions, if_neg c1, if_neg c2, List.filter_cons, hf]
        rw [ihr]
        simp

theorem scan_ions_none (mz tol : ℚ) (htol : 0 ≤ tol) (hmz : 0 ≤ mz) :
    ∀ (l : List (String × ℚ)) (idx : ℕ),
      l.Pairwise (fun a b => a.2 ≤ b.2) → (∀ p ∈ l, 0 < p.2) →
      (∀ p ∈ l, 1000000 * (p.2 - mz) / p.2 ≥ 3 / 2 * tol) →
      (scan_ions mz tol l idx).2 = none := by
  intro l
  induction l with
  | nil => intro idx _ _ _; rfl
  | cons q rest ih =>
    intro idx hsort hpos hge
    obtain ⟨nm, imz⟩ := q
    rw [List.pairwise_cons] at hsort
    have hipos : 0 < imz := hpos (nm, imz) (List.mem_cons_self _ _)
    have hhead : 1000000 * (imz - mz) / imz ≥ 3 / 2 * tol :=
      hge (nm, imz) (List.mem_cons_self _ _)
    have c1 : ¬1000000 * |imz - mz| / imz < 3 / 2 * tol := by
      rw [ppm_abs hipos]
      have := le_abs_self (1000000 * (imz - mz) / imz)
      linarith
    by_cases c2 : 1000000 * (imz - mz) / imz > 3 / 2 * tol
    · simp only [scan_ions, if_neg c1, if_pos c2]
    · simp only [scan_ions, if_neg c1, if_neg c2]
      exact ih (idx + 1) hsort.2 (fun p hp => hpos p (List.mem_cons_of_mem _ hp))
        (fun p hp => hge p (List.mem_cons_of_mem _ hp))

theorem scan_ions_fst (mz tol : ℚ) (htol : 0 ≤ tol) (hmz : 0 ≤ mz) :
    ∀ (l : List (String × ℚ)) (idx r : ℕ),
      l.Pairwise (fun a b => a.2 ≤ b.2) → (∀ p ∈ l, 0 < p.2) →
      (scan_ions mz tol l idx).2 = some r →
      idx ≤ r ∧ r - idx < l.length ∧
      ∀ j (hj : j < l.length), j < r - idx →
        1000000 * ((getElem l (j) hj).2 - mz) / (getElem l (j) hj).2 ≤ -(3 / 2 * tol) := by
  intro l
  induction l with
  | nil =>
    intro idx r _ _ h
    simp [scan_ions] at h
  | cons q rest ih =>
    intro idx r hsort hpos h
    obtain ⟨nm, imz⟩ := q
    rw [List.pairwise_cons] at hsort
    obtain ⟨hhd, hrest⟩ := hsort
    have hipos : 0 < imz := hpos (nm, imz) (List.mem_cons_self _ _)
    by_cases c1 : 1000000 * |imz - mz| / imz < 3 / 2 * tol
    · simp only [scan_ions, if_pos c1] at h
      have hr : r = idx := by
        have := h
        simp at this
        omega
      subst hr
      exact ⟨le_refl _, by simp, fun j hj hjr => by omega⟩
    · by_cases c2 : 1000000 * (imz - mz) / imz > 3 / 2 * tol
      · simp only [scan_ions, if_neg c1, if_pos c2] at h
        simp at h
      · simp only [scan_ions, if_neg c1, if_neg c2] at h
        by_cases cb : 1000000 * (imz - mz) / imz ≥ 3 / 2 * tol
        · exfalso
          have hnone : (scan_ions mz tol rest (idx + 1)).2 = none := by
            apply scan_ions_none mz tol htol hmz rest (idx + 1) hrest
              (fun p hp => hpos p (List.mem_cons_of_mem _ hp))
            intro p hp
            have hple : imz ≤ p.2 := hhd p hp
            have hppos : 0 < p.2 := hpos p (List.mem_cons_of_mem _ hp)
            exact le_trans cb (ppm_mono hmz hipos hple)
          rw [hnone] at h
          exact Option.noConfusion h
        · have hlight : 1000000 * (imz - mz) / imz ≤ -(3 / 2 * tol) := by
            rw [ppm_abs hipos] at c1
            push_neg at c1 cb
            rcases abs_cases (1000000 * (imz - mz) / imz) with ⟨he, _⟩ | ⟨he, _⟩ <;>
              rw [he] at c1 <;> linarith
          obtain ⟨h1, h2, h3⟩ := ih (idx + 1) r hrest
            (fun p hp => hpos p (List.mem_cons_of_mem _ hp)) h
          refine ⟨by omega, by simp; omega, ?_⟩
          intro j hj hjr
          match j with
          | 0 => exact hlight
          | j + 1 =>
            have hj' : j < rest.length := by simpa using hj
            have := h3 j hj' (by omega)
            simpa using this

theorem take_ppm_light {ions : List (String × ℚ)} {cursor : ℕ} {mz tol : ℚ}
    (hinv : ∀ j (hjl : j < ions.length), j < cursor →
      1000000 * ((getElem ions (j) hjl).2 - mz) / (getElem ions (j) hjl).2 ≤ -(3 / 2 * tol))
    (hpos : ∀ p ∈ ions, 0 < p.2) :
    ∀ p ∈ ions.take cursor, 1000000 * (p.2 - mz) / p.2 ≤ -(3 / 2 * tol) := by
  intro p hp
  obtain ⟨j, hj, hpj⟩ := List.mem_iff_getElem.1 hp
  have hjl : j < ions.length := lt_of_lt_of_le hj (by simp [List.length_take])
  have hjc : j < cursor := lt_of_lt_of_le hj (by simp [List.length_take])
  rw [List.getElem_take] at hpj
  subst hpj
  exact hinv j hjl hjc

theorem compare_loop_ok (ions : List (String × ℚ)) (tol maxY : ℚ)
    (hs : ions.Pairwise (fun a b => a.2 ≤ b.2)) (hpos : ∀ p ∈ ions, 0 < p.2)
    (htol : 0 ≤ tol) :
    ∀ (peaks : List (ℚ × ℚ)) (cursor : ℕ) (lastMz : ℚ),
      0 ≤ lastMz →
      List.Pairwise (fun a b : ℚ => a ≤ b) (lastMz :: peaks.map Prod.fst) →
      (∀ j (hjl : j < ions.length), j < cursor →
        1000000 * ((getElem ions (j) hjl).2 - lastMz) / (getElem ions (j) hjl).2 ≤
          -(3 / 2 * tol)) →
      compare_loop ions tol maxY peaks cursor lastMz =
        .ok (peaks.map fun q =>
          process_cands maxY q.1 q.2 (ideal_cands ions tol q.1)) := by
  intro peaks
  induction peaks with
  | nil => intro cursor lastMz _ _ _; rfl
  | cons q rest ih =>
    intro cursor lastMz hlast hpair hinv
    obtain ⟨mz, intensity⟩ := q
    rw [List.pairwise_cons] at hpair
    obtain ⟨hhd, hpair'⟩ := hpair
    have hlm : lastMz ≤ mz := hhd mz (by simp)
    have hmz : 0 ≤ mz := le_trans hlast hlm
    have hnlt : ¬mz < lastMz := not_lt.2 hlm
    have hsdrop : (ions.drop cursor).Pairwise (fun a b => a.2 ≤ b.2) :=
      List.Pairwise.sublist (List.drop_sublist cursor ions) hs
    have hposdrop : ∀ p ∈ ions.drop cursor, 0 < p.2 :=
      fun p hp => hpos p ((List.drop_subset cursor ions) hp)
    have hinvmz : ∀ j (hjl : j < ions.length), j < cursor →
        1000000 * ((getElem ions (j) hjl).2 - mz) / (getElem ions (j) hjl).2 ≤
          -(3 / 2 * tol) := by
      intro j hjl hjc
      have := hinv j hjl hjc
      have hppos : 0 < (getElem ions (j) hjl).2 := hpos _ (List.getElem_mem hjl)
      exact le_trans (ppm_mono_mz hppos hlm) this
    have htake : (ions.take cursor).filter (fun p => in_tol tol mz p.2) = [] := by
      apply List.filter_eq_nil_iff.2
      intro p hp
      have hl := take_ppm_light hinvmz hpos p hp
      have hppos : 0 < p.2 := hpos p ((List.take_subset cursor ions) hp)
      rw [not_in_tol_of_light hppos hl]
      simp
    have hcands : (scan_ions mz tol (ions.drop cursor) 0).1 =
        ideal_cands ions tol mz := by
      rw [scan_ions_cands mz tol hmz (ions.drop cursor) 0 hsdrop hposdrop]
      unfold ideal_cands
      have hfe : ions.filter (fun p => in_tol tol mz p.2) =
          (ions.drop cursor).filter (fun p => in_tol tol mz p.2) := by
        conv_lhs => rw [← List.take_append_drop cursor ions]
        rw [List.filter_append, htake, List.nil_append]
      rw [hfe]
    have hnext : ∀ j (hjl : j < ions.length),
        j < ((scan_ions mz tol (ions.drop cursor) 0).2.getD cursor) →
        1000000 * ((getElem ions (j) hjl).2 - mz) / (getElem ions (j) hjl).2 ≤
          -(3 / 2 * tol) := by
      intro j hjl hjc
      cases hfst : (scan_ions mz tol (ions.drop cursor) 0).2 with
      | none =>
        rw [hfst] at hjc
        simp at hjc
        exact hinvmz j hjl hjc
      | some rr =>
        rw [hfst] at hjc
        simp at hjc
        obtain ⟨h1, h2, h3⟩ := scan_ions_fst mz tol htol hmz
          (ions.drop cursor) 0 rr hsdrop hposdrop hfst
        by_cases hjcur : j < cursor
        · exact hinvmz j hjl hjcur
        · have hjd : j - cursor < (ions.drop cursor).length := by
            simp only [List.length_drop]
            omega
          have hje : getElem (ions.drop cursor) (j - cursor) hjd = getElem ions (j) hjl := by
            rw [List.getElem_drop]
            congr 1
            omega
          have := h3 (j - cursor) hjd (by omega)
          rw [hje] at this
          exact this
    simp only [compare_loop, if_neg hnlt]
    rw [ih ((scan_ions mz tol (ions.drop cursor) 0).2.getD cursor) mz hmz
      (by simpa using hpair') hnext]
    rw [hcands]
    rfl

theorem sorted_ions_pairwise (ions : List (String × ℚ)) :
    (sortBy (fun a b : String × ℚ => decide (a.2 ≤ b.2)) ions).Pairwise
      (fun a b => a.2 ≤ b.2) := by
  have h := @sortBy_pairwise (String × ℚ)
    (fun a b : String × ℚ => decide (a.2 ≤ b.2))
    (fun a b c hab hbc => by
      simp only [decide_eq_true_eq] at *
      exact le_trans hab hbc)
    (fun a b => by
      simp only [decide_eq_true_eq]
      exact le_total a.2 b.2) ions
  exact h.imp fun hab => by simpa using hab

theorem compare_spectra_ok (peaks : List (ℚ × ℚ)) (ions : List (String × ℚ))
    (tol : ℚ) (hne : peaks ≠ [])
    (hpk : List.Pairwise (fun a b : ℚ => a ≤ b) ((0 : ℚ) :: peaks.map Prod.fst))
    (hpos : ∀ p ∈ ions, 0 < p.2) (htol : 0 ≤ tol) :
    compare_spectra peaks ions (some tol) =
      .ok (peaks.map fun q => process_cands (spectrum_max peaks) q.1 q.2
        (ideal_cands (sortBy (fun a b => decide (a.2 ≤ b.2)) ions) tol q.1)) := by
  match peaks, hne with
  | p :: ps, _ =>
    have hpos' : ∀ q ∈ sortBy (fun a b : String × ℚ => decide (a.2 ≤ b.2)) ions,
        0 < q.2 := fun q hq => hpos q ((sortBy_perm _ ions).mem_iff.1 hq)
    have := compare_loop_ok
      (sortBy (fun a b : String × ℚ => decide (a.2 ≤ b.2)) ions) tol
      (spectrum_max (p :: ps)) (sorted_ions_pairwise ions) hpos' htol
      (p :: ps) 0 0 (le_refl 0) hpk (by intro j hjl hj0; omega)
    exact this

theorem process_cands_match_list (maxY mz i : ℚ)
    (cands : List (String × ℚ × ℚ)) :
    (process_cands maxY mz i cands).match_list =
      if cands = [] then none else some cands := by
  cases cands with
  | nil => rfl
  | cons c cs =>
    simp only [process_cands]
    split <;> simp

theorem process_cands_empty (maxY mz i : ℚ) :
    process_cands maxY mz i [] = ⟨mz, i, none, none, none, none, 0⟩ := rfl

theorem foldl_min_spec {α : Type} (f : α → ℚ) :
    ∀ (cs : List α) (c : α),
      (cs.foldl (fun acc x => if f x < f acc then x else acc) c) ∈ c :: cs ∧
      ∀ y ∈ c :: cs,
        f (cs.foldl (fun acc x => if f x < f acc then x else acc) c) ≤ f y := by
  intro cs
  induction cs with
  | nil =>
    intro c
    refine ⟨List.mem_cons_self _ _, ?_⟩
    intro y hy
    rw [List.mem_singleton] at hy
    subst hy
    exact le_refl _
  | cons x cs ih =>
    intro c
    simp only [List.foldl_cons]
    obtain ⟨hmem, hle⟩ := ih (if f x < f c then x else c)
    have hite : (if f x < f c then x else c) ∈ c :: x :: cs := by
      split <;> simp
    constructor
    · rcases List.mem_cons.1 hmem with h | h
      · rw [h]
        exact hite
      · exact List.mem_cons_of_mem _ (List.mem_cons_of_mem _ h)
    · have hbase := hle _ (List.mem_cons_self _ _)
      intro y hy
      rcases List.mem_cons.1 hy with rfl | hy
      · refine le_trans hbase ?_
        split
        · rename_i hc
          exact le_of_lt hc
        · exact le_refl _
      · rcases List.mem_cons.1 hy with rfl | hy
        · refine le_trans hbase ?_
          split
          · exact le_refl _
          · rename_i hc
            exact le_of_not_lt hc
        · exact hle y (List.mem_cons_of_mem _ hy)

theorem foldl_max_spec {α : Type} (f : α → ℤ) :
    ∀ (cs : List α) (c : α),
      (cs.foldl (fun acc x => if f x > f acc then x else acc) c) ∈ c :: cs ∧
      ∀ y ∈ c :: cs,
        f y ≤ f (cs.foldl (fun acc x => if f x > f acc then x else acc) c) := by
  intro cs
  induction cs with
  | nil =>
    intro c
    refine ⟨List.mem_cons_self _ _, ?_⟩
    intro y hy
    rw [List.mem_singleton] at hy
    subst hy
    exact le_refl _
  | cons x cs ih =>
    intro c
    simp only [List.foldl_cons]
    obtain ⟨hmem, hle⟩ := ih (if f x > f c then x else c)
    have hite : (if f x > f c then x else c) ∈ c :: x :: cs := by
      split <;> simp
    constructor
    · rcases List.mem_cons.1 hmem with h | h
      · rw [h]
        exact hite
      · exact List.mem_cons_of_mem _ (List.mem_cons_of_mem _ h)
    · have hbase := hle _ (List.mem_cons_self _ _)
      intro y hy
      rcases List.mem_cons.1 hy with rfl | hy
      · refine le_trans ?_ hbase
        split
        · rename_i hc
          exact le_of_lt hc
        · exact le_refl _
      · rcases List.mem_cons.1 hy with rfl | hy
        · refine le_trans ?_ hbase
          split
          · exact le_refl _
          · rename_i hc
            exact le_of_not_lt hc
        · exact hle y (List.mem_cons_of_mem _ hy)

theorem closest_ion_spec (cands : List (String × ℚ × ℚ)) (hne : cands ≠ []) :
    ∃ c ∈ cands, c.1 = closest_ion cands ∧ ∀ q ∈ cands, c.2.2 ≤ q.2.2 := by
  match cands, hne with
  | c :: cs, _ =>
    obtain ⟨hmem, hle⟩ := foldl_min_spec (fun q : String × ℚ × ℚ => q.2.2) cs c
    exact ⟨_, hmem, rfl, hle⟩

theorem best_ion_spec (cands : List (String × ℚ × ℚ)) (hne : cands ≠ []) :
    ∃ s ∈ scores_with_bonus cands, s.1 = best_ion cands ∧
      ∀ q ∈ scores_with_bonus cands, q.2 ≤ s.2 := by
  have hnee : scores_with_bonus cands ≠ [] := by
    match cands, hne with
    | c :: cs, _ => simp [scores_with_bonus, ion_scores]
  cases hsw : scores_with_bonus cands with
  | nil => exact absurd hsw hnee
  | cons s ss =>
    have hbe : best_ion cands =
        (ss.foldl (fun acc x => if x.2 > acc.2 then x else acc) s).1 := by
      simp only [best_ion, hsw]
    obtain ⟨hmem, hle⟩ := foldl_max_spec (fun q : String × ℤ => q.2) ss s
    exact ⟨_, hmem, hbe.symm, hle⟩

theorem scores_with_bonus_spec (cands : List (String × ℚ × ℚ)) :
    ∀ s ∈ scores_with_bonus cands,
      s.2 = calculate_ion_score s.1 +
        (if s.1 = closest_ion cands then 1 else 0) := by
  intro s hs
  simp only [scores_with_bonus, ion_scores, List.map_map, List.mem_map,
    Function.comp_apply] at hs
  obtain ⟨q, _, hqs⟩ := hs
  subst hqs
  by_cases hc : q.1 = closest_ion cands <;> simp [hc]

theorem closest_count_one (cands : List (String × ℚ × ℚ)) (hne : cands ≠ [])
    (hnd : (cands.map Prod.fst).Nodup) :
    (cands.map Prod.fst).count (closest_ion cands) = 1 := by
  obtain ⟨c, hc, hc1, _⟩ := closest_ion_spec cands hne
  have hmem : closest_ion cands ∈ cands.map Prod.fst :=
    List.mem_map.2 ⟨c, hc, hc1⟩
  exact List.count_eq_one_of_mem hnd hmem

theorem process_cands_cons (maxY mz i : ℚ) (c : String × ℚ × ℚ)
    (cs : List (String × ℚ × ℚ)) :
    process_cands maxY mz i (c :: cs) =
      if (decide (i > 1 / 10 * maxY) ||
          startsWithStr (best_ion (c :: cs)) "MH" ||
          startsWithStr (best_ion (c :: cs)) "b_" ||
          startsWithStr (best_ion (c :: cs)) "y_" ||
          (decide (countDash (best_ion (c :: cs)) = 0) &&
            decide (i > 1 / 40 * maxY))) then
        ⟨mz, i, some (best_ion (c :: cs)),
          List.lookup (best_ion (c :: cs)) (scores_with_bonus (c :: cs)),
          List.lookup (best_ion (c :: cs)) (c :: cs), some (c :: cs),
          countDash (best_ion (c :: cs))⟩
      else ⟨mz, i, none, none, none, some (c :: cs), 0⟩ := rfl

/-- C4: with the ion list sorted once by m/z, the advancing-cursor sweep of
compare_spectra assigns every peak exactly the ions within 1.5 times the
tolerance: the output equals the cursor-free rescan per peak, membership
in the candidate list is equivalent to the relative-error bound, and the
candidate list is stored on the hit unchanged. -/
theorem claim_C4 (peaks : List (ℚ × ℚ)) (ions : List (String × ℚ)) (tol : ℚ)
    (hne : peaks ≠ [])
    (hpk : List.Pairwise (fun a b : ℚ => a ≤ b) ((0 : ℚ) :: peaks.map Prod.fst))
    (hpos : ∀ p ∈ ions, 0 < p.2) (htol : 0 ≤ tol) :
    compare_spectra peaks ions (some tol) =
      .ok (peaks.map fun q => process_cands (spectrum_max peaks) q.1 q.2
        (ideal_cands (sortBy (fun a b => decide (a.2 ≤ b.2)) ions) tol q.1)) ∧
    (∀ q ∈ peaks, ∀ nm imz, (nm, imz) ∈ ions →
      ((nm, imz, |imz - q.1|) ∈
          ideal_cands (sortBy (fun a b => decide (a.2 ≤ b.2)) ions) tol q.1 ↔
        1000000 * |imz - q.1| / imz < 3 / 2 * tol)) ∧
    (∀ maxY mz i cands, (process_cands maxY mz i cands).match_list =
      if cands = [] then none else some cands) := by
  refine ⟨compare_spectra_ok peaks ions tol hne hpk hpos htol, ?_,
    process_cands_match_list⟩
  intro q _ nm imz hion
  constructor
  · intro hmem
    simp only [ideal_cands, List.mem_map, List.mem_filter] at hmem
    obtain ⟨p, ⟨_, hptol⟩, hpe⟩ := hmem
    have h1 : p.1 = nm := congrArg (fun t : String × ℚ × ℚ => t.1) hpe
    have h2 : p.2 = imz := congrArg (fun t : String × ℚ × ℚ => t.2.1) hpe
    rw [in_tol, h2, decide_eq_true_eq] at hptol
    exact hptol
  · intro hlt
    simp only [ideal_cands, List.mem_map, List.mem_filter]
    refine ⟨(nm, imz), ⟨(sortBy_perm _ ions).mem_iff.2 hion, ?_⟩, rfl⟩
    rw [in_tol, decide_eq_true_eq]
    exact hlt

/-- Witness for C4 on a two-peak spectrum against a two-ion map. -/
theorem claim_C4_witness :
    compare_spectra [((1 : ℚ), 4), (2, 1)]
        [("b_\x7b1\x7d^\x7b+\x7d", 1), ("MH^\x7b+\x7d", 2)] (some 100000) =
      .ok ([((1 : ℚ), 4), (2, 1)].map fun q =>
        process_cands (spectrum_max [((1 : ℚ), 4), (2, 1)]) q.1 q.2
          (ideal_cands (sortBy (fun a b => decide (a.2 ≤ b.2))
            [("b_\x7b1\x7d^\x7b+\x7d", 1), ("MH^\x7b+\x7d", 2)]) 100000 q.1)) ∧
    (∀ q ∈ ([((1 : ℚ), 4), (2, 1)] : List (ℚ × ℚ)), ∀ nm imz,
      (nm, imz) ∈ [("b_\x7b1\x7d^\x7b+\x7d", (1 : ℚ)), ("MH^\x7b+\x7d", 2)] →
      ((nm, imz, |imz - q.1|) ∈
          ideal_cands (sortBy (fun a b => decide (a.2 ≤ b.2))
            [("b_\x7b1\x7d^\x7b+\x7d", 1), ("MH^\x7b+\x7d", 2)]) 100000 q.1 ↔
        1000000 * |imz - q.1| / imz < 3 / 2 * 100000)) ∧
    (∀ maxY mz i cands, (process_cands maxY mz i cands).match_list =
      if cands = [] then none else some cands) :=
  claim_C4 [((1 : ℚ), 4), (2, 1)]
    [("b_\x7b1\x7d^\x7b+\x7d", 1), ("MH^\x7b+\x7d", 2)] 100000
    (by decide) (by decide) (by decide) (by decide)

/-- C5: candidate scoring of compare_spectra: the bonus goes to a candidate
of minimal absolute error, every score equals the family base score (12
parent, 10 b/y, 0 otherwise) minus one per dash plus the bonus indicator,
with nodup candidate names exactly one candidate is the bonus holder, and
the primary assignment maximizes the resulting score; the pipeline
equality ties this to the emitted hits. -/
theorem claim_C5 (peaks : List (ℚ × ℚ)) (ions : List (String × ℚ)) (tol : ℚ)
    (hne : peaks ≠ [])
    (hpk : List.Pairwise (fun a b : ℚ => a ≤ b) ((0 : ℚ) :: peaks.map Prod.fst))
    (hpos : ∀ p ∈ ions, 0 < p.2) (htol : 0 ≤ tol) :
    compare_spectra peaks ions (some tol) =
      .ok (peaks.map fun q => process_cands (spectrum_max peaks) q.1 q.2
        (ideal_cands (sortBy (fun a b => decide (a.2 ≤ b.2)) ions) tol q.1)) ∧
    (∀ nm, calculate_ion_score nm =
      (if startsWithStr nm "MH" then (12 : ℤ)
       else if startsWithStr nm "b_" || startsWithStr nm "y_" then 10
       else 0) - countDash nm) ∧
    (∀ cands : List (String × ℚ × ℚ), cands ≠ [] →
      (∃ c ∈ cands, c.1 = closest_ion cands ∧ ∀ q ∈ cands, c.2.2 ≤ q.2.2) ∧
      (∀ s ∈ scores_with_bonus cands,
        s.2 = calculate_ion_score s.1 +
          (if s.1 = closest_ion cands then 1 else 0)) ∧
      ((cands.map Prod.fst).Nodup →
        (cands.map Prod.fst).count (closest_ion cands) = 1) ∧
      (∃ s ∈ scores_with_bonus cands, s.1 = best_ion cands ∧
        ∀ q ∈ scores_with_bonus cands, q.2 ≤ s.2) ∧
      (∀ maxY mz i, (process_cands maxY mz i cands).name =
          some (best_ion cands) ∨
        (process_cands maxY mz i cands).name = none)) := by
  refine ⟨compare_spectra_ok peaks ions tol hne hpk hpos htol,
    fun nm => rfl, ?_⟩
  intro cands hcne
  refine ⟨closest_ion_spec cands hcne, scores_with_bonus_spec cands,
    closest_count_one cands hcne, best_ion_spec cands hcne, ?_⟩
  intro maxY mz i
  match cands, hcne with
  | c :: cs, _ =>
    rw [process_cands_cons]
    split
    · left
      rfl
    · right
      rfl

/-- Witness for C5 on the same concrete spectrum as C4. -/
theorem claim_C5_witness :
    compare_spectra [((1 : ℚ), 4), (2, 1)]
        [("b_\x7b1\x7d^\x7b+\x7d", 1), ("MH^\x7b+\x7d", 2)] (some 100000) =
      .ok ([((1 : ℚ), 4), (2, 1)].map fun q =>
        process_cands (spectrum_max [((1 : ℚ), 4), (2, 1)]) q.1 q.2
          (ideal_cands (sortBy (fun a b => decide (a.2 ≤ b.2))
            [("b_\x7b1\x7d^\x7b+\x7d", 1), ("MH^\x7b+\x7d", 2)]) 100000 q.1)) ∧
    (∀ nm, calculate_ion_score nm =
      (if startsWithStr nm "MH" then (12 : ℤ)
       else if startsWithStr nm "b_" || startsWithStr nm "y_" then 10
       else 0) - countDash nm) ∧
    (∀ cands : List (String × ℚ × ℚ), cands ≠ [] →
      (∃ c ∈ cands, c.1 = closest_ion cands ∧ ∀ q ∈ cands, c.2.2 ≤ q.2.2) ∧
      (∀ s ∈ scores_with_bonus cands,
        s.2 = calculate_ion_score s.1 +
          (if s.1 = closest_ion cands then 1 else 0)) ∧
      ((cands.map Prod.fst).Nodup →
        (cands.map Prod.fst).count (closest_ion cands) = 1) ∧
      (∃ s ∈ scores_with_bonus cands, s.1 = best_ion cands ∧
        ∀ q ∈ scores_with_bonus cands, q.2 ≤ s.2) ∧
      (∀ maxY mz i, (process_cands maxY mz i cands).name =
          some (best_ion cands) ∨
        (process_cands maxY mz i cands).name = none)) :=
  claim_C5 [((1 : ℚ), 4), (2, 1)]
    [("b_\x7b1\x7d^\x7b+\x7d", 1), ("MH^\x7b+\x7d", 2)] 100000
    (by decide) (by decide) (by decide) (by decide)

/-- C6: the retention rule of compare_spectra.  For a matched peak the
primary name is kept exactly when the intensity exceeds a tenth of the
spectrum maximum, or the primary is a parent or b/y backbone ion, or it
has no neutral losses and the intensity exceeds a fortieth of the
maximum; otherwise name, score and predicted m/z are cleared while the
candidate list is retained.  The pipeline equality ties this rule to the
hits compare_spectra emits. -/
theorem claim_C6 (peaks : List (ℚ × ℚ)) (ions : List (String × ℚ)) (tol : ℚ)
    (hne : peaks ≠ [])
    (hpk : List.Pairwise (fun a b : ℚ => a ≤ b) ((0 : ℚ) :: peaks.map Prod.fst))
    (hpos : ∀ p ∈ ions, 0 < p.2) (htol : 0 ≤ tol) :
    compare_spectra peaks ions (some tol) =
      .ok (peaks.map fun q => process_cands (spectrum_max peaks) q.1 q.2
        (ideal_cands (sortBy (fun a b => decide (a.2 ≤ b.2)) ions) tol q.1)) ∧
    (∀ (maxY mz i : ℚ) (cands : List (String × ℚ × ℚ)), cands ≠ [] →
      ((process_cands maxY mz i cands).name = some (best_ion cands) ↔
        (i > 1 / 10 * maxY ∨ startsWithStr (best_ion cands) "MH" = true ∨
          startsWithStr (best_ion cands) "b_" = true ∨
          startsWithStr (best_ion cands) "y_" = true ∨
          (countDash (best_ion cands) = 0 ∧ i > 1 / 40 * maxY))) ∧
      (¬(i > 1 / 10 * maxY ∨ startsWithStr (best_ion cands) "MH" = true ∨
          startsWithStr (best_ion cands) "b_" = true ∨
          startsWithStr (best_ion cands) "y_" = true ∨
          (countDash (best_ion cands) = 0 ∧ i > 1 / 40 * maxY)) →
        process_cands maxY mz i cands =
          ⟨mz, i, none, none, none, some cands, 0⟩) ∧
      ((i > 1 / 10 * maxY ∨ startsWithStr (best_ion cands) "MH" = true ∨
          startsWithStr (best_ion cands) "b_" = true ∨
          startsWithStr (best_ion cands) "y_" = true ∨
          (countDash (best_ion cands) = 0 ∧ i > 1 / 40 * maxY)) →
        process_cands maxY mz i cands =
          ⟨mz, i, some (best_ion cands),
            List.lookup (best_ion cands) (scores_with_bonus cands),
            List.lookup (best_ion cands) cands, some cands,
            countDash (best_ion cands)⟩)) := by
  refine ⟨compare_spectra_ok peaks ions tol hne hpk hpos htol, ?_⟩
  intro maxY mz i cands hcne
  match cands, hcne with
  | c :: cs, _ =>
    have hbool : ((decide (i > 1 / 10 * maxY) ||
        startsWithStr (best_ion (c :: cs)) "MH" ||
        startsWithStr (best_ion (c :: cs)) "b_" ||
        startsWithStr (best_ion (c :: cs)) "y_" ||
        (decide (countDash (best_ion (c :: cs)) = 0) &&
          decide (i > 1 / 40 * maxY))) = true) ↔
        (i > 1 / 10 * maxY ∨ startsWithStr (best_ion (c :: cs)) "MH" = true ∨
          startsWithStr (best_ion (c :: cs)) "b_" = true ∨
          startsWithStr (best_ion (c :: cs)) "y_" = true ∨
          (countDash (best_ion (c :: cs)) = 0 ∧ i > 1 / 40 * maxY)) := by
      simp only [Bool.or_eq_true, Bool.and_eq_true, decide_eq_true_eq]
      tauto
    rw [process_cands_cons]
    by_cases hr : (decide (i > 1 / 10 * maxY) ||
        startsWithStr (best_ion (c :: cs)) "MH" ||
        startsWithStr (best_ion (c :: cs)) "b_" ||
        startsWithStr (best_ion (c :: cs)) "y_" ||
        (decide (countDash (best_ion (c :: cs)) = 0) &&
          decide (i > 1 / 40 * maxY))) = true
    · rw [if_pos hr]
      refine ⟨?_, ?_, ?_⟩
      · simp only [true_iff]
        exact hbool.1 hr
      · intro hnp
        exact absurd (hbool.1 hr) hnp
      · intro _
        rfl
    · rw [if_neg hr]
      refine ⟨?_, ?_, ?_⟩
      · simp only
        constructor
        · intro hcon
          exact Option.noConfusion hcon
        · intro hp
          exact absurd (hbool.2 hp) hr
      · intro _
        rfl
      · intro hp
        exact absurd (hbool.2 hp) hr

/-- Witness for C6 on the concrete two-peak spectrum. -/
theorem claim_C6_witness :
    compare_spectra [((1 : ℚ), 4), (2, 1)]
        [("b_\x7b1\x7d^\x7b+\x7d", 1), ("MH^\x7b+\x7d", 2)] (some 100000) =
      .ok ([((1 : ℚ), 4), (2, 1)].map fun q =>
        process_cands (spectrum_max [((1 : ℚ), 4), (2, 1)]) q.1 q.2
          (ideal_cands (sortBy (fun a b => decide (a.2 ≤ b.2))
            [("b_\x7b1\x7d^\x7b+\x7d", 1), ("MH^\x7b+\x7d", 2)]) 100000 q.1)) ∧
    (∀ (maxY mz i : ℚ) (cands : List (String × ℚ × ℚ)), cands ≠ [] →
      ((process_cands maxY mz i cands).name = some (best_ion cands) ↔
        (i > 1 / 10 * maxY ∨ startsWithStr (best_ion cands) "MH" = true ∨
          startsWithStr (best_ion cands) "b_" = true ∨
          startsWithStr (best_ion cands) "y_" = true ∨
          (countDash (best_ion cands) = 0 ∧ i > 1 / 40 * maxY))) ∧
      (¬(i > 1 / 10 * maxY ∨ startsWithStr (best_ion cands) "MH" = true ∨
          startsWithStr (best_ion cands) "b_" = true ∨
          startsWithStr (best_ion cands) "y_" = true ∨
          (countDash (best_ion cands) = 0 ∧ i > 1 / 40 * maxY)) →
        process_cands maxY mz i cands =
          ⟨mz, i, none, none, none, some cands, 0⟩) ∧
      ((i > 1 / 10 * maxY ∨ startsWithStr (best_ion cands) "MH" = true ∨
          startsWithStr (best_ion cands) "b_" = true ∨
          startsWithStr (best_ion cands) "y_" = true ∨
          (countDash (best_ion cands) = 0 ∧ i > 1 / 40 * maxY)) →
        process_cands maxY mz i cands =
          ⟨mz, i, some (best_ion cands),
            List.lookup (best_ion cands) (scores_with_bonus cands),
            List.lookup (best_ion cands) cands, some cands,
            countDash (best_ion cands)⟩)) :=
  claim_C6 [((1 : ℚ), 4), (2, 1)]
    [("b_\x7b1\x7d^\x7b+\x7d", 1), ("MH^\x7b+\x7d", 2)] 100000
    (by decide) (by decide) (by decide) (by decide)

/-- C7 counterexample: on a spectrum with an empty peak list,
compare_spectra does not return an empty result; the computation of
max(spectra.i) fails on the empty sequence. -/
theorem claim_C7_counterexample :
    compare_spectra [] [] none =
      Except.error "ValueError: max() arg is an empty sequence" := rfl

/-- C7 as amended: compare_spectra fails on an empty peak list (Python max
of an empty sequence raises); for a nonempty sorted peak list it runs
without error, and every peak whose candidate set is empty is emitted as
an unassigned hit with m/z and intensity preserved and all matched-ion
fields empty. -/
theorem claim_C7_amended (peaks : List (ℚ × ℚ)) (ions : List (String × ℚ))
    (tol : ℚ) (hne : peaks ≠ [])
    (hpk : List.Pairwise (fun a b : ℚ => a ≤ b) ((0 : ℚ) :: peaks.map Prod.fst))
    (hpos : ∀ p ∈ ions, 0 < p.2) (htol : 0 ≤ tol) :
    (∀ (ions' : List (String × ℚ)) (tol? : Option ℚ),
      compare_spectra [] ions' tol? =
        Except.error "ValueError: max() arg is an empty sequence") ∧
    compare_spectra peaks ions (some tol) =
      .ok (peaks.map fun q => process_cands (spectrum_max peaks) q.1 q.2
        (ideal_cands (sortBy (fun a b => decide (a.2 ≤ b.2)) ions) tol q.1)) ∧
    (∀ maxY mz i, process_cands maxY mz i [] =
      ⟨mz, i, none, none, none, none, 0⟩) := by
  exact ⟨fun ions' tol? => rfl,
    compare_spectra_ok peaks ions tol hne hpk hpos htol,
    fun maxY mz i => rfl⟩

/-- Witness for the amended C7 on a one-peak spectrum with no ions, whose
single peak therefore has an empty candidate set. -/
theorem claim_C7_amended_witness :
    (∀ (ions' : List (String × ℚ)) (tol? : Option ℚ),
      compare_spectra [] ions' tol? =
        Except.error "ValueError: max() arg is an empty sequence") ∧
    compare_spectra [((1 : ℚ), 5)] [] (some 1000) =
      .ok ([((1 : ℚ), 5)].map fun q =>
        process_cands (spectrum_max [((1 : ℚ), 5)]) q.1 q.2
          (ideal_cands (sortBy (fun a b => decide (a.2 ≤ b.2))
            ([] : List (String × ℚ))) 1000 q.1)) ∧
    (∀ maxY mz i, process_cands maxY mz i [] =
      ⟨mz, i, none, none, none, none, 0⟩) :=
  claim_C7_amended [((1 : ℚ), 5)] [] 1000
    (by decide) (by decide) (by decide) (by decide)

/-! ### Lemmas on the fragment calculator: ion-name parsing -/

theorem natStr_digits (n : ℕ) : ∀ c ∈ (natStr n).data, c.isDigit = true :=
  natDigits_isDigit n

theorem digits_brace_split : ∀ (d1 : List Char), (∀ c ∈ d1, c.isDigit = true) →
    ∀ (d2 : List Char), (∀ c ∈ d2, c.isDigit = true) →
    ∀ t1 t2 : List Char, d1 ++ '}' :: t1 = d2 ++ '}' :: t2 →
    d1 = d2 ∧ t1 = t2 := by
  intro d1
  induction d1 with
  | nil =>
    intro _ d2 h2 t1 t2 h
    cases d2 with
    | nil =>
      simp only [List.nil_append, List.cons.injEq] at h
      exact ⟨rfl, h.2⟩
    | cons c cs =>
      exfalso
      simp only [List.nil_append, List.cons_append, List.cons.injEq] at h
      have hcd := h2 c (List.mem_cons_self _ _)
      rw [← h.1] at hcd
      exact absurd hcd (by decide)
  | cons c cs ih =>
    intro h1 d2 h2 t1 t2 h
    cases d2 with
    | nil =>
      exfalso
      simp only [List.nil_append, List.cons_append, List.cons.injEq] at h
      have hcd := h1 c (List.mem_cons_self _ _)
      rw [h.1] at hcd
      exact absurd hcd (by decide)
    | cons c' cs' =>
      simp only [List.cons_append, List.cons.injEq] at h
      obtain ⟨hc, hrest⟩ := h
      obtain ⟨he, ht⟩ := ih (fun x hx => h1 x (List.mem_cons_of_mem _ hx)) cs'
        (fun x hx => h2 x (List.mem_cons_of_mem _ hx)) t1 t2 hrest
      exact ⟨by rw [hc, he], ht⟩

theorem natStr_brace_inj {k n : ℕ} {t1 t2 : List Char}
    (h : (natStr k).data ++ '}' :: t1 = (natStr n).data ++ '}' :: t2) :
    k = n ∧ t1 = t2 := by
  obtain ⟨hd, ht⟩ := digits_brace_split (natStr k).data (natStr_digits k)
    (natStr n).data (natStr_digits n) t1 t2 h
  exact ⟨natStr_inj k n (string_eq_of_data hd), ht⟩

theorem str_append_data (a b : String) : (a ++ b).data = a.data ++ b.data :=
  String.data_append a b

theorem aKey_data (k : ℕ) (suf : String) :
    (("a_\x7b" ++ natStr k ++ "\x7d") ++ suf).data =
      'a' :: '_' :: '{' :: ((natStr k).data ++ '}' :: suf.data) := by
  simp [str_append_data]

theorem bKey_data (k : ℕ) (suf : String) :
    (("b_\x7b" ++ natStr k ++ "\x7d") ++ suf).data =
      'b' :: '_' :: '{' :: ((natStr k).data ++ '}' :: suf.data) := by
  simp [str_append_data]

theorem yKey_data (k : ℕ) (suf : String) :
    (("y_\x7b" ++ natStr k ++ "\x7d") ++ suf).data =
      'y' :: '_' :: '{' :: ((natStr k).data ++ '}' :: suf.data) := by
  simp [str_append_data]

/-! ### Lemmas on the fragment calculator: base ions -/

theorem base_ions_mem {md : MassData} {pep : ModSeq} {fm : List ℚ}
    {bi : String × ℚ × ModSeq} (h : bi ∈ base_ions md pep fm) :
    (∃ idx, 2 ≤ idx ∧ idx < pep.length - 1 ∧
      (bi = ("a_\x7b" ++ natStr (idx - 1) ++ "\x7d",
        ((fm.take idx).sum - md.MASSES "CO", pep.take idx)) ∨
       bi = ("b_\x7b" ++ natStr (idx - 1) ++ "\x7d",
        ((fm.take idx).sum, pep.take idx)))) ∨
    (∃ idx, 1 ≤ idx ∧ idx < pep.length - 1 ∧
      bi = ("y_\x7b" ++ natStr (pep.length - idx - 1) ++ "\x7d",
        ((fm.drop idx).sum + md.PROTON, pep.drop idx))) := by
  unfold base_ions at h
  rcases List.mem_append.1 h with h | h
  · left
    rw [List.mem_flatMap] at h
    obtain ⟨idx, hidx, hmem⟩ := h
    rw [List.mem_range'_1] at hidx
    refine ⟨idx, hidx.1, by omega, ?_⟩
    rcases List.mem_cons.1 hmem with h' | h'
    · exact Or.inl h'
    · rcases List.mem_cons.1 h' with h'' | h''
      · exact Or.inr h''
      · exact absurd h'' (List.not_mem_nil _)
  · right
    rw [List.mem_map] at h
    obtain ⟨idx, hidx, hmem⟩ := h
    rw [List.mem_range'_1] at hidx
    exact ⟨idx, hidx.1, by omega, hmem.symm⟩

theorem base_ions_mem_a {md : MassData} {pep : ModSeq} {fm : List ℚ} {n : ℕ}
    (hn : 1 ≤ n) (hlen : n + 2 < pep.length) :
    ("a_\x7b" ++ natStr n ++ "\x7d",
      ((fm.take (n + 1)).sum - md.MASSES "CO", pep.take (n + 1))) ∈
      base_ions md pep fm := by
  unfold base_ions
  apply List.mem_append_left
  rw [List.mem_flatMap]
  refine ⟨n + 1, List.mem_range'_1.2 ⟨by omega, by omega⟩, ?_⟩
  simp

theorem base_ions_mem_b {md : MassData} {pep : ModSeq} {fm : List ℚ} {n : ℕ}
    (hn : 1 ≤ n) (hlen : n + 2 < pep.length) :
    ("b_\x7b" ++ natStr n ++ "\x7d",
      ((fm.take (n + 1)).sum, pep.take (n + 1))) ∈ base_ions md pep fm := by
  unfold base_ions
  apply List.mem_append_left
  rw [List.mem_flatMap]
  refine ⟨n + 1, List.mem_range'_1.2 ⟨by omega, by omega⟩, ?_⟩
  simp

theorem base_ions_mem_y {md : MassData} {pep : ModSeq} {fm : List ℚ} {idx : ℕ}
    (h1 : 1 ≤ idx) (hlen : idx < pep.length - 1) :
    ("y_\x7b" ++ natStr (pep.length - idx - 1) ++ "\x7d",
      ((fm.drop idx).sum + md.PROTON, pep.drop idx)) ∈ base_ions md pep fm := by
  unfold base_ions
  apply List.mem_append_right
  rw [List.mem_map]
  exact ⟨idx, List.mem_range'_1.2 ⟨h1, by omega⟩, rfl⟩

theorem frag_masses_take_sum (md : MassData) (pep : ModSeq) (n : ℕ) :
    ((get_frag_masses md pep).take n).sum = sequence_mass md (pep.take n) := by
  unfold get_frag_masses sequence_mass
  rw [← List.map_take]
  congr 1
  apply List.map_congr_left
  intro r _
  simp [sequence_mass]

/-- C8: the a ion base mass equals the b ion base mass minus the CO mass;
the b ion base mass is the prefix sum of per-residue masses (amino acid
plus modifications, the N-term sentinel residue included as residue zero);
and at equal charge and equal loss suffix the charged a and b m/z differ
by mass(CO)/charge. -/
theorem claim_C8 (md : MassData) (pep : ModSeq) (n : ℕ)
    (hn : 1 ≤ n) (hlen : n + 2 < pep.length) :
    ("a_\x7b" ++ natStr n ++ "\x7d",
      (((get_frag_masses md pep).take (n + 1)).sum - md.MASSES "CO",
        pep.take (n + 1))) ∈ base_ions md pep (get_frag_masses md pep) ∧
    ("b_\x7b" ++ natStr n ++ "\x7d",
      (((get_frag_masses md pep).take (n + 1)).sum, pep.take (n + 1))) ∈
      base_ions md pep (get_frag_masses md pep) ∧
    (∀ ms sq, ("a_\x7b" ++ natStr n ++ "\x7d", (ms, sq)) ∈
        base_ions md pep (get_frag_masses md pep) →
      ms = ((get_frag_masses md pep).take (n + 1)).sum - md.MASSES "CO") ∧
    (∀ ms sq, ("b_\x7b" ++ natStr n ++ "\x7d", (ms, sq)) ∈
        base_ions md pep (get_frag_masses md pep) →
      ms = ((get_frag_masses md pep).take (n + 1)).sum) ∧
    ((get_frag_masses md pep).take (n + 1)).sum =
      sequence_mass md (pep.take (n + 1)) ∧
    (∀ (lm : ℚ) (ch : ℕ), 1 ≤ ch →
      (((get_frag_masses md pep).take (n + 1)).sum - md.MASSES "CO" + lm +
          ch * md.PROTON) / ch =
        (((get_frag_masses md pep).take (n + 1)).sum + lm + ch * md.PROTON) /
            ch - md.MASSES "CO" / ch) := by
  refine ⟨base_ions_mem_a hn hlen, base_ions_mem_b hn hlen, ?_, ?_,
    frag_masses_take_sum md pep (n + 1), ?_⟩
  · intro ms sq h
    rcases base_ions_mem h with ⟨idx, hi2, hil, hab | hab⟩ | ⟨idx, hi1, hil, hy⟩
    · obtain ⟨hk, hv⟩ := Prod.mk.injEq .. ▸ hab
      have hkd := congrArg String.data hk
      simp only [str_append_data] at hkd
      rw [List.append_assoc, List.append_assoc] at hkd
      obtain ⟨hkn, -⟩ := natStr_brace_inj (List.append_cancel_left hkd)
      have hidx : idx = n + 1 := by omega
      rw [hidx] at hv
      exact (Prod.mk.injEq .. ▸ hv).1
    · exfalso
      obtain ⟨hk, -⟩ := Prod.mk.injEq .. ▸ hab
      have hkd := congrArg String.data hk
      simp [str_append_data] at hkd
    · exfalso
      obtain ⟨hk, -⟩ := Prod.mk.injEq .. ▸ hy
      have hkd := congrArg String.data hk
      simp [str_append_data] at hkd
  · intro ms sq h
    rcases base_ions_mem h with ⟨idx, hi2, hil, hab | hab⟩ | ⟨idx, hi1, hil, hy⟩
    · exfalso
      obtain ⟨hk, -⟩ := Prod.mk.injEq .. ▸ hab
      have hkd := congrArg String.data hk
      simp [str_append_data] at hkd
    · obtain ⟨hk, hv⟩ := Prod.mk.injEq .. ▸ hab
      have hkd := congrArg String.data hk
      simp only [str_append_data] at hkd
      rw [List.append_assoc, List.append_assoc] at hkd
      obtain ⟨hkn, -⟩ := natStr_brace_inj (List.append_cancel_left hkd)
      have hidx : idx = n + 1 := by omega
      rw [hidx] at hv
      exact (Prod.mk.injEq .. ▸ hv).1
    · exfalso
      obtain ⟨hk, -⟩ := Prod.mk.injEq .. ▸ hy
      have hkd := congrArg String.data hk
      simp [str_append_data] at hkd
  · intro lm ch hch
    have he : ((get_frag_masses md pep).take (n + 1)).sum - md.MASSES "CO" +
        lm + ch * md.PROTON =
        ((get_frag_masses md pep).take (n + 1)).sum + lm + ch * md.PROTON -
          md.MASSES "CO" := by ring
    rw [he, sub_div]

/-- Witness for C8 at cut index one of a three-residue peptide. -/
theorem claim_C8_witness :
    ("a_\x7b" ++ natStr 1 ++ "\x7d",
      (((get_frag_masses specMassData
          [("N-term", []), ("S", []), ("V", ["Phospho"]), ("K", []),
            ("C-term", [])]).take 2).sum - specMassData.MASSES "CO",
        ([("N-term", []), ("S", []), ("V", ["Phospho"]), ("K", []),
          ("C-term", [])] : ModSeq).take 2)) ∈
      base_ions specMassData
        [("N-term", []), ("S", []), ("V", ["Phospho"]), ("K", []),
          ("C-term", [])]
        (get_frag_masses specMassData
          [("N-term", []), ("S", []), ("V", ["Phospho"]), ("K", []),
            ("C-term", [])]) ∧
    ("b_\x7b" ++ natStr 1 ++ "\x7d",
      (((get_frag_masses specMassData
          [("N-term", []), ("S", []), ("V", ["Phospho"]), ("K", []),
            ("C-term", [])]).take 2).sum,
        ([("N-term", []), ("S", []), ("V", ["Phospho"]), ("K", []),
          ("C-term", [])] : ModSeq).take 2)) ∈
      base_ions specMassData
        [("N-term", []), ("S", []), ("V", ["Phospho"]), ("K", []),
          ("C-term", [])]
        (get_frag_masses specMassData
          [("N-term", []), ("S", []), ("V", ["Phospho"]), ("K", []),
            ("C-term", [])]) ∧
    (∀ ms sq, ("a_\x7b" ++ natStr 1 ++ "\x7d", (ms, sq)) ∈
        base_ions specMassData
          [("N-term", []), ("S", []), ("V", ["Phospho"]), ("K", []),
            ("C-term", [])]
          (get_frag_masses specMassData
            [("N-term", []), ("S", []), ("V", ["Phospho"]), ("K", []),
              ("C-term", [])]) →
      ms = ((get_frag_masses specMassData
          [("N-term", []), ("S", []), ("V", ["Phospho"]), ("K", []),
            ("C-term", [])]).take 2).sum - specMassData.MASSES "CO") ∧
    (∀ ms sq, ("b_\x7b" ++ natStr 1 ++ "\x7d", (ms, sq)) ∈
        base_ions specMassData
          [("N-term", []), ("S", []), ("V", ["Phospho"]), ("K", []),
            ("C-term", [])]
          (get_frag_masses specMassData
            [("N-term", []), ("S", []), ("V", ["Phospho"]), ("K", []),
              ("C-term", [])]) →
      ms = ((get_frag_masses specMassData
          [("N-term", []), ("S", []), ("V", ["Phospho"]), ("K", []),
            ("C-term", [])]).take 2).sum) ∧
    ((get_frag_masses specMassData
        [("N-term", []), ("S", []), ("V", ["Phospho"]), ("K", []),
          ("C-term", [])]).take 2).sum =
      sequence_mass specMassData
        (([("N-term", []), ("S", []), ("V", ["Phospho"]), ("K", []),
          ("C-term", [])] : ModSeq).take 2) ∧
    (∀ (lm : ℚ) (ch : ℕ), 1 ≤ ch →
      (((get_frag_masses specMassData
          [("N-term", []), ("S", []), ("V", ["Phospho"]), ("K", []),
            ("C-term", [])]).take 2).sum - specMassData.MASSES "CO" + lm +
          ch * specMassData.PROTON) / ch =
        (((get_frag_masses specMassData
            [("N-term", []), ("S", []), ("V", ["Phospho"]), ("K", []),
              ("C-term", [])]).take 2).sum + lm + ch * specMassData.PROTON) /
            ch - specMassData.MASSES "CO" / ch) :=
  claim_C8 specMassData
    [("N-term", []), ("S", []), ("V", ["Phospho"]), ("K", []), ("C-term", [])]
    1 (by decide) (by decide)

/-! ### Lemmas on the fragment calculator: component membership -/

theorem mem_b_y_ions {md : MassData} {anyL : List String}
    {aaL : List (String × List String)}
    {modL : List ((String × String) × List String)} {pep : ModSeq}
    {fm : List ℚ} {fmc k : ℕ} {q : String × ℚ}
    (h : q ∈ b_y_ions md anyL aaL modL pep fm fmc k) :
    ∃ bi ∈ base_ions md pep fm,
      ∃ lq ∈ generate_losses md anyL aaL modL bi.2.2 2 k,
        ∃ ch ∈ List.range' 1 fmc,
          q = (bi.1 ++ lq.1 ++ charge_suffix ch,
            (bi.2.1 + lq.2 + ch * md.PROTON) / ch) := by
  unfold b_y_ions charged_m_zs at h
  rw [List.mem_flatMap] at h
  obtain ⟨bi, hbi, h⟩ := h
  rw [List.mem_flatMap] at h
  obtain ⟨lq, hlq, h⟩ := h
  rw [List.mem_map] at h
  obtain ⟨ch, hch, he⟩ := h
  exact ⟨bi, hbi, lq, hlq, ch, hch, he.symm⟩

theorem mem_parent_ions {md : MassData} {anyL : List String}
    {aaL : List (String × List String)}
    {modL : List ((String × String) × List String)} {pep : ModSeq}
    {fm : List ℚ} {pmc k : ℕ} {q : String × ℚ}
    (h : q ∈ parent_ions md anyL aaL modL pep fm pmc k) :
    ∃ lq ∈ generate_losses md anyL aaL modL pep 2 k,
      ∃ ch ∈ List.range' 1 pmc,
        q = ("MH" ++ lq.1 ++ charge_suffix ch,
          (parent_mh_mass md fm + lq.2 + ch * md.PROTON) / ch) := by
  unfold parent_ions charged_m_zs at h
  rw [List.mem_flatMap] at h
  obtain ⟨lq, hlq, h⟩ := h
  rw [List.mem_map] at h
  obtain ⟨ch, hch, he⟩ := h
  exact ⟨lq, hlq, ch, hch, he.symm⟩

theorem mem_label_ions {md : MassData} {pep : ModSeq} {q : String × ℚ}
    (h : q ∈ label_ions md pep) :
    ∃ mod, q.1 ∈ md.LABEL_NAMES mod := by
  unfold label_ions at h
  rw [List.mem_flatMap] at h
  obtain ⟨mod, _, hq⟩ := h
  obtain ⟨nm, mz⟩ := q
  exact ⟨mod, (List.of_mem_zip hq).1⟩

theorem mem_py_ions {md : MassData} {pep : ModSeq} {k : ℕ} {q : String × ℚ}
    (h : q ∈ py_ions md pep k) :
    ∃ lq ∈ generate_losses md [] [] [] [] 2 k,
      q = ("pY" ++ lq.1,
        md.IMMONIUM_IONS "Y" + md.MODIFICATIONS "Y" "Phospho" + lq.2) := by
  unfold py_ions at h
  split at h
  · rw [List.mem_map] at h
    obtain ⟨lq, hlq, he⟩ := h
    exact ⟨lq, hlq, he.symm⟩
  · exact absurd h (List.not_mem_nil q)

theorem mem_internal_ions {md : MassData} {anyL : List String}
    {aaL : List (String × List String)}
    {modL : List ((String × String) × List String)} {pep : ModSeq} {k : ℕ}
    {q : String × ℚ}
    (h : q ∈ internal_fragment_ions md anyL aaL modL pep k) :
    ∃ start stop, 2 ≤ start ∧ start < stop ∧ stop < pep.length - 1 ∧
      ∃ lq ∈ generate_losses md anyL aaL modL
        (("N-term", ([] : List String)) ::
          ((pep.drop start).take (stop - start)) ++ [("C=O", [])]) 1 k,
        q = (sequence_name
            (("N-term", ([] : List String)) ::
              ((pep.drop start).take (stop - start)) ++ [("C=O", [])]) ++ lq.1,
          sequence_mass md
            (("N-term", ([] : List String)) ::
              ((pep.drop start).take (stop - start)) ++ [("C=O", [])]) +
            lq.2) := by
  unfold internal_fragment_ions at h
  rw [List.mem_flatMap] at h
  obtain ⟨start, hstart, h⟩ := h
  rw [List.mem_range'_1] at hstart
  rw [List.mem_flatMap] at h
  obtain ⟨stop, hstop, h⟩ := h
  rw [List.mem_range'_1] at hstop
  rw [List.mem_map] at h
  obtain ⟨lq, hlq, he⟩ := h
  exact ⟨start, stop, hstart.1, by omega, by omega, lq, hlq, he.symm⟩

theorem mem_fragment_ions {md : MassData} {pep : ModSeq}
    {charge : ℕ} {pmc? fmc? : Option ℕ} {k : ℕ} {q : String × ℚ}
    (h : q ∈ fragment_ions md pep charge pmc? fmc? k none none none) :
    q ∈ b_y_ions md PEPTIDE_LOSSES AA_LOSSES MOD_LOSSES pep
        (get_frag_masses md pep) (fmc?.getD ((pmc?.getD charge) - 1)) k ∨
    q ∈ parent_ions md PEPTIDE_LOSSES AA_LOSSES MOD_LOSSES pep
        (get_frag_masses md pep) (pmc?.getD charge) k ∨
    q ∈ label_ions md pep ∨
    q ∈ py_ions md pep k ∨
    q ∈ internal_fragment_ions md INTERNAL_LOSSES AA_LOSSES MOD_LOSSES pep
        k := by
  unfold fragment_ions at h
  simp only [Option.getD] at h
  rcases List.mem_append.1 h with h' | h'
  · rcases List.mem_append.1 h' with h'' | h''
    · rcases List.mem_append.1 h'' with h3 | h3
      · rcases List.mem_append.1 h3 with h4 | h4
        · left; exact h4
        · right; left; exact h4
      · right; right; left; exact h3
    · right; right; right; left; exact h''
  · right; right; right; right; exact h'

/-! ### Lemmas on ion-name shapes -/

theorem flatMap_eq_nil_of {α β : Type} {f : α → List β} :
    ∀ {l : List α}, (∀ a ∈ l, f a = []) → l.flatMap f = []
  | [], _ => rfl
  | a :: t, h => by
    rw [List.flatMap_cons, h a (List.mem_cons_self a t), List.nil_append]
    exact flatMap_eq_nil_of fun x hx => h x (List.mem_cons_of_mem a hx)

theorem b_y_ions_zero (md : MassData) (anyL : List String)
    (aaL : List (String × List String))
    (modL : List ((String × String) × List String))
    (pep : ModSeq) (fm : List ℚ) (k : ℕ) :
    b_y_ions md anyL aaL modL pep fm 0 k = [] := by
  unfold b_y_ions
  refine flatMap_eq_nil_of fun bi _ => ?_
  exact flatMap_eq_nil_of fun lq _ => rfl

theorem isPrefixOf_two_false {a b c c2 : Char} {t : List Char}
    (h : (a == c) = false ∨ (b == c2) = false) :
    List.isPrefixOf [a, b] (c :: c2 :: t) = false := by
  show ((a == c) && ((b == c2) && List.isPrefixOf ([] : List Char) t)) = false
  rcases h with h | h <;> simp [h]

theorem isPrefixOf_two_singleton {a b c : Char} :
    List.isPrefixOf [a, b] [c] = false := by
  show ((a == c) && List.isPrefixOf [b] ([] : List Char)) = false
  show ((a == c) && false) = false
  simp

theorem not_aby_single {key : String} {c : Char} (h : key.data = [c]) :
    startsWithStr key "a_" = false ∧ startsWithStr key "b_" = false ∧
      startsWithStr key "y_" = false := by
  unfold startsWithStr
  rw [show ("a_" : String).data = ['a', '_'] from rfl,
    show ("b_" : String).data = ['b', '_'] from rfl,
    show ("y_" : String).data = ['y', '_'] from rfl, h]
  exact ⟨isPrefixOf_two_singleton, isPrefixOf_two_singleton,
    isPrefixOf_two_singleton⟩

theorem not_aby_head2 {key : String} {c c2 : Char} {t : List Char}
    (h : key.data = c :: c2 :: t) (h2 : c2 ≠ '_') :
    startsWithStr key "a_" = false ∧ startsWithStr key "b_" = false ∧
      startsWithStr key "y_" = false := by
  unfold startsWithStr
  rw [show ("a_" : String).data = ['a', '_'] from rfl,
    show ("b_" : String).data = ['b', '_'] from rfl,
    show ("y_" : String).data = ['y', '_'] from rfl, h]
  have hb : ('_' == c2) = false := beq_eq_false_iff_ne.mpr (Ne.symm h2)
  exact ⟨isPrefixOf_two_false (Or.inr hb), isPrefixOf_two_false (Or.inr hb),
    isPrefixOf_two_false (Or.inr hb)⟩

theorem not_aby_head {key : String} {c : Char} {t : List Char}
    (h : key.data = c :: t) (ha : c ≠ 'a') (hb : c ≠ 'b') (hy : c ≠ 'y') :
    startsWithStr key "a_" = false ∧ startsWithStr key "b_" = false ∧
      startsWithStr key "y_" = false := by
  unfold startsWithStr
  rw [show ("a_" : String).data = ['a', '_'] from rfl,
    show ("b_" : String).data = ['b', '_'] from rfl,
    show ("y_" : String).data = ['y', '_'] from rfl, h]
  cases t with
  | nil =>
    exact ⟨isPrefixOf_two_singleton, isPrefixOf_two_singleton,
      isPrefixOf_two_singleton⟩
  | cons c2 t' =>
    exact ⟨isPrefixOf_two_false (Or.inl (beq_eq_false_iff_ne.mpr (Ne.symm ha))),
      isPrefixOf_two_false (Or.inl (beq_eq_false_iff_ne.mpr (Ne.symm hb))),
      isPrefixOf_two_false (Or.inl (beq_eq_false_iff_ne.mpr (Ne.symm hy)))⟩

theorem digit_ne_aby {c : Char} (h : c.isDigit = true) :
    c ≠ 'a' ∧ c ≠ 'b' ∧ c ≠ 'y' := by
  refine ⟨fun he => ?_, fun he => ?_, fun he => ?_⟩ <;> subst he <;>
    exact absurd h (by decide)

theorem alpha_ne_underscore {c : Char} (h : c.isAlpha = true) : c ≠ '_' := by
  intro he
  subst he
  exact absurd h (by decide)

theorem format_loss_shape (name : String) (count : ℤ) :
    format_loss name count = "" ∨
      ∃ t, (format_loss name count).data = '+' :: t ∨
        (format_loss name count).data = '-' :: t := by
  unfold format_loss
  split
  · exact Or.inl rfl
  · right
    split
    · exact ⟨((if 1 < count.natAbs then natStr count.natAbs ++ " "
        else "") : String).data ++ name.data,
        Or.inl (by simp [str_append_data])⟩
    · exact ⟨((if 1 < count.natAbs then natStr count.natAbs ++ " "
        else "") : String).data ++ name.data,
        Or.inr (by simp [str_append_data])⟩

theorem flatten_sign_shape : ∀ (L : List (List Char)),
    (∀ x ∈ L, x = [] ∨ ∃ t, x = '+' :: t ∨ x = '-' :: t) →
    (L.flatten = [] ∨ ∃ t, L.flatten = '+' :: t ∨ L.flatten = '-' :: t)
  | [], _ => Or.inl rfl
  | x :: L, h => by
    rcases h x (List.mem_cons_self x L) with hx | ⟨t, hx | hx⟩
    · rw [List.flatten_cons, hx, List.nil_append]
      exact flatten_sign_shape L fun y hy => h y (List.mem_cons_of_mem x hy)
    · exact Or.inr ⟨t ++ L.flatten, Or.inl (by rw [List.flatten_cons, hx]; rfl)⟩
    · exact Or.inr ⟨t ++ L.flatten, Or.inr (by rw [List.flatten_cons, hx]; rfl)⟩

theorem loss_counter_name_shape (c : LossCounter) :
    loss_counter_name c = "" ∨
      ∃ t, (loss_counter_name c).data = '+' :: t ∨
        (loss_counter_name c).data = '-' :: t := by
  unfold loss_counter_name
  have hall : ∀ x ∈ (((counter_items_sorted c).map fun p =>
      format_loss p.1 p.2).map String.data),
      x = [] ∨ ∃ t, x = '+' :: t ∨ x = '-' :: t := by
    intro x hx
    rw [List.mem_map] at hx
    obtain ⟨s, hs, rfl⟩ := hx
    rw [List.mem_map] at hs
    obtain ⟨p, _, rfl⟩ := hs
    rcases format_loss_shape p.1 p.2 with h | ⟨t, h | h⟩
    · exact Or.inl (by rw [h])
    · exact Or.inr ⟨t, Or.inl h⟩
    · exact Or.inr ⟨t, Or.inr h⟩
  rcases flatten_sign_shape _ hall with h | ⟨t, h | h⟩
  · exact Or.inl (string_eq_of_data (by rw [strJoin_data, h]))
  · exact Or.inr ⟨t, Or.inl (by rw [strJoin_data]; exact h)⟩
  · exact Or.inr ⟨t, Or.inr (by rw [strJoin_data]; exact h)⟩

theorem generate_losses_shape {md : MassData} {anyL : List String}
    {aaL : List (String × List String)}
    {modL : List ((String × String) × List String)}
    {seq : ModSeq} {d k : ℕ} {lq : String × ℚ}
    (h : lq ∈ generate_losses md anyL aaL modL seq d k) :
    lq.1 = "" ∨ ∃ t, lq.1.data = '+' :: t ∨ lq.1.data = '-' :: t := by
  unfold generate_losses at h
  rw [List.mem_flatMap] at h
  obtain ⟨c, hc, h⟩ := h
  rw [List.mem_map] at h
  obtain ⟨q, hq, he⟩ := h
  have h1 : lq.1 = loss_counter_name c ++ q.1 := by rw [← he]
  have hdata : lq.1.data = (loss_counter_name c).data ++ q.1.data := by
    rw [h1, str_append_data]
  have hq1 : q.1 = "" ∨ ∃ t, q.1.data = '+' :: t ∨ q.1.data = '-' :: t := by
    unfold generate_c13 at hq
    rw [List.mem_map] at hq
    obtain ⟨j, _, hj⟩ := hq
    rw [← hj]
    exact format_loss_shape _ _
  rcases loss_counter_name_shape c with hl | ⟨t, hl | hl⟩
  · have h0 : lq.1.data = q.1.data := by rw [hdata, hl]; rfl
    rcases hq1 with hq' | ⟨t, hq' | hq'⟩
    · exact Or.inl (string_eq_of_data (by rw [h0, hq']))
    · exact Or.inr ⟨t, Or.inl (by rw [h0]; exact hq')⟩
    · exact Or.inr ⟨t, Or.inr (by rw [h0]; exact hq')⟩
  · exact Or.inr ⟨t ++ q.1.data, Or.inl (by rw [hdata, hl]; rfl)⟩
  · exact Or.inr ⟨t ++ q.1.data, Or.inr (by rw [hdata, hl]; rfl)⟩

theorem map_eq_singleton_true {f : Char → Bool} {l : List Char}
    (h : l.map f = [true]) : ∃ c, l = [c] ∧ f c = true := by
  cases l with
  | nil => exact absurd h (by simp)
  | cons c cs =>
    cases cs with
    | nil =>
      refine ⟨c, rfl, ?_⟩
      simp only [List.map_cons, List.map_nil] at h
      injection h
    | cons d ds => exact absurd h (by simp)

theorem validLetters_not_sentinel : ∀ l ∈ validLetters,
    l ∉ (["N-term", "C-term", "C=O"] : List String) := by decide

theorem validLetters_case_alpha : ∀ l ∈ validLetters,
    (strUpper l).data.map Char.isAlpha = [true] ∧
      (strLower l).data.map Char.isAlpha = [true] := by decide

theorem resid_piece_alpha {r : Residue} (h : r.1 ∈ validLetters) :
    ∃ c, (if r.2 = [] then strUpper r.1 else strLower r.1).data = [c] ∧
      c.isAlpha = true := by
  obtain ⟨hu, hl⟩ := validLetters_case_alpha r.1 h
  split
  · exact map_eq_singleton_true hu
  · exact map_eq_singleton_true hl

theorem seqname_F_some {r : Residue} (h : r.1 ∈ validLetters) :
    (if r.1 ∈ (["N-term", "C-term", "C=O"] : List String) then none
      else some (if r.2 = [] then strUpper r.1 else strLower r.1)) =
    some (if r.2 = [] then strUpper r.1 else strLower r.1) :=
  if_neg (validLetters_not_sentinel r.1 h)

theorem filterMap_alpha {tail : List Residue}
    (hs : ∀ r ∈ tail, r.1 ∈ validLetters) :
    ∀ s ∈ (tail ++ [("C=O", ([] : List String))]).filterMap
      (fun (r : Residue) =>
        if r.1 ∈ (["N-term", "C-term", "C=O"] : List String) then none
        else some (if r.2 = [] then strUpper r.1 else strLower r.1)),
      ∀ d ∈ s.data, d.isAlpha = true := by
  intro s hsm d hd
  rw [List.mem_filterMap] at hsm
  obtain ⟨r, hr, hfr⟩ := hsm
  rcases List.mem_append.1 hr with hr' | hr'
  · have hv := hs r hr'
    rw [seqname_F_some hv] at hfr
    obtain ⟨c, hc, hca⟩ := resid_piece_alpha hv
    have hse : s = (if r.2 = [] then strUpper r.1 else strLower r.1) := by
      injection hfr with h
      exact h.symm
    rw [hse, hc, List.mem_singleton] at hd
    rw [hd]
    exact hca
  · rw [List.mem_singleton] at hr'
    subst hr'
    simp at hfr

theorem strJoin_alpha_head {s0 : String} {rest : List String} {c0 : Char}
    (h0 : s0.data = [c0])
    (hr : ∀ s ∈ rest, ∀ d ∈ s.data, d.isAlpha = true) :
    (strJoin (s0 :: rest)).data = c0 :: (strJoin rest).data ∧
      ∀ d ∈ (strJoin rest).data, d.isAlpha = true := by
  constructor
  · show (s0 ++ strJoin rest).data = _
    rw [String.data_append, h0]
    rfl
  · intro d hd
    rw [strJoin_data, List.mem_flatten] at hd
    obtain ⟨x, hx, hdx⟩ := hd
    rw [List.mem_map] at hx
    obtain ⟨s, hs, rfl⟩ := hx
    exact hr s hs d hdx

theorem seq_name_frag_alpha {slice : List Residue}
    (hs : ∀ r ∈ slice, r.1 ∈ validLetters) (hne : slice ≠ []) :
    ∃ c cs, (sequence_name (("N-term", ([] : List String)) :: slice
        ++ [("C=O", ([] : List String))])).data = c :: cs ∧
      c.isAlpha = true ∧ ∀ d ∈ cs, d.isAlpha = true := by
  obtain ⟨r0, tail, rfl⟩ : ∃ r0 tail, slice = r0 :: tail := by
    cases slice with
    | nil => exact absurd rfl hne
    | cons a b => exact ⟨a, b, rfl⟩
  have h0 : r0.1 ∈ validLetters := hs r0 (List.mem_cons_self r0 tail)
  obtain ⟨c0, hc0, ha0⟩ := resid_piece_alpha h0
  have hfm : (("N-term", ([] : List String)) :: (r0 :: tail)
      ++ [("C=O", ([] : List String))]).filterMap
      (fun (r : Residue) =>
        if r.1 ∈ (["N-term", "C-term", "C=O"] : List String) then none
        else some (if r.2 = [] then strUpper r.1 else strLower r.1))
      = (if r0.2 = [] then strUpper r0.1 else strLower r0.1) ::
        (tail ++ [("C=O", ([] : List String))]).filterMap
          (fun (r : Residue) =>
            if r.1 ∈ (["N-term", "C-term", "C=O"] : List String) then none
            else some (if r.2 = [] then strUpper r.1 else strLower r.1)) := by
    rw [show ((("N-term", ([] : List String)) :: (r0 :: tail))
        ++ [("C=O", ([] : List String))])
        = ("N-term", ([] : List String)) :: r0 ::
          (tail ++ [("C=O", ([] : List String))]) from rfl]
    rw [List.filterMap_cons_none (by decide),
      @List.filterMap_cons_some Residue String
        (fun (r : Residue) =>
          if r.1 ∈ (["N-term", "C-term", "C=O"] : List String) then none
          else some (if r.2 = [] then strUpper r.1 else strLower r.1))
        r0 (tail ++ [("C=O", ([] : List String))])
        (if r0.2 = [] then strUpper r0.1 else strLower r0.1)
        (seqname_F_some h0)]
  obtain ⟨hhead, hrest⟩ := strJoin_alpha_head hc0
    (filterMap_alpha fun r hr => hs r (List.mem_cons_of_mem r0 hr))
  refine ⟨c0, _, ?_, ha0, hrest⟩
  unfold sequence_name
  rw [hfm]
  exact hhead

theorem slice_in_mid {mid : List Residue} {mN mC : List String}
    {start stop : ℕ} (h1 : 1 ≤ start) (h2 : start < stop)
    (h3 : stop ≤ mid.length) :
    (∀ r ∈ ((("N-term", mN) :: mid ++ [("C-term", mC)] :
        ModSeq).drop start).take (stop - start), r ∈ mid) ∧
    ((("N-term", mN) :: mid ++ [("C-term", mC)] :
        ModSeq).drop start).take (stop - start) ≠ [] := by
  obtain ⟨s, rfl⟩ : ∃ s, start = s + 1 := ⟨start - 1, by omega⟩
  have hd : ((("N-term", mN) :: mid ++ [("C-term", mC)] :
      ModSeq)).drop (s + 1) = mid.drop s ++ [("C-term", mC)] := by
    rw [List.drop_append_of_le_length (by simp; omega)]
    rfl
  have ht : (mid.drop s ++ [("C-term", mC)]).take (stop - (s + 1))
      = (mid.drop s).take (stop - (s + 1)) :=
    List.take_append_of_le_length (by simp; omega)
  constructor
  · intro r hr
    rw [hd, ht] at hr
    exact List.drop_subset s mid (List.take_subset _ _ hr)
  · rw [hd, ht]
    intro hnil
    have hlen := congrArg List.length hnil
    rw [List.length_take, List.length_drop, Nat.min_def,
      List.length_nil] at hlen
    split at hlen <;> omega

/-- Claim C10: when fragment_max_charge is not supplied, fragment_ions
ladders the a/b/y backbone ions only up to the precursor charge minus one
while parent ions ladder up to the precursor charge itself; consequently,
for a well-formed sequence at precursor charge 1 (with reporter-ion names
starting with a digit, as in the label tables) the returned map is exactly
the parent, label, diagnostic and internal-fragment entries, and no key
starts with "a_", "b_" or "y_". -/
theorem claim_C10 (md : MassData) (pep : ModSeq) (charge k : ℕ)
    (hwf : wellFormed pep) (hld : labelNamesDigit md) :
    (fragment_ions md pep charge none none k none none none =
      b_y_ions md PEPTIDE_LOSSES AA_LOSSES MOD_LOSSES pep
        (get_frag_masses md pep) (charge - 1) k
      ++ parent_ions md PEPTIDE_LOSSES AA_LOSSES MOD_LOSSES pep
        (get_frag_masses md pep) charge k
      ++ label_ions md pep ++ py_ions md pep k
      ++ internal_fragment_ions md INTERNAL_LOSSES AA_LOSSES MOD_LOSSES pep
        k)
    ∧ (charge = 1 →
      (fragment_ions md pep charge none none k none none none =
        parent_ions md PEPTIDE_LOSSES AA_LOSSES MOD_LOSSES pep
          (get_frag_masses md pep) 1 k
        ++ label_ions md pep ++ py_ions md pep k
        ++ internal_fragment_ions md INTERNAL_LOSSES AA_LOSSES MOD_LOSSES
          pep k)
      ∧ ∀ key ∈ (fragment_ions md pep charge none none k none none
          none).map Prod.fst,
          startsWithStr key "a_" = false ∧ startsWithStr key "b_" = false ∧
            startsWithStr key "y_" = false) := by
  constructor
  · rfl
  · rintro rfl
    constructor
    · calc fragment_ions md pep 1 none none k none none none
          = b_y_ions md PEPTIDE_LOSSES AA_LOSSES MOD_LOSSES pep
              (get_frag_masses md pep) 0 k
            ++ parent_ions md PEPTIDE_LOSSES AA_LOSSES MOD_LOSSES pep
              (get_frag_masses md pep) 1 k
            ++ label_ions md pep ++ py_ions md pep k
            ++ internal_fragment_ions md INTERNAL_LOSSES AA_LOSSES
              MOD_LOSSES pep k := rfl
        _ = parent_ions md PEPTIDE_LOSSES AA_LOSSES MOD_LOSSES pep
              (get_frag_masses md pep) 1 k
            ++ label_ions md pep ++ py_ions md pep k
            ++ internal_fragment_ions md INTERNAL_LOSSES AA_LOSSES
              MOD_LOSSES pep k := by
          rw [b_y_ions_zero, List.nil_append]
    · intro key hkey
      rw [List.mem_map] at hkey
      obtain ⟨q, hq, rfl⟩ := hkey
      rcases mem_fragment_ions hq with h | h | h | h | h
      · have h' : q ∈ ([] : List (String × ℚ)) := by
          rw [← b_y_ions_zero md PEPTIDE_LOSSES AA_LOSSES MOD_LOSSES pep
            (get_frag_masses md pep) k]
          exact h
        exact absurd h' (List.not_mem_nil q)
      · obtain ⟨lq, hlq, ch, hch, heq⟩ := mem_parent_ions h
        have hd : q.1.data
            = 'M' :: 'H' :: (lq.1.data ++ (charge_suffix ch).data) := by
          rw [heq]
          simp [str_append_data]
        exact not_aby_head hd (by decide) (by decide) (by decide)
      · obtain ⟨mod, hmem⟩ := mem_label_ions h
        obtain ⟨c, t, hd, hdig⟩ := hld mod q.1 hmem
        obtain ⟨ha, hb, hy⟩ := digit_ne_aby hdig
        exact not_aby_head hd ha hb hy
      · obtain ⟨lq, hlq, heq⟩ := mem_py_ions h
        have hd : q.1.data = 'p' :: 'Y' :: lq.1.data := by
          rw [heq]
          simp [str_append_data]
        exact not_aby_head hd (by decide) (by decide) (by decide)
      · obtain ⟨mid, mN, mC, hpep, hmid⟩ := hwf
        obtain ⟨start, stop, hs2, hss, hsl, lq, hlq, heq⟩ :=
          mem_internal_ions h
        have hlen : pep.length = mid.length + 2 := by
          rw [hpep]
          simp
        rw [hpep] at heq
        have hslice := @slice_in_mid mid mN mC start stop (by omega) hss
          (by omega)
        have hvl : ∀ r ∈ ((("N-term", mN) :: mid ++ [("C-term", mC)] :
            ModSeq).drop start).take (stop - start), r.1 ∈ validLetters :=
          fun r hr => hmid r (hslice.1 r hr)
        obtain ⟨c, cs, hd, hca, hcsa⟩ := seq_name_frag_alpha hvl hslice.2
        have hq1 : q.1 = sequence_name (("N-term", ([] : List String)) ::
            ((((("N-term", mN) :: mid ++ [("C-term", mC)]) : ModSeq).drop
              start).take (stop - start)) ++ [("C=O", ([] : List String))])
            ++ lq.1 := by
          rw [heq]
        have hqd : q.1.data = (c :: cs) ++ lq.1.data := by
          rw [hq1, str_append_data, hd]
        cases hcc : cs ++ lq.1.data with
        | nil =>
          have hq1 : q.1.data = [c] := by
            rw [hqd, show (c :: cs) ++ lq.1.data = c :: (cs ++ lq.1.data)
              from rfl, hcc]
          exact not_aby_single hq1
        | cons c2 rest =>
          have hq2 : q.1.data = c :: c2 :: rest := by
            rw [hqd, show (c :: cs) ++ lq.1.data = c :: (cs ++ lq.1.data)
              from rfl, hcc]
          have h2 : c2 ≠ '_' := by
            cases cs with
            | cons c2' cs' =>
              injection hcc with hc2 _
              rw [← hc2]
              exact alpha_ne_underscore (hcsa c2' (List.mem_cons_self c2' cs'))
            | nil =>
              have hlqd : lq.1.data = c2 :: rest := by simpa using hcc
              rcases generate_losses_shape hlq with hlq0 | ⟨t, hsh | hsh⟩
              · rw [hlq0] at hlqd
                exact absurd hlqd (by simp)
              · rw [hsh] at hlqd
                injection hlqd with h1 _
                rw [← h1]
                decide
              · rw [hsh] at hlqd
                injection hlqd with h1 _
                rw [← h1]
                decide
          exact not_aby_head2 hq2 h2

/-- Witness for C10 at the spec-modelled tables: a labelled
phosphotyrosine peptide at precursor charge 1. -/
theorem claim_C10_witness :
    wellFormed [("N-term", ["TMT6plex"]), ("S", []), ("Y", ["Phospho"]),
      ("K", []), ("C-term", [])] ∧
    labelNamesDigit specMassData ∧
    ((fragment_ions specMassData [("N-term", ["TMT6plex"]), ("S", []),
        ("Y", ["Phospho"]), ("K", []), ("C-term", [])] 1 none none 0 none
        none none =
      b_y_ions specMassData PEPTIDE_LOSSES AA_LOSSES MOD_LOSSES
        [("N-term", ["TMT6plex"]), ("S", []), ("Y", ["Phospho"]),
          ("K", []), ("C-term", [])]
        (get_frag_masses specMassData [("N-term", ["TMT6plex"]), ("S", []),
          ("Y", ["Phospho"]), ("K", []), ("C-term", [])]) (1 - 1) 0
      ++ parent_ions specMassData PEPTIDE_LOSSES AA_LOSSES MOD_LOSSES
        [("N-term", ["TMT6plex"]), ("S", []), ("Y", ["Phospho"]),
          ("K", []), ("C-term", [])]
        (get_frag_masses specMassData [("N-term", ["TMT6plex"]), ("S", []),
          ("Y", ["Phospho"]), ("K", []), ("C-term", [])]) 1 0
      ++ label_ions specMassData [("N-term", ["TMT6plex"]), ("S", []),
        ("Y", ["Phospho"]), ("K", []), ("C-term", [])]
      ++ py_ions specMassData [("N-term", ["TMT6plex"]), ("S", []),
        ("Y", ["Phospho"]), ("K", []), ("C-term", [])] 0
      ++ internal_fragment_ions specMassData INTERNAL_LOSSES AA_LOSSES
        MOD_LOSSES [("N-term", ["TMT6plex"]), ("S", []),
          ("Y", ["Phospho"]), ("K", []), ("C-term", [])] 0)
    ∧ ((1 : ℕ) = 1 →
      (fragment_ions specMassData [("N-term", ["TMT6plex"]), ("S", []),
          ("Y", ["Phospho"]), ("K", []), ("C-term", [])] 1 none none 0 none
          none none =
        parent_ions specMassData PEPTIDE_LOSSES AA_LOSSES MOD_LOSSES
          [("N-term", ["TMT6plex"]), ("S", []), ("Y", ["Phospho"]),
            ("K", []), ("C-term", [])]
          (get_frag_masses specMassData [("N-term", ["TMT6plex"]),
            ("S", []), ("Y", ["Phospho"]), ("K", []), ("C-term", [])]) 1 0
        ++ label_ions specMassData [("N-term", ["TMT6plex"]), ("S", []),
          ("Y", ["Phospho"]), ("K", []), ("C-term", [])]
        ++ py_ions specMassData [("N-term", ["TMT6plex"]), ("S", []),
          ("Y", ["Phospho"]), ("K", []), ("C-term", [])] 0
        ++ internal_fragment_ions specMassData INTERNAL_LOSSES AA_LOSSES
          MOD_LOSSES [("N-term", ["TMT6plex"]), ("S", []),
            ("Y", ["Phospho"]), ("K", []), ("C-term", [])] 0)
      ∧ ∀ key ∈ (fragment_ions specMassData [("N-term", ["TMT6plex"]),
          ("S", []), ("Y", ["Phospho"]), ("K", []), ("C-term", [])] 1
          none none 0 none none none).map Prod.fst,
          startsWithStr key "a_" = false ∧ startsWithStr key "b_" = false ∧
            startsWithStr key "y_" = false)) := by
  have hwf : wellFormed [("N-term", ["TMT6plex"]), ("S", []),
      ("Y", ["Phospho"]), ("K", []), ("C-term", [])] :=
    ⟨[("S", []), ("Y", ["Phospho"]), ("K", [])], ["TMT6plex"],
      ([] : List String), rfl, by decide⟩
  have hld : labelNamesDigit specMassData := by
    intro mod nm h
    have h' : nm ∈ (if mod = "TMT6plex" then
        (["126", "127", "128", "129", "130", "131"] : List String)
        else []) := h
    split at h'
    · simp only [List.mem_cons, List.not_mem_nil, or_false] at h'
      rcases h' with rfl | rfl | rfl | rfl | rfl | rfl <;>
        exact ⟨'1', _, rfl, by decide⟩
    · exact absurd h' (List.not_mem_nil nm)
  exact ⟨hwf, hld, claim_C10 specMassData _ 1 0 hwf hld⟩

/-! ### Lemmas on dictionary lookup and the no-loss entry -/

theorem mapLookup_foldl_mem {key : String} {v : ℚ} :
    ∀ (l : List (String × ℚ)) (acc : Option ℚ),
    (∀ p ∈ l, p.1 = key → p.2 = v) →
    ((∃ p ∈ l, p.1 = key) ∨ acc = some v) →
    l.foldl (fun acc p => if p.1 = key then some p.2 else acc) acc = some v
  | [], acc, _, h => by
    rcases h with ⟨p, hp, _⟩ | h
    · exact absurd hp (List.not_mem_nil p)
    · exact h
  | p :: t, acc, hall, h => by
    rw [List.foldl_cons]
    by_cases hk : p.1 = key
    · refine mapLookup_foldl_mem t _
        (fun r hr => hall r (List.mem_cons_of_mem p hr)) (Or.inr ?_)
      rw [if_pos hk, hall p (List.mem_cons_self p t) hk]
    · rw [if_neg hk]
      refine mapLookup_foldl_mem t _
        (fun r hr => hall r (List.mem_cons_of_mem p hr)) ?_
      rcases h with ⟨r, hr, hrk⟩ | h
      · rcases List.mem_cons.1 hr with rfl | hr'
        · exact absurd hrk hk
        · exact Or.inl ⟨r, hr', hrk⟩
      · exact Or.inr h

theorem mapLookup_eq_of {l : List (String × ℚ)} {key : String} {v : ℚ}
    (hex : ∃ p ∈ l, p.1 = key)
    (hall : ∀ p ∈ l, p.1 = key → p.2 = v) :
    mapLookup l key = some v :=
  mapLookup_foldl_mem l none hall (Or.inl hex)

theorem format_loss_eq_empty {name : String} {count : ℤ}
    (h : format_loss name count = "") : name = "" ∨ count = 0 := by
  by_contra hc
  push_neg at hc
  unfold format_loss at h
  rw [if_neg (not_or.mpr ⟨hc.1, hc.2⟩)] at h
  have hd := congrArg String.data h
  rw [str_append_data, str_append_data] at hd
  split at hd <;> simp at hd

theorem flatten_nil_forall {L : List (List Char)} (h : L.flatten = []) :
    ∀ x ∈ L, x = [] := by
  induction L with
  | nil => exact fun x hx => absurd hx (List.not_mem_nil x)
  | cons a L ih =>
    rw [List.flatten_cons] at h
    have hsplit := List.append_eq_nil.mp h
    intro x hx
    rcases List.mem_cons.1 hx with rfl | hx'
    · exact hsplit.1
    · exact ih hsplit.2 x hx'

theorem loss_counter_mass_zero {md : MassData} {c : LossCounter}
    (h : ∀ p ∈ c, p.1 = "" ∨ p.2 = 0) : loss_counter_mass md c = 0 := by
  unfold loss_counter_mass
  apply List.sum_eq_zero
  intro x hx
  rw [List.mem_map] at hx
  obtain ⟨p, hp, rfl⟩ := hx
  by_cases he : p.1 = ""
  · rw [if_pos he]
  · rcases h p hp with h' | h'
    · exact absurd h' he
    · rw [if_neg he, h']
      simp

theorem gl_empty_name_mass {md : MassData} {anyL : List String}
    {aaL : List (String × List String)}
    {modL : List ((String × String) × List String)}
    {seq : ModSeq} {d k : ℕ} {lq : String × ℚ}
    (h : lq ∈ generate_losses md anyL aaL modL seq d k) (he : lq.1 = "") :
    lq.2 = 0 := by
  unfold generate_losses at h
  rw [List.mem_flatMap] at h
  obtain ⟨c, hc, h⟩ := h
  rw [List.mem_map] at h
  obtain ⟨q, hq, hpair⟩ := h
  have h1 : loss_counter_name c ++ q.1 = "" := by rw [← he, ← hpair]
  have hdat := congrArg String.data h1
  rw [str_append_data] at hdat
  have hboth := List.append_eq_nil.mp hdat
  unfold generate_c13 at hq
  rw [List.mem_map] at hq
  obtain ⟨j, hj, hqe⟩ := hq
  have hq1 : q.1 = format_loss "^\x7b13\x7dC" (j : ℤ) := by rw [← hqe]
  have hq2 : q.2 = (j : ℚ) * md.DELTA_C13 := by rw [← hqe]
  have hj0 : (j : ℤ) = 0 := by
    have htag : format_loss "^\x7b13\x7dC" (j : ℤ) = "" :=
      string_eq_of_data (by rw [← hq1]; exact hboth.2)
    rcases format_loss_eq_empty htag with h' | h'
    · exact absurd h' (by decide)
    · exact h'
  have hLn : (strJoin ((counter_items_sorted c).map fun p =>
      format_loss p.1 p.2)).data = [] := hboth.1
  rw [strJoin_data] at hLn
  have hpieces := flatten_nil_forall hLn
  have hmass : loss_counter_mass md c = 0 := by
    apply loss_counter_mass_zero
    intro p hp
    have hps : p ∈ counter_items_sorted c := by
      unfold counter_items_sorted
      exact (sortBy_perm _ c).mem_iff.mpr hp
    have hfe : format_loss p.1 p.2 = "" := by
      apply string_eq_of_data
      apply hpieces
      rw [List.mem_map]
      exact ⟨format_loss p.1 p.2, List.mem_map.2 ⟨p, hps, rfl⟩, rfl⟩
    exact format_loss_eq_empty hfe
  have h2 : lq.2 = loss_counter_mass md c + q.2 := by rw [← hpair]
  rw [h2, hmass, hq2]
  have : (j : ℚ) = 0 := by exact_mod_cast hj0
  rw [this]
  ring

theorem generate_c13_zero_mem (md : MassData) (k : ℕ) :
    ∃ q ∈ generate_c13 md k, q.1 = "" ∧ q.2 = 0 := by
  unfold generate_c13
  refine ⟨_, List.mem_map.mpr ⟨((0 : ℕ) : ℤ), ?_, rfl⟩, ?_, ?_⟩
  · simp
    exact ⟨0, Nat.succ_pos k, by simp⟩
  · show format_loss "^\x7b13\x7dC" ((0 : ℕ) : ℤ) = ""
    decide
  · simp

theorem gl_mem_no_loss (md : MassData) (anyL : List String)
    (aaL : List (String × List String))
    (modL : List ((String × String) × List String))
    (seq : ModSeq) (d k : ℕ) :
    ∃ lq ∈ generate_losses md anyL aaL modL seq d k,
      lq.1 = "" ∧ lq.2 = 0 := by
  obtain ⟨q, hq, hq1, hq2⟩ := generate_c13_zero_mem md k
  refine ⟨(loss_counter_name initLossCounter ++ q.1,
    loss_counter_mass md initLossCounter + q.2), ?_, ?_, ?_⟩
  · unfold generate_losses
    rw [List.mem_flatMap]
    exact ⟨initLossCounter, List.mem_cons_self _ _,
      List.mem_map.mpr ⟨q, hq, rfl⟩⟩
  · show loss_counter_name initLossCounter ++ q.1 = ""
    rw [hq1]
    decide
  · show loss_counter_mass md initLossCounter + q.2 = 0
    rw [hq2, show loss_counter_mass md initLossCounter = 0 from by
      simp [loss_counter_mass, initLossCounter]]
    norm_num

theorem suffix_parse_one {s : String} {ch : ℕ}
    (hsh : s = "" ∨ ∃ t, s.data = '+' :: t ∨ s.data = '-' :: t)
    (hch : 1 ≤ ch)
    (h : s.data ++ (charge_suffix ch).data = ['^', '{', '+', '}']) :
    s = "" ∧ ch = 1 := by
  rcases hsh with he | ⟨t, hsh | hsh⟩
  · refine ⟨he, ?_⟩
    rw [he] at h
    have h' : (charge_suffix ch).data = ['^', '{', '+', '}'] := by
      simpa using h
    by_cases h1 : 1 < ch
    · exfalso
      rw [show charge_suffix ch = "^\x7b+" ++ natStr ch ++ "\x7d" from by
        unfold charge_suffix; rw [if_pos h1]] at h'
      rw [str_append_data, str_append_data,
        show ("^\x7b+" : String).data = ['^', '{', '+'] from rfl,
        show ("\x7d" : String).data = ['}'] from rfl, natStr_data] at h'
      have hlen := congrArg List.length h'
      rw [List.length_append, List.length_append] at hlen
      simp at hlen
      exact natDigits_ne_nil ch hlen
    · omega
  · exfalso
    rw [hsh, List.cons_append] at h
    injection h with h1 _
    exact absurd h1 (by decide)
  · exfalso
    rw [hsh, List.cons_append] at h
    injection h with h1 _
    exact absurd h1 (by decide)

theorem b1Key_data (n : ℕ) : (b1Key n).data =
    'b' :: '_' :: '{' :: ((natStr n).data ++ '}' :: ['^', '{', '+', '}']) := by
  unfold b1Key
  rw [bKey_data]
  rfl

theorem y1Key_data (n : ℕ) : (y1Key n).data =
    'y' :: '_' :: '{' :: ((natStr n).data ++ '}' :: ['^', '{', '+', '}']) := by
  unfold y1Key
  rw [yKey_data]
  rfl

theorem fragment_bkey_value {md : MassData} {pep : ModSeq}
    {mid : List Residue} {mN mC : List String}
    (hpep : pep = ("N-term", mN) :: mid ++ [("C-term", mC)])
    (hmid : ∀ r ∈ mid, r.1 ∈ validLetters) (hld : labelNamesDigit md)
    {charge : ℕ} {pmc? fmc? : Option ℕ} {k : ℕ} {q : String × ℚ}
    (hq : q ∈ fragment_ions md pep charge pmc? fmc? k none none none)
    {n : ℕ} (hk : q.1 = b1Key n) :
    q.2 = ((get_frag_masses md pep).take (n + 1)).sum + md.PROTON := by
  rcases mem_fragment_ions hq with h | h | h | h | h
  · obtain ⟨bi, hbi, lq, hlq, ch, hch, heq⟩ := mem_b_y_ions h
    rw [List.mem_range'_1] at hch
    have hq1 : q.1 = (bi.1 ++ lq.1) ++ charge_suffix ch := by rw [heq]
    have hq2 : q.2 = (bi.2.1 + lq.2 + (ch : ℚ) * md.PROTON) / (ch : ℚ) := by
      rw [heq]
    rcases base_ions_mem hbi with ⟨idx, hi2, hil, hab | hab⟩ |
      ⟨idx, hi1, hil, hy⟩
    · exfalso
      have hb1 : bi.1 = "a_\x7b" ++ natStr (idx - 1) ++ "\x7d" := by rw [hab]
      have h2 : ((("a_\x7b" ++ natStr (idx - 1) ++ "\x7d") ++ lq.1) ++
          charge_suffix ch).data = (b1Key n).data := by
        rw [← hb1, ← hq1, hk]
      rw [b1Key_data] at h2
      simp [str_append_data] at h2
    · have hb1 : bi.1 = "b_\x7b" ++ natStr (idx - 1) ++ "\x7d" := by rw [hab]
      have hbv : bi.2.1 = ((get_frag_masses md pep).take idx).sum := by
        rw [hab]
      have h2 : ((("b_\x7b" ++ natStr (idx - 1) ++ "\x7d") ++ lq.1) ++
          charge_suffix ch).data = (b1Key n).data := by
        rw [← hb1, ← hq1, hk]
      rw [b1Key_data, show ('b' :: '_' :: '{' :: ((natStr n).data ++
        '}' :: ['^', '{', '+', '}'])) = ['b', '_', '{'] ++ ((natStr n).data ++
        '}' :: ['^', '{', '+', '}']) from rfl] at h2
      simp only [str_append_data] at h2
      rw [List.append_assoc, List.append_assoc] at h2
      rw [show (['}'] : List Char) ++ (lq.1.data ++
        (charge_suffix ch).data) = '}' :: (lq.1.data ++
        (charge_suffix ch).data) from rfl, List.append_assoc] at h2
      obtain ⟨hkn, hsuf⟩ := natStr_brace_inj (List.append_cancel_left h2)
      obtain ⟨hlq1, hch1⟩ := suffix_parse_one (generate_losses_shape hlq)
        hch.1 hsuf
      have hlq2 : lq.2 = 0 := gl_empty_name_mass hlq hlq1
      have hidx : idx = n + 1 := by omega
      rw [hq2, hbv, hidx, hlq2, hch1]
      norm_num
    · exfalso
      have hb1 : bi.1 = "y_\x7b" ++ natStr (pep.length - idx - 1) ++ "\x7d" :=
        by rw [hy]
      have h2 : ((("y_\x7b" ++ natStr (pep.length - idx - 1) ++ "\x7d") ++
          lq.1) ++ charge_suffix ch).data = (b1Key n).data := by
        rw [← hb1, ← hq1, hk]
      rw [b1Key_data] at h2
      simp [str_append_data] at h2
  · exfalso
    obtain ⟨lq, hlq, ch, hch, heq⟩ := mem_parent_ions h
    have hd : q.1.data
        = 'M' :: 'H' :: (lq.1.data ++ (charge_suffix ch).data) := by
      rw [heq]
      simp [str_append_data]
    rw [hk, b1Key_data] at hd
    simp at hd
  · exfalso
    obtain ⟨mod, hmem⟩ := mem_label_ions h
    obtain ⟨c, t, hcd, hdig⟩ := hld mod q.1 hmem
    rw [hk, b1Key_data] at hcd
    injection hcd with hc _
    rw [← hc] at hdig
    exact absurd hdig (by decide)
  · exfalso
    obtain ⟨lq, hlq, heq⟩ := mem_py_ions h
    have hd : q.1.data = 'p' :: 'Y' :: lq.1.data := by
      rw [heq]
      simp [str_append_data]
    rw [hk, b1Key_data] at hd
    simp at hd
  · exfalso
    obtain ⟨mid', mN', mC', hpep', hmid'⟩ :=
      (⟨mid, mN, mC, hpep, hmid⟩ : wellFormed pep)
    obtain ⟨start, stop, hs2, hss, hsl, lq, hlq, heq⟩ := mem_internal_ions h
    have hlen : pep.length = mid'.length + 2 := by
      rw [hpep']
      simp
    rw [hpep'] at heq
    have hslice := @slice_in_mid mid' mN' mC' start stop (by omega) hss
      (by omega)
    have hvl : ∀ r ∈ ((("N-term", mN') :: mid' ++ [("C-term", mC')] :
        ModSeq).drop start).take (stop - start), r.1 ∈ validLetters :=
      fun r hr => hmid' r (hslice.1 r hr)
    obtain ⟨c, cs, hd, hca, hcsa⟩ := seq_name_frag_alpha hvl hslice.2
    have hq1 : q.1 = sequence_name (("N-term", ([] : List String)) ::
        ((((("N-term", mN') :: mid' ++ [("C-term", mC')]) : ModSeq).drop
          start).take (stop - start)) ++ [("C=O", ([] : List String))])
        ++ lq.1 := by
      rw [heq]
    have hqd : q.1.data = (c :: cs) ++ lq.1.data := by
      rw [hq1, str_append_data, hd]
    rw [hk, b1Key_data] at hqd
    rw [show ((c :: cs) ++ lq.1.data) = c :: (cs ++ lq.1.data) from rfl]
      at hqd
    injection hqd with hc1 hqd2
    cases cs with
    | cons c2 cs' =>
      injection hqd2 with hc2 _
      exact absurd hc2.symm
        (alpha_ne_underscore (hcsa c2 (List.mem_cons_self c2 cs')))
    | nil =>
      have hlqd : lq.1.data = '_' :: '{' :: ((natStr n).data ++
          '}' :: ['^', '{', '+', '}']) := by simpa using hqd2.symm
      rcases generate_losses_shape hlq with hlq0 | ⟨t, hsh | hsh⟩
      · rw [hlq0] at hlqd
        exact absurd hlqd (by simp)
      · rw [hsh] at hlqd
        injection hlqd with h1 _
        exact absurd h1 (by decide)
      · rw [hsh] at hlqd
        injection hlqd with h1 _
        exact absurd h1 (by decide)

theorem fragment_ykey_value {md : MassData} {pep : ModSeq}
    {mid : List Residue} {mN mC : List String}
    (hpep : pep = ("N-term", mN) :: mid ++ [("C-term", mC)])
    (hmid : ∀ r ∈ mid, r.1 ∈ validLetters) (hld : labelNamesDigit md)
    {charge : ℕ} {pmc? fmc? : Option ℕ} {k : ℕ} {q : String × ℚ}
    (hq : q ∈ fragment_ions md pep charge pmc? fmc? k none none none)
    {m : ℕ} (hk : q.1 = y1Key m) :
    q.2 = ((get_frag_masses md pep).drop (pep.length - 1 - m)).sum +
      md.PROTON + md.PROTON := by
  rcases mem_fragment_ions hq with h | h | h | h | h
  · obtain ⟨bi, hbi, lq, hlq, ch, hch, heq⟩ := mem_b_y_ions h
    rw [List.mem_range'_1] at hch
    have hq1 : q.1 = (bi.1 ++ lq.1) ++ charge_suffix ch := by rw [heq]
    have hq2 : q.2 = (bi.2.1 + lq.2 + (ch : ℚ) * md.PROTON) / (ch : ℚ) := by
      rw [heq]
    rcases base_ions_mem hbi with ⟨idx, hi2, hil, hab | hab⟩ |
      ⟨idx, hi1, hil, hy⟩
    · exfalso
      have hb1 : bi.1 = "a_\x7b" ++ natStr (idx - 1) ++ "\x7d" := by rw [hab]
      have h2 : ((("a_\x7b" ++ natStr (idx - 1) ++ "\x7d") ++ lq.1) ++
          charge_suffix ch).data = (y1Key m).data := by
        rw [← hb1, ← hq1, hk]
      rw [y1Key_data] at h2
      simp [str_append_data] at h2
    · exfalso
      have hb1 : bi.1 = "b_\x7b" ++ natStr (idx - 1) ++ "\x7d" := by rw [hab]
      have h2 : ((("b_\x7b" ++ natStr (idx - 1) ++ "\x7d") ++ lq.1) ++
          charge_suffix ch).data = (y1Key m).data := by
        rw [← hb1, ← hq1, hk]
      rw [y1Key_data] at h2
      simp [str_append_data] at h2
    · have hb1 : bi.1 = "y_\x7b" ++ natStr (pep.length - idx - 1) ++ "\x7d" :=
        by rw [hy]
      have hbv : bi.2.1 = ((get_frag_masses md pep).drop idx).sum +
          md.PROTON := by rw [hy]
      have h2 : ((("y_\x7b" ++ natStr (pep.length - idx - 1) ++ "\x7d") ++
          lq.1) ++ charge_suffix ch).data = (y1Key m).data := by
        rw [← hb1, ← hq1, hk]
      rw [y1Key_data, show ('y' :: '_' :: '{' :: ((natStr m).data ++
        '}' :: ['^', '{', '+', '}'])) = ['y', '_', '{'] ++ ((natStr m).data ++
        '}' :: ['^', '{', '+', '}']) from rfl] at h2
      simp only [str_append_data] at h2
      rw [List.append_assoc, List.append_assoc] at h2
      rw [show (['}'] : List Char) ++ (lq.1.data ++
        (charge_suffix ch).data) = '}' :: (lq.1.data ++
        (charge_suffix ch).data) from rfl, List.append_assoc] at h2
      obtain ⟨hkn, hsuf⟩ := natStr_brace_inj (List.append_cancel_left h2)
      obtain ⟨hlq1, hch1⟩ := suffix_parse_one (generate_losses_shape hlq)
        hch.1 hsuf
      have hlq2 : lq.2 = 0 := gl_empty_name_mass hlq hlq1
      have hidx : idx = pep.length - 1 - m := by omega
      rw [hq2, hbv, hidx, hlq2, hch1]
      norm_num
  · exfalso
    obtain ⟨lq, hlq, ch, hch, heq⟩ := mem_parent_ions h
    have hd : q.1.data
        = 'M' :: 'H' :: (lq.1.data ++ (charge_suffix ch).data) := by
      rw [heq]
      simp [str_append_data]
    rw [hk, y1Key_data] at hd
    simp at hd
  · exfalso
    obtain ⟨mod, hmem⟩ := mem_label_ions h
    obtain ⟨c, t, hcd, hdig⟩ := hld mod q.1 hmem
    rw [hk, y1Key_data] at hcd
    injection hcd with hc _
    rw [← hc] at hdig
    exact absurd hdig (by decide)
  · exfalso
    obtain ⟨lq, hlq, heq⟩ := mem_py_ions h
    have hd : q.1.data = 'p' :: 'Y' :: lq.1.data := by
      rw [heq]
      simp [str_append_data]
    rw [hk, y1Key_data] at hd
    simp at hd
  · exfalso
    obtain ⟨mid', mN', mC', hpep', hmid'⟩ :=
      (⟨mid, mN, mC, hpep, hmid⟩ : wellFormed pep)
    obtain ⟨start, stop, hs2, hss, hsl, lq, hlq, heq⟩ := mem_internal_ions h
    have hlen : pep.length = mid'.length + 2 := by
      rw [hpep']
      simp
    rw [hpep'] at heq
    have hslice := @slice_in_mid mid' mN' mC' start stop (by omega) hss
      (by omega)
    have hvl : ∀ r ∈ ((("N-term", mN') :: mid' ++ [("C-term", mC')] :
        ModSeq).drop start).take (stop - start), r.1 ∈ validLetters :=
      fun r hr => hmid' r (hslice.1 r hr)
    obtain ⟨c, cs, hd, hca, hcsa⟩ := seq_name_frag_alpha hvl hslice.2
    have hq1 : q.1 = sequence_name (("N-term", ([] : List String)) ::
        ((((("N-term", mN') :: mid' ++ [("C-term", mC')]) : ModSeq).drop
          start).take (stop - start)) ++ [("C=O", ([] : List String))])
        ++ lq.1 := by
      rw [heq]
    have hqd : q.1.data = (c :: cs) ++ lq.1.data := by
      rw [hq1, str_append_data, hd]
    rw [hk, y1Key_data] at hqd
    rw [show ((c :: cs) ++ lq.1.data) = c :: (cs ++ lq.1.data) from rfl]
      at hqd
    injection hqd with hc1 hqd2
    cases cs with
    | cons c2 cs' =>
      injection hqd2 with hc2 _
      exact absurd hc2.symm
        (alpha_ne_underscore (hcsa c2 (List.mem_cons_self c2 cs')))
    | nil =>
      have hlqd : lq.1.data = '_' :: '{' :: ((natStr m).data ++
          '}' :: ['^', '{', '+', '}']) := by simpa using hqd2.symm
      rcases generate_losses_shape hlq with hlq0 | ⟨t, hsh | hsh⟩
      · rw [hlq0] at hlqd
        exact absurd hlqd (by simp)
      · rw [hsh] at hlqd
        injection hlqd with h1 _
        exact absurd h1 (by decide)
      · rw [hsh] at hlqd
        injection hlqd with h1 _
        exact absurd h1 (by decide)

theorem fragment_bkey_exists (md : MassData) (pep : ModSeq)
    (charge : ℕ) (pmc? fmc? : Option ℕ) (k : ℕ)
    (hfmc : 1 ≤ fmc?.getD ((pmc?.getD charge) - 1))
    (n : ℕ) (hn : 1 ≤ n) (hlen : n + 2 < pep.length) :
    ∃ q ∈ fragment_ions md pep charge pmc? fmc? k none none none,
      q.1 = b1Key n := by
  obtain ⟨lq, hlq, hlq1, hlq2⟩ := gl_mem_no_loss md PEPTIDE_LOSSES AA_LOSSES
    MOD_LOSSES (pep.take (n + 1)) 2 k
  refine ⟨((("b_\x7b" ++ natStr n ++ "\x7d") ++ lq.1) ++ charge_suffix 1,
    ((((get_frag_masses md pep).take (n + 1)).sum + lq.2 +
      ((1 : ℕ) : ℚ) * md.PROTON) / ((1 : ℕ) : ℚ))), ?_, ?_⟩
  · show _ ∈ b_y_ions md PEPTIDE_LOSSES AA_LOSSES MOD_LOSSES pep
      (get_frag_masses md pep) (fmc?.getD ((pmc?.getD charge) - 1)) k ++
      parent_ions md PEPTIDE_LOSSES AA_LOSSES MOD_LOSSES pep
        (get_frag_masses md pep) (pmc?.getD charge) k ++ label_ions md pep
      ++ py_ions md pep k ++ internal_fragment_ions md INTERNAL_LOSSES
        AA_LOSSES MOD_LOSSES pep k
    apply List.mem_append_left
    apply List.mem_append_left
    apply List.mem_append_left
    apply List.mem_append_left
    unfold b_y_ions
    rw [List.mem_flatMap]
    refine ⟨("b_\x7b" ++ natStr n ++ "\x7d",
      (((get_frag_masses md pep).take (n + 1)).sum, pep.take (n + 1))),
      base_ions_mem_b hn hlen, ?_⟩
    rw [List.mem_flatMap]
    refine ⟨lq, hlq, ?_⟩
    unfold charged_m_zs
    rw [List.mem_map]
    exact ⟨1, List.mem_range'_1.mpr ⟨le_refl 1, by omega⟩, rfl⟩
  · show ((("b_\x7b" ++ natStr n ++ "\x7d") ++ lq.1) ++ charge_suffix 1)
      = b1Key n
    rw [hlq1]
    apply string_eq_of_data
    simp [str_append_data, b1Key]

theorem fragment_ykey_exists (md : MassData) (pep : ModSeq)
    (charge : ℕ) (pmc? fmc? : Option ℕ) (k : ℕ)
    (hfmc : 1 ≤ fmc?.getD ((pmc?.getD charge) - 1))
    (idx : ℕ) (h1 : 1 ≤ idx) (hlen : idx < pep.length - 1) :
    ∃ q ∈ fragment_ions md pep charge pmc? fmc? k none none none,
      q.1 = y1Key (pep.length - idx - 1) := by
  obtain ⟨lq, hlq, hlq1, hlq2⟩ := gl_mem_no_loss md PEPTIDE_LOSSES AA_LOSSES
    MOD_LOSSES (pep.drop idx) 2 k
  refine ⟨((("y_\x7b" ++ natStr (pep.length - idx - 1) ++ "\x7d") ++ lq.1)
      ++ charge_suffix 1,
    ((((get_frag_masses md pep).drop idx).sum + md.PROTON + lq.2 +
      ((1 : ℕ) : ℚ) * md.PROTON) / ((1 : ℕ) : ℚ))), ?_, ?_⟩
  · show _ ∈ b_y_ions md PEPTIDE_LOSSES AA_LOSSES MOD_LOSSES pep
      (get_frag_masses md pep) (fmc?.getD ((pmc?.getD charge) - 1)) k ++
      parent_ions md PEPTIDE_LOSSES AA_LOSSES MOD_LOSSES pep
        (get_frag_masses md pep) (pmc?.getD charge) k ++ label_ions md pep
      ++ py_ions md pep k ++ internal_fragment_ions md INTERNAL_LOSSES
        AA_LOSSES MOD_LOSSES pep k
    apply List.mem_append_left
    apply List.mem_append_left
    apply List.mem_append_left
    apply List.mem_append_left
    unfold b_y_ions
    rw [List.mem_flatMap]
    refine ⟨("y_\x7b" ++ natStr (pep.length - idx - 1) ++ "\x7d",
      (((get_frag_masses md pep).drop idx).sum + md.PROTON, pep.drop idx)),
      base_ions_mem_y h1 hlen, ?_⟩
    rw [List.mem_flatMap]
    refine ⟨lq, hlq, ?_⟩
    unfold charged_m_zs
    rw [List.mem_map]
    exact ⟨1, List.mem_range'_1.mpr ⟨le_refl 1, by omega⟩, rfl⟩
  · show ((("y_\x7b" ++ natStr (pep.length - idx - 1) ++ "\x7d") ++ lq.1)
      ++ charge_suffix 1) = y1Key (pep.length - idx - 1)
    rw [hlq1]
    apply string_eq_of_data
    simp [str_append_data, y1Key]

/-- Claim C2: for a well-formed modified sequence of residue length L and
a cleavage index n with 1 <= n <= L - 1 (residue length L is the peptide
length without the two sentinels), the singly charged b_n and y_(L-n)
entries of the fragment_ions map are present, and their values sum to the
parent MH mass plus two proton masses, exactly, hence in particular to
within 0.01 Da. -/
theorem claim_C2 (md : MassData) (pep : ModSeq)
    (hwf : wellFormed pep) (hld : labelNamesDigit md)
    (charge : ℕ) (pmc? fmc? : Option ℕ) (k : ℕ)
    (hfmc : 1 ≤ fmc?.getD ((pmc?.getD charge) - 1))
    (n : ℕ) (hn1 : 1 ≤ n) (hn2 : n ≤ pep.length - 3) :
    ∃ bv yv,
      mapLookup (fragment_ions md pep charge pmc? fmc? k none none none)
        (b1Key n) = some bv ∧
      mapLookup (fragment_ions md pep charge pmc? fmc? k none none none)
        (y1Key (pep.length - 2 - n)) = some yv ∧
      bv + yv = parent_mh_mass md (get_frag_masses md pep) +
        2 * md.PROTON ∧
      |bv + yv - (parent_mh_mass md (get_frag_masses md pep) +
        2 * md.PROTON)| ≤ 1 / 100 := by
  obtain ⟨mid, mN, mC, hpep, hmid⟩ := hwf
  have hlen : pep.length = mid.length + 2 := by
    rw [hpep]
    simp
  have hbex := fragment_bkey_exists md pep charge pmc? fmc? k hfmc n hn1
    (by omega)
  have hyex := fragment_ykey_exists md pep charge pmc? fmc? k hfmc (n + 1)
    (by omega) (by omega)
  have hyidx : pep.length - (n + 1) - 1 = pep.length - 2 - n := by omega
  rw [hyidx] at hyex
  have hidx2 : pep.length - 1 - (pep.length - 2 - n) = n + 1 := by omega
  have hb : mapLookup (fragment_ions md pep charge pmc? fmc? k none none
      none) (b1Key n) =
      some (((get_frag_masses md pep).take (n + 1)).sum + md.PROTON) :=
    mapLookup_eq_of hbex
      (fun p hp hpk => fragment_bkey_value hpep hmid hld hp hpk)
  have hy : mapLookup (fragment_ions md pep charge pmc? fmc? k none none
      none) (y1Key (pep.length - 2 - n)) =
      some (((get_frag_masses md pep).drop (n + 1)).sum + md.PROTON +
        md.PROTON) := by
    apply mapLookup_eq_of hyex
    intro p hp hpk
    have hv := fragment_ykey_value hpep hmid hld hp hpk
    rw [hidx2] at hv
    exact hv
  have h3 : (((get_frag_masses md pep).take (n + 1)).sum + md.PROTON) +
      (((get_frag_masses md pep).drop (n + 1)).sum + md.PROTON +
        md.PROTON) =
      parent_mh_mass md (get_frag_masses md pep) + 2 * md.PROTON := by
    have hsplit := List.sum_take_add_sum_drop (get_frag_masses md pep)
      (n + 1)
    unfold parent_mh_mass
    linarith
  refine ⟨_, _, hb, hy, h3, ?_⟩
  rw [h3, sub_self, abs_zero]
  norm_num

/-- Witness for C2: a three-residue phosphopeptide at precursor charge 2,
cleaved after the first residue. -/
theorem claim_C2_witness :
    wellFormed [("N-term", []), ("S", []), ("Y", ["Phospho"]), ("K", []),
      ("C-term", [])] ∧
    labelNamesDigit specMassData ∧
    1 ≤ (none : Option ℕ).getD (((none : Option ℕ).getD 2) - 1) ∧
    ∃ bv yv,
      mapLookup (fragment_ions specMassData
        [("N-term", []), ("S", []), ("Y", ["Phospho"]), ("K", []),
          ("C-term", [])] 2 none none 0 none none none) (b1Key 1) =
        some bv ∧
      mapLookup (fragment_ions specMassData
        [("N-term", []), ("S", []), ("Y", ["Phospho"]), ("K", []),
          ("C-term", [])] 2 none none 0 none none none) (y1Key 2) =
        some yv ∧
      bv + yv = parent_mh_mass specMassData (get_frag_masses specMassData
        [("N-term", []), ("S", []), ("Y", ["Phospho"]), ("K", []),
          ("C-term", [])]) + 2 * specMassData.PROTON ∧
      |bv + yv - (parent_mh_mass specMassData (get_frag_masses specMassData
        [("N-term", []), ("S", []), ("Y", ["Phospho"]), ("K", []),
          ("C-term", [])]) + 2 * specMassData.PROTON)| ≤ 1 / 100 := by
  have hwf : wellFormed [("N-term", []), ("S", []), ("Y", ["Phospho"]),
      ("K", []), ("C-term", [])] :=
    ⟨[("S", []), ("Y", ["Phospho"]), ("K", [])], [], ([] : List String),
      rfl, by decide⟩
  have hld : labelNamesDigit specMassData := by
    intro mod nm h
    have h' : nm ∈ (if mod = "TMT6plex" then
        (["126", "127", "128", "129", "130", "131"] : List String)
        else []) := h
    split at h'
    · simp only [List.mem_cons, List.not_mem_nil, or_false] at h'
      rcases h' with rfl | rfl | rfl | rfl | rfl | rfl <;>
        exact ⟨'1', _, rfl, by decide⟩
    · exact absurd h' (List.not_mem_nil nm)
  exact ⟨hwf, hld, by decide,
    claim_C2 specMassData _ hwf hld 2 none none 0 (by decide) 1 (by decide)
      (by decide)⟩

/-! ### Lemmas on the isotope ladder -/

theorem hasC13Tag_append_right {a : String} (b : String)
    (h : hasC13Tag a) : hasC13Tag (a ++ b) := by
  obtain ⟨u, v, hd⟩ := h
  refine ⟨u, v ++ b.data, ?_⟩
  rw [str_append_data, hd]
  simp [List.append_assoc]

theorem hasC13Tag_append_left (a : String) {b : String}
    (h : hasC13Tag b) : hasC13Tag (a ++ b) := by
  obtain ⟨u, v, hd⟩ := h
  refine ⟨a.data ++ u, v, ?_⟩
  rw [str_append_data, hd]
  simp [List.append_assoc]

theorem format_loss_tag {j : ℤ} (hj : j ≠ 0) :
    hasC13Tag (format_loss "^\x7b13\x7dC" j) := by
  unfold format_loss
  rw [if_neg (by simp [hj])]
  refine ⟨((if j > 0 then "+" else "-") ++
    (if 1 < j.natAbs then natStr j.natAbs ++ " " else "")).data, [], ?_⟩
  rw [str_append_data]
  have : c13Tag.data = ("^\x7b13\x7dC" : String).data := rfl
  rw [this]
  simp

theorem generate_c13_cons (md : MassData) (k : ℕ) :
    ∃ tail, generate_c13 md k =
      (format_loss "^\x7b13\x7dC" ((0 : ℕ) : ℤ),
        (((0 : ℕ) : ℤ) : ℚ) * md.DELTA_C13) :: tail ∧
      ∀ q ∈ tail, hasC13Tag q.1 := by
  unfold generate_c13
  rw [List.range_succ_eq_map]
  refine ⟨((do
      let a ← (List.range k).map Nat.succ
      pure ((a : ℤ)) : List ℤ)).map
        (fun j => (format_loss "^\x7b13\x7dC" j, (j : ℚ) * md.DELTA_C13)),
    ?_, ?_⟩
  · rfl
  · intro q hq
    rw [List.mem_map] at hq
    obtain ⟨j, hj, hje⟩ := hq
    have hj1 : ∃ a : ℕ, j = ((a + 1 : ℕ) : ℤ) := by
      simp at hj
      obtain ⟨a, ha, rfl⟩ := hj
      exact ⟨a, by push_cast; ring⟩
    obtain ⟨a, rfl⟩ := hj1
    rw [← hje]
    exact format_loss_tag (by push_cast; omega)

theorem generate_c13_mono {md : MassData} {k k' : ℕ} (hk : k ≤ k')
    {q : String × ℚ} (h : q ∈ generate_c13 md k) :
    q ∈ generate_c13 md k' := by
  unfold generate_c13 at h ⊢
  rw [List.mem_map] at h ⊢
  obtain ⟨j, hj, hje⟩ := h
  refine ⟨j, ?_, hje⟩
  simp at hj ⊢
  obtain ⟨a, ha, rfl⟩ := hj
  exact ⟨a, by omega, rfl⟩

theorem generate_losses_mono {md : MassData} {anyL : List String}
    {aaL : List (String × List String)}
    {modL : List ((String × String) × List String)}
    {seq : ModSeq} {d : ℕ} {k k' : ℕ} (hk : k ≤ k')
    {lq : String × ℚ} (h : lq ∈ generate_losses md anyL aaL modL seq d k) :
    lq ∈ generate_losses md anyL aaL modL seq d k' := by
  unfold generate_losses at h ⊢
  rw [List.mem_flatMap] at h ⊢
  obtain ⟨c, hc, h⟩ := h
  refine ⟨c, hc, ?_⟩
  rw [List.mem_map] at h ⊢
  obtain ⟨q, hq, hqe⟩ := h
  exact ⟨q, generate_c13_mono hk hq, hqe⟩

theorem fragment_ions_mono {md : MassData} {pep : ModSeq} {charge : ℕ}
    {pmc? fmc? : Option ℕ} {k k' : ℕ} (hk : k ≤ k') {q : String × ℚ}
    (h : q ∈ fragment_ions md pep charge pmc? fmc? k none none none) :
    q ∈ fragment_ions md pep charge pmc? fmc? k' none none none := by
  rcases mem_fragment_ions h with h | h | h | h | h
  · obtain ⟨bi, hbi, lq, hlq, ch, hch, heq⟩ := mem_b_y_ions h
    show q ∈ b_y_ions md PEPTIDE_LOSSES AA_LOSSES MOD_LOSSES pep
      (get_frag_masses md pep) (fmc?.getD ((pmc?.getD charge) - 1)) k' ++
      parent_ions md PEPTIDE_LOSSES AA_LOSSES MOD_LOSSES pep
        (get_frag_masses md pep) (pmc?.getD charge) k' ++ label_ions md pep
      ++ py_ions md pep k' ++ internal_fragment_ions md INTERNAL_LOSSES
        AA_LOSSES MOD_LOSSES pep k'
    apply List.mem_append_left
    apply List.mem_append_left
    apply List.mem_append_left
    apply List.mem_append_left
    unfold b_y_ions
    rw [List.mem_flatMap]
    refine ⟨bi, hbi, ?_⟩
    rw [List.mem_flatMap]
    refine ⟨lq, generate_losses_mono hk hlq, ?_⟩
    unfold charged_m_zs
    rw [List.mem_map]
    exact ⟨ch, hch, heq.symm⟩
  · obtain ⟨lq, hlq, ch, hch, heq⟩ := mem_parent_ions h
    show q ∈ b_y_ions md PEPTIDE_LOSSES AA_LOSSES MOD_LOSSES pep
      (get_frag_masses md pep) (fmc?.getD ((pmc?.getD charge) - 1)) k' ++
      parent_ions md PEPTIDE_LOSSES AA_LOSSES MOD_LOSSES pep
        (get_frag_masses md pep) (pmc?.getD charge) k' ++ label_ions md pep
      ++ py_ions md pep k' ++ internal_fragment_ions md INTERNAL_LOSSES
        AA_LOSSES MOD_LOSSES pep k'
    apply List.mem_append_left
    apply List.mem_append_left
    apply List.mem_append_left
    apply List.mem_append_right
    unfold parent_ions
    rw [List.mem_flatMap]
    refine ⟨lq, generate_losses_mono hk hlq, ?_⟩
    unfold charged_m_zs
    rw [List.mem_map]
    exact ⟨ch, hch, heq.symm⟩
  · show q ∈ b_y_ions md PEPTIDE_LOSSES AA_LOSSES MOD_LOSSES pep
      (get_frag_masses md pep) (fmc?.getD ((pmc?.getD charge) - 1)) k' ++
      parent_ions md PEPTIDE_LOSSES AA_LOSSES MOD_LOSSES pep
        (get_frag_masses md pep) (pmc?.getD charge) k' ++ label_ions md pep
      ++ py_ions md pep k' ++ internal_fragment_ions md INTERNAL_LOSSES
        AA_LOSSES MOD_LOSSES pep k'
    apply List.mem_append_left
    apply List.mem_append_left
    exact List.mem_append_right _ h
  · unfold py_ions at h
    show q ∈ b_y_ions md PEPTIDE_LOSSES AA_LOSSES MOD_LOSSES pep
      (get_frag_masses md pep) (fmc?.getD ((pmc?.getD charge) - 1)) k' ++
      parent_ions md PEPTIDE_LOSSES AA_LOSSES MOD_LOSSES pep
        (get_frag_masses md pep) (pmc?.getD charge) k' ++ label_ions md pep
      ++ py_ions md pep k' ++ internal_fragment_ions md INTERNAL_LOSSES
        AA_LOSSES MOD_LOSSES pep k'
    apply List.mem_append_left
    apply List.mem_append_right
    unfold py_ions
    by_cases hcond : (pep.any fun r =>
        decide (r.1 = "Y" ∧ "Phospho" ∈ r.2)) = true
    · rw [if_pos hcond] at h ⊢
      rw [List.mem_map] at h ⊢
      obtain ⟨lq, hlq, hqe⟩ := h
      exact ⟨lq, generate_losses_mono hk hlq, hqe⟩
    · rw [if_neg hcond] at h
      exact absurd h (List.not_mem_nil q)
  · obtain ⟨start, stop, hs2, hss, hsl, lq, hlq, heq⟩ := mem_internal_ions h
    show q ∈ b_y_ions md PEPTIDE_LOSSES AA_LOSSES MOD_LOSSES pep
      (get_frag_masses md pep) (fmc?.getD ((pmc?.getD charge) - 1)) k' ++
      parent_ions md PEPTIDE_LOSSES AA_LOSSES MOD_LOSSES pep
        (get_frag_masses md pep) (pmc?.getD charge) k' ++ label_ions md pep
      ++ py_ions md pep k' ++ internal_fragment_ions md INTERNAL_LOSSES
        AA_LOSSES MOD_LOSSES pep k'
    apply List.mem_append_right
    unfold internal_fragment_ions
    rw [List.mem_flatMap]
    refine ⟨start, List.mem_range'_1.mpr ⟨by omega, by omega⟩, ?_⟩
    rw [List.mem_flatMap]
    refine ⟨stop, List.mem_range'_1.mpr ⟨by omega, by omega⟩, ?_⟩
    show q ∈ (generate_losses md INTERNAL_LOSSES AA_LOSSES MOD_LOSSES
      (("N-term", ([] : List String)) ::
        ((pep.drop start).take (stop - start)) ++ [("C=O", ([] : List
          String))]) 1 k').map fun lq =>
      (sequence_name (("N-term", ([] : List String)) ::
        ((pep.drop start).take (stop - start)) ++ [("C=O", ([] : List
          String))]) ++ lq.1,
        sequence_mass md (("N-term", ([] : List String)) ::
          ((pep.drop start).take (stop - start)) ++ [("C=O", ([] : List
            String))]) + lq.2)
    rw [List.mem_map]
    exact ⟨lq, generate_losses_mono hk hlq, heq.symm⟩

theorem generate_c13_cases {md : MassData} (k : ℕ) {k' : ℕ}
    {qc : String × ℚ} (h : qc ∈ generate_c13 md k') :
    qc ∈ generate_c13 md k ∨ hasC13Tag qc.1 := by
  unfold generate_c13 at h ⊢
  rw [List.mem_map] at h
  obtain ⟨j, hj, hje⟩ := h
  simp at hj
  obtain ⟨a, ha, rfl⟩ := hj
  by_cases hak : a < k + 1
  · left
    rw [List.mem_map]
    refine ⟨(a : ℤ), ?_, hje⟩
    simp
    omega
  · right
    rw [← hje]
    exact format_loss_tag (by omega)

theorem generate_losses_cases {md : MassData} {anyL : List String}
    {aaL : List (String × List String)}
    {modL : List ((String × String) × List String)}
    {seq : ModSeq} {d : ℕ} (k : ℕ) {k' : ℕ}
    {lq : String × ℚ} (h : lq ∈ generate_losses md anyL aaL modL seq d k') :
    lq ∈ generate_losses md anyL aaL modL seq d k ∨ hasC13Tag lq.1 := by
  unfold generate_losses at h ⊢
  rw [List.mem_flatMap] at h
  obtain ⟨c, hc, h⟩ := h
  rw [List.mem_map] at h
  obtain ⟨qc, hqc, hqe⟩ := h
  rcases generate_c13_cases k hqc with h' | h'
  · left
    rw [List.mem_flatMap]
    refine ⟨c, hc, ?_⟩
    rw [List.mem_map]
    exact ⟨qc, h', hqe⟩
  · right
    rw [← hqe]
    exact hasC13Tag_append_left _ h'

theorem fragment_ions_cases {md : MassData} {pep : ModSeq} {charge : ℕ}
    {pmc? fmc? : Option ℕ} (k : ℕ) {k' : ℕ} {q : String × ℚ}
    (h : q ∈ fragment_ions md pep charge pmc? fmc? k' none none none) :
    q ∈ fragment_ions md pep charge pmc? fmc? k none none none ∨
      hasC13Tag q.1 := by
  rcases mem_fragment_ions h with h | h | h | h | h
  · obtain ⟨bi, hbi, lq, hlq, ch, hch, heq⟩ := mem_b_y_ions h
    rcases generate_losses_cases k hlq with hlq' | htag
    · left
      show q ∈ b_y_ions md PEPTIDE_LOSSES AA_LOSSES MOD_LOSSES pep
        (get_frag_masses md pep) (fmc?.getD ((pmc?.getD charge) - 1)) k ++
        parent_ions md PEPTIDE_LOSSES AA_LOSSES MOD_LOSSES pep
          (get_frag_masses md pep) (pmc?.getD charge) k ++ label_ions md pep
        ++ py_ions md pep k ++ internal_fragment_ions md INTERNAL_LOSSES
          AA_LOSSES MOD_LOSSES pep k
      apply List.mem_append_left
      apply List.mem_append_left
      apply List.mem_append_left
      apply List.mem_append_left
      unfold b_y_ions
      rw [List.mem_flatMap]
      refine ⟨bi, hbi, ?_⟩
      rw [List.mem_flatMap]
      refine ⟨lq, hlq', ?_⟩
      unfold charged_m_zs
      rw [List.mem_map]
      exact ⟨ch, hch, heq.symm⟩
    · right
      rw [heq]
      exact hasC13Tag_append_right _ (hasC13Tag_append_left _ htag)
  · obtain ⟨lq, hlq, ch, hch, heq⟩ := mem_parent_ions h
    rcases generate_losses_cases k hlq with hlq' | htag
    · left
      show q ∈ b_y_ions md PEPTIDE_LOSSES AA_LOSSES MOD_LOSSES pep
        (get_frag_masses md pep) (fmc?.getD ((pmc?.getD charge) - 1)) k ++
        parent_ions md PEPTIDE_LOSSES AA_LOSSES MOD_LOSSES pep
          (get_frag_masses md pep) (pmc?.getD charge) k ++ label_ions md pep
        ++ py_ions md pep k ++ internal_fragment_ions md INTERNAL_LOSSES
          AA_LOSSES MOD_LOSSES pep k
      apply List.mem_append_left
      apply List.mem_append_left
      apply List.mem_append_left
      apply List.mem_append_right
      unfold parent_ions
      rw [List.mem_flatMap]
      refine ⟨lq, hlq', ?_⟩
      unfold charged_m_zs
      rw [List.mem_map]
      exact ⟨ch, hch, heq.symm⟩
    · right
      rw [heq]
      exact hasC13Tag_append_right _ (hasC13Tag_append_left _ htag)
  · left
    show q ∈ b_y_ions md PEPTIDE_LOSSES AA_LOSSES MOD_LOSSES pep
      (get_frag_masses md pep) (fmc?.getD ((pmc?.getD charge) - 1)) k ++
      parent_ions md PEPTIDE_LOSSES AA_LOSSES MOD_LOSSES pep
        (get_frag_masses md pep) (pmc?.getD charge) k ++ label_ions md pep
      ++ py_ions md pep k ++ internal_fragment_ions md INTERNAL_LOSSES
        AA_LOSSES MOD_LOSSES pep k
    apply List.mem_append_left
    apply List.mem_append_left
    exact List.mem_append_right _ h
  · unfold py_ions at h
    by_cases hcond : (pep.any fun r =>
        decide (r.1 = "Y" ∧ "Phospho" ∈ r.2)) = true
    · rw [if_pos hcond] at h
      rw [List.mem_map] at h
      obtain ⟨lq, hlq, hqe⟩ := h
      rcases generate_losses_cases k hlq with hlq' | htag
      · left
        show q ∈ b_y_ions md PEPTIDE_LOSSES AA_LOSSES MOD_LOSSES pep
          (get_frag_masses md pep) (fmc?.getD ((pmc?.getD charge) - 1)) k ++
          parent_ions md PEPTIDE_LOSSES AA_LOSSES MOD_LOSSES pep
            (get_frag_masses md pep) (pmc?.getD charge) k ++
          label_ions md pep ++ py_ions md pep k ++
          internal_fragment_ions md INTERNAL_LOSSES AA_LOSSES MOD_LOSSES
            pep k
        apply List.mem_append_left
        apply List.mem_append_right
        unfold py_ions
        rw [if_pos hcond, List.mem_map]
        exact ⟨lq, hlq', hqe⟩
      · right
        rw [← hqe]
        exact hasC13Tag_append_left _ htag
    · rw [if_neg hcond] at h
      exact absurd h (List.not_mem_nil q)
  · obtain ⟨start, stop, hs2, hss, hsl, lq, hlq, heq⟩ := mem_internal_ions h
    rcases generate_losses_cases k hlq with hlq' | htag
    · left
      show q ∈ b_y_ions md PEPTIDE_LOSSES AA_LOSSES MOD_LOSSES pep
        (get_frag_masses md pep) (fmc?.getD ((pmc?.getD charge) - 1)) k ++
        parent_ions md PEPTIDE_LOSSES AA_LOSSES MOD_LOSSES pep
          (get_frag_masses md pep) (pmc?.getD charge) k ++ label_ions md pep
        ++ py_ions md pep k ++ internal_fragment_ions md INTERNAL_LOSSES
          AA_LOSSES MOD_LOSSES pep k
      apply List.mem_append_right
      unfold internal_fragment_ions
      rw [List.mem_flatMap]
      refine ⟨start, List.mem_range'_1.mpr ⟨by omega, by omega⟩, ?_⟩
      rw [List.mem_flatMap]
      refine ⟨stop, List.mem_range'_1.mpr ⟨by omega, by omega⟩, ?_⟩
      show q ∈ (generate_losses md INTERNAL_LOSSES AA_LOSSES MOD_LOSSES
        (("N-term", ([] : List String)) ::
          ((pep.drop start).take (stop - start)) ++ [("C=O", ([] : List
            String))]) 1 k).map fun lq =>
        (sequence_name (("N-term", ([] : List String)) ::
          ((pep.drop start).take (stop - start)) ++ [("C=O", ([] : List
            String))]) ++ lq.1,
          sequence_mass md (("N-term", ([] : List String)) ::
            ((pep.drop start).take (stop - start)) ++ [("C=O", ([] : List
              String))]) + lq.2)
      rw [List.mem_map]
      exact ⟨lq, hlq', heq.symm⟩
    · right
      rw [heq]
      exact hasC13Tag_append_left _ htag

theorem lookup_filter_go {key : String} :
    ∀ (l : List (String × ℚ)) (acc : Option ℚ),
    l.foldl (fun acc p => if p.1 = key then some p.2 else acc) acc =
    (l.filter fun p => decide (p.1 = key)).foldl
      (fun acc p => if p.1 = key then some p.2 else acc) acc := by
  intro l
  induction l with
  | nil => intro acc; rfl
  | cons p t ih =>
    intro acc
    rw [List.foldl_cons, List.filter_cons]
    by_cases hk : p.1 = key
    · rw [if_pos hk, if_pos (show decide (p.1 = key) = true by simp [hk]),
        List.foldl_cons, if_pos hk]
      exact ih _
    · rw [if_neg hk, if_neg (show ¬ decide (p.1 = key) = true by simp [hk])]
      exact ih acc

theorem mapLookup_congr_filter {l l' : List (String × ℚ)} {key : String}
    (h : (l.filter fun p => decide (p.1 = key)) =
      (l'.filter fun p => decide (p.1 = key))) :
    mapLookup l key = mapLookup l' key := by
  unfold mapLookup
  rw [lookup_filter_go l none, lookup_filter_go l' none, h]

theorem gl_consumer_filter_flatMap {md : MassData} {anyL : List String}
    {aaL : List (String × List String)}
    {modL : List ((String × String) × List String)}
    {seq : ModSeq} {d : ℕ} (k k' : ℕ) {key : String}
    (hkey : ¬ hasC13Tag key)
    (g : (String × ℚ) → List (String × ℚ))
    (hg : ∀ lq q, hasC13Tag lq.1 → q ∈ g lq → hasC13Tag q.1) :
    ((generate_losses md anyL aaL modL seq d k).flatMap g).filter
      (fun p => decide (p.1 = key)) =
    ((generate_losses md anyL aaL modL seq d k').flatMap g).filter
      (fun p => decide (p.1 = key)) := by
  have step : ∀ kk : ℕ,
      ((generate_losses md anyL aaL modL seq d kk).flatMap g).filter
        (fun p => decide (p.1 = key)) =
      (loss_combos_top anyL aaL modL seq d).flatMap fun c =>
        (g ((loss_counter_name c ++ format_loss "^\x7b13\x7dC" ((0 : ℕ) : ℤ),
          loss_counter_mass md c +
            (((0 : ℕ) : ℤ) : ℚ) * md.DELTA_C13))).filter
          (fun p => decide (p.1 = key)) := by
    intro kk
    obtain ⟨tail, htk, htag⟩ := generate_c13_cons md kk
    unfold generate_losses
    rw [List.flatMap_assoc, List.filter_flatMap]
    apply List.flatMap_congr
    intro c hc
    rw [List.flatMap_map, htk, List.flatMap_cons, List.filter_append]
    have hnil : ((tail.flatMap fun qc =>
        g ((loss_counter_name c ++ qc.1,
          loss_counter_mass md c + qc.2))).filter
        (fun p => decide (p.1 = key))) = [] := by
      apply List.filter_eq_nil_iff.mpr
      intro q hq
      rw [List.mem_flatMap] at hq
      obtain ⟨qc, hqc, hq⟩ := hq
      have htq : hasC13Tag q.1 :=
        hg _ q (hasC13Tag_append_left _ (htag qc hqc)) hq
      simp only [decide_eq_true_eq]
      intro he
      exact hkey (he ▸ htq)
    rw [hnil, List.append_nil]
  rw [step k, step k']

theorem gl_consumer_filter_map {md : MassData} {anyL : List String}
    {aaL : List (String × List String)}
    {modL : List ((String × String) × List String)}
    {seq : ModSeq} {d : ℕ} (k k' : ℕ) {key : String}
    (hkey : ¬ hasC13Tag key)
    (g : (String × ℚ) → (String × ℚ))
    (hg : ∀ lq, hasC13Tag lq.1 → hasC13Tag (g lq).1) :
    ((generate_losses md anyL aaL modL seq d k).map g).filter
      (fun p => decide (p.1 = key)) =
    ((generate_losses md anyL aaL modL seq d k').map g).filter
      (fun p => decide (p.1 = key)) := by
  have step : ∀ kk : ℕ,
      ((generate_losses md anyL aaL modL seq d kk).map g).filter
        (fun p => decide (p.1 = key)) =
      (loss_combos_top anyL aaL modL seq d).flatMap fun c =>
        ([g ((loss_counter_name c ++ format_loss "^\x7b13\x7dC" ((0 : ℕ) : ℤ),
          loss_counter_mass md c +
            (((0 : ℕ) : ℤ) : ℚ) * md.DELTA_C13))].filter
          (fun p => decide (p.1 = key))) := by
    intro kk
    obtain ⟨tail, htk, htag⟩ := generate_c13_cons md kk
    unfold generate_losses
    rw [List.map_flatMap, List.filter_flatMap]
    apply List.flatMap_congr
    intro c hc
    rw [List.map_map, htk, List.map_cons, List.filter_cons]
    have hnil : ((tail.map (g ∘ fun qc =>
        ((loss_counter_name c ++ qc.1,
          loss_counter_mass md c + qc.2) : String × ℚ))).filter
        (fun p => decide (p.1 = key))) = [] := by
      apply List.filter_eq_nil_iff.mpr
      intro q hq
      rw [List.mem_map] at hq
      obtain ⟨qc, hqc, hqe⟩ := hq
      have htq : hasC13Tag q.1 := by
        rw [← hqe]
        exact hg _ (hasC13Tag_append_left _ (htag qc hqc))
      simp only [decide_eq_true_eq]
      intro he
      exact hkey (he ▸ htq)
    rw [hnil]
    simp [List.filter_cons, Function.comp]
  rw [step k, step k']

theorem fragment_ions_filter_untagged {md : MassData} {pep : ModSeq}
    {charge : ℕ} {pmc? fmc? : Option ℕ} (k k' : ℕ)
    {key : String} (hkey : ¬ hasC13Tag key) :
    ((fragment_ions md pep charge pmc? fmc? k none none none).filter
      (fun p => decide (p.1 = key))) =
    ((fragment_ions md pep charge pmc? fmc? k' none none none).filter
      (fun p => decide (p.1 = key))) := by
  have hsplit : ∀ kk : ℕ,
      fragment_ions md pep charge pmc? fmc? kk none none none =
      b_y_ions md PEPTIDE_LOSSES AA_LOSSES MOD_LOSSES pep
        (get_frag_masses md pep) (fmc?.getD ((pmc?.getD charge) - 1)) kk ++
      parent_ions md PEPTIDE_LOSSES AA_LOSSES MOD_LOSSES pep
        (get_frag_masses md pep) (pmc?.getD charge) kk ++ label_ions md pep
      ++ py_ions md pep kk ++ internal_fragment_ions md INTERNAL_LOSSES
        AA_LOSSES MOD_LOSSES pep kk := fun kk => rfl
  rw [hsplit k, hsplit k']
  simp only [List.filter_append]
  congr 1
  · congr 1
    · congr 1
      · congr 1
        · unfold b_y_ions
          rw [List.filter_flatMap, List.filter_flatMap]
          apply List.flatMap_congr
          intro bi hbi
          apply gl_consumer_filter_flatMap k k' hkey
          intro lq q htag hq
          unfold charged_m_zs at hq
          rw [List.mem_map] at hq
          obtain ⟨ch, hch, hqe⟩ := hq
          rw [← hqe]
          exact hasC13Tag_append_right _ (hasC13Tag_append_left _ htag)
        · unfold parent_ions
          apply gl_consumer_filter_flatMap k k' hkey
          intro lq q htag hq
          unfold charged_m_zs at hq
          rw [List.mem_map] at hq
          obtain ⟨ch, hch, hqe⟩ := hq
          rw [← hqe]
          exact hasC13Tag_append_right _ (hasC13Tag_append_left _ htag)
    · unfold py_ions
      by_cases hcond : (pep.any fun r =>
          decide (r.1 = "Y" ∧ "Phospho" ∈ r.2)) = true
      · rw [if_pos hcond, if_pos hcond]
        apply gl_consumer_filter_map k k' hkey
        intro lq htag
        exact hasC13Tag_append_left _ htag
      · rw [if_neg hcond, if_neg hcond]
  · unfold internal_fragment_ions
    rw [List.filter_flatMap, List.filter_flatMap]
    apply List.flatMap_congr
    intro start hstart
    rw [List.filter_flatMap, List.filter_flatMap]
    apply List.flatMap_congr
    intro stop hstop
    apply gl_consumer_filter_map k k' hkey
    intro lq htag
    exact hasC13Tag_append_left _ htag

theorem digit_ne_caret {c : Char} (h : c.isDigit = true) : c ≠ '^' := by
  intro he
  subst he
  exact absurd h (by decide)

theorem alpha_ne_caret {c : Char} (h : c.isAlpha = true) : c ≠ '^' := by
  intro he
  subst he
  exact absurd h (by decide)

theorem no_tag_concat : ∀ (A : List Char), (∀ c ∈ A, c ≠ '^') →
    ∀ {sfx : List Char},
    (sfx = [] ∨ ∃ R, sfx = '^' :: '{' :: '+' :: R ∧ ∀ c ∈ R, c ≠ '^') →
    ¬ ∃ u v, A ++ sfx = u ++ c13Tag.data ++ v
  | [], hA, sfx, hs => by
    rintro ⟨u, v, he⟩
    rw [List.nil_append] at he
    rcases hs with rfl | ⟨R, rfl, hR⟩
    · rw [show c13Tag.data = ['^', '{', '1', '3', '}', 'C'] from rfl] at he
      simp at he
    · cases u with
      | nil =>
        rw [List.nil_append,
          show c13Tag.data = ['^', '{', '1', '3', '}', 'C'] from rfl] at he
        simp at he
      | cons u0 u' =>
        rw [List.cons_append, List.cons_append] at he
        injection he with h0 ht
        have hmem : '^' ∈ ('{' :: '+' :: R) := by
          rw [ht]
          exact List.mem_append.2 (Or.inl (List.mem_append.2
            (Or.inr (by decide))))
        simp at hmem
        exact hR '^' hmem rfl
  | a :: A', hA, sfx, hs => by
    rintro ⟨u, v, he⟩
    cases u with
    | nil =>
      rw [List.nil_append,
        show c13Tag.data = ['^', '{', '1', '3', '}', 'C'] from rfl] at he
      rw [List.cons_append] at he
      injection he with h1 _
      exact hA a (List.mem_cons_self a A') h1
    | cons u0 u' =>
      simp only [List.cons_append] at he
      injection he with h1 h2
      exact no_tag_concat A' (fun c hc => hA c (List.mem_cons_of_mem a hc))
        hs ⟨u', v, h2⟩

theorem charge_suffix_shape (ch : ℕ) : (charge_suffix ch).data = [] ∨
    ∃ R, (charge_suffix ch).data = '^' :: '{' :: '+' :: R ∧
      ∀ c ∈ R, c ≠ '^' := by
  unfold charge_suffix
  by_cases h1 : 1 < ch
  · rw [if_pos h1]
    right
    refine ⟨(natStr ch).data ++ ['}'], ?_, ?_⟩
    · simp [str_append_data]
    · intro c hc
      rcases List.mem_append.1 hc with hc' | hc'
      · exact digit_ne_caret (natStr_digits ch c hc')
      · rw [List.mem_singleton] at hc'
        subst hc'
        decide
  · rw [if_neg h1]
    right
    exact ⟨['}'], rfl, by decide⟩

theorem generate_c13_zero_eq (md : MassData) :
    generate_c13 md 0 = [(format_loss "^\x7b13\x7dC" ((0 : ℕ) : ℤ),
      (((0 : ℕ) : ℤ) : ℚ) * md.DELTA_C13)] := rfl

theorem splitCharList_chars (sep : Char) : ∀ (L : List Char),
    ∀ part ∈ splitCharList sep L, ∀ c ∈ part, c ∈ L := by
  intro L
  induction L with
  | nil =>
    intro part hp c hc
    unfold splitCharList at hp
    rw [List.mem_singleton] at hp
    subst hp
    exact absurd hc (List.not_mem_nil c)
  | cons ch cs ih =>
    intro part hp c hc
    unfold splitCharList at hp
    by_cases hsep : ch = sep
    · rw [if_pos hsep] at hp
      rcases List.mem_cons.1 hp with rfl | hp'
      · exact absurd hc (List.not_mem_nil c)
      · exact List.mem_cons_of_mem ch (ih part hp' c hc)
    · rw [if_neg hsep] at hp
      cases hs : splitCharList sep cs with
      | nil =>
        rw [hs] at hp
        rw [List.mem_singleton] at hp
        subst hp
        rw [List.mem_singleton] at hc
        subst hc
        exact List.mem_cons_self _ _
      | cons g gs =>
        rw [hs] at hp
        rcases List.mem_cons.1 hp with rfl | hp'
        · rcases List.mem_cons.1 hc with rfl | hc'
          · exact List.mem_cons_self _ _
          · exact List.mem_cons_of_mem ch
              (ih g (by rw [hs]; exact List.mem_cons_self g gs) c hc')
        · exact List.mem_cons_of_mem ch
            (ih part (by rw [hs]; exact List.mem_cons_of_mem g hp') c hc)

theorem pySplit_chars {s : String} {sep : Char} :
    ∀ part ∈ pySplit s sep, ∀ c ∈ part.data, c ∈ s.data := by
  intro part hp c hc
  unfold pySplit at hp
  rw [List.mem_map] at hp
  obtain ⟨l, hl, rfl⟩ := hp
  exact splitCharList_chars sep s.data l hl c hc

theorem counterSub_keys {c : LossCounter} {ion : String} :
    ∀ p ∈ counterSub c ion, p.1 ∈ c.map Prod.fst ∨ p.1 = ion := by
  intro p hp
  unfold counterSub at hp
  split at hp
  · rw [List.mem_map] at hp
    obtain ⟨q, hq, hqe⟩ := hp
    left
    rw [← hqe]
    split <;> exact List.mem_map.2 ⟨q, hq, rfl⟩
  · rcases List.mem_append.1 hp with hp' | hp'
    · exact Or.inl (List.mem_map.2 ⟨p, hp', rfl⟩)
    · rw [List.mem_singleton] at hp'
      subst hp'
      exact Or.inr rfl

theorem foldl_counterSub_keys :
    ∀ (parts : List String) (c : LossCounter),
    ∀ p ∈ parts.foldl counterSub c,
      p.1 ∈ c.map Prod.fst ∨ p.1 ∈ parts
  | [], c => fun p hp => Or.inl (List.mem_map.2 ⟨p, hp, rfl⟩)
  | s :: rest, c => fun p hp => by
    rw [List.foldl_cons] at hp
    rcases foldl_counterSub_keys rest (counterSub c s) p hp with h | h
    · rw [List.mem_map] at h
      obtain ⟨q, hq, hqe⟩ := h
      rcases counterSub_keys q hq with h' | h'
      · left
        rw [← hqe]
        exact h'
      · right
        rw [← hqe, h']
        exact List.mem_cons_self s rest
    · exact Or.inr (List.mem_cons_of_mem s h)

theorem counterSubLoss_chars {losses : LossCounter} {loss : String}
    (hl : ∀ p ∈ losses, ∀ ch ∈ p.1.data, ch ≠ '^')
    (hs : ∀ ch ∈ loss.data, ch ≠ '^') :
    ∀ p ∈ counterSubLoss losses loss, ∀ ch ∈ p.1.data, ch ≠ '^' := by
  intro p hp ch hch
  unfold counterSubLoss at hp
  rcases foldl_counterSub_keys (pySplit loss (Char.ofNat 45)) losses p hp
    with h | h
  · rw [List.mem_map] at h
    obtain ⟨q, hq, hqe⟩ := h
    rw [← hqe] at hch
    exact hl q hq ch hch
  · exact hs ch (pySplit_chars p.1 h ch hch)

theorem loss_combos_chars {anyL : List String}
    {aaL : List (String × List String)}
    {modL : List ((String × String) × List String)}
    (hA : ∀ s ∈ anyL, ∀ c ∈ s.data, c ≠ '^')
    (hAA : ∀ al ∈ aaL, ∀ s ∈ al.2, ∀ c ∈ s.data, c ≠ '^')
    (hM : ∀ ml ∈ modL, ∀ s ∈ ml.2, ∀ c ∈ s.data, c ≠ '^') :
    ∀ (d : ℕ) (seq : ModSeq) (losses : LossCounter),
    (∀ p ∈ losses, ∀ c ∈ p.1.data, c ≠ '^') →
    ∀ cc ∈ loss_combos anyL aaL modL d seq losses,
    ∀ p ∈ cc, ∀ c ∈ p.1.data, c ≠ '^' := by
  intro d
  induction d with
  | zero =>
    intro seq losses hl cc hcc
    unfold loss_combos at hcc
    split at hcc
    · exact absurd hcc (List.not_mem_nil cc)
    · rw [List.mem_singleton] at hcc
      subst hcc
      exact hl
  | succ d' ih =>
    intro seq losses hl cc hcc
    unfold loss_combos at hcc
    split at hcc
    · exact absurd hcc (List.not_mem_nil cc)
    · rcases List.mem_append.1 hcc with h12 | h3
      · rcases List.mem_append.1 h12 with h1 | h2
        · rw [List.mem_flatMap] at h1
          obtain ⟨loss, hloss, h1⟩ := h1
          rcases List.mem_cons.1 h1 with rfl | h1'
          · exact counterSubLoss_chars hl (hA loss hloss)
          · exact ih seq _ (counterSubLoss_chars hl (hA loss hloss)) cc h1'
        · rw [List.mem_flatMap] at h2
          obtain ⟨al, hal, h2⟩ := h2
          rw [List.mem_flatMap] at h2
          obtain ⟨pr, hpr, h2⟩ := h2
          split at h2
          · rw [List.mem_flatMap] at h2
            obtain ⟨loss, hloss, h2⟩ := h2
            rcases List.mem_cons.1 h2 with rfl | h2'
            · exact counterSubLoss_chars hl (hAA al hal loss hloss)
            · exact ih _ _
                (counterSubLoss_chars hl (hAA al hal loss hloss)) cc h2'
          · exact absurd h2 (List.not_mem_nil cc)
      · rw [List.mem_flatMap] at h3
        obtain ⟨ml, hml, h3⟩ := h3
        rw [List.mem_flatMap] at h3
        obtain ⟨pr, hpr, h3⟩ := h3
        split at h3
        · rw [List.mem_flatMap] at h3
          obtain ⟨loss, hloss, h3⟩ := h3
          rcases List.mem_cons.1 h3 with rfl | h3'
          · exact counterSubLoss_chars hl (hM ml hml loss hloss)
          · exact ih _ _
              (counterSubLoss_chars hl (hM ml hml loss hloss)) cc h3'
        · exact absurd h3 (List.not_mem_nil cc)

theorem format_loss_chars {name : String} {cnt : ℤ}
    (h : ∀ c ∈ name.data, c ≠ '^') :
    ∀ c ∈ (format_loss name cnt).data, c ≠ '^' := by
  intro c hc
  unfold format_loss at hc
  split at hc
  · exact absurd hc (List.not_mem_nil c)
  · rw [str_append_data, str_append_data] at hc
    rcases List.mem_append.1 hc with hc' | hc'
    · rcases List.mem_append.1 hc' with hc'' | hc''
      · revert hc''
        split <;> intro hc'' <;>
          (rw [List.mem_singleton] at hc''; subst hc''; decide)
      · revert hc''
        split <;> intro hc''
        · rw [str_append_data] at hc''
          rcases List.mem_append.1 hc'' with h3 | h3
          · exact digit_ne_caret (natStr_digits _ c h3)
          · rw [List.mem_singleton] at h3
            subst h3
            decide
        · exact absurd hc'' (List.not_mem_nil c)
    · exact h c hc'

theorem loss_counter_name_chars {c : LossCounter}
    (h : ∀ p ∈ c, ∀ ch ∈ p.1.data, ch ≠ '^') :
    ∀ ch ∈ (loss_counter_name c).data, ch ≠ '^' := by
  intro ch hch
  unfold loss_counter_name at hch
  rw [strJoin_data, List.mem_flatten] at hch
  obtain ⟨x, hx, hchx⟩ := hch
  rw [List.mem_map] at hx
  obtain ⟨s, hs, rfl⟩ := hx
  rw [List.mem_map] at hs
  obtain ⟨p, hp, rfl⟩ := hs
  have hp' : p ∈ c := by
    have hsp : p ∈ sortBy (fun a b : String × ℤ => strLe a.1 b.1) c := hp
    exact (sortBy_perm _ c).mem_iff.mp hsp
  exact format_loss_chars (h p hp') ch hchx

theorem gl_zero_chars {md : MassData} {anyL : List String}
    {aaL : List (String × List String)}
    {modL : List ((String × String) × List String)}
    {seq : ModSeq} {d : ℕ}
    (hA : ∀ s ∈ anyL, ∀ c ∈ s.data, c ≠ '^')
    (hAA : ∀ al ∈ aaL, ∀ s ∈ al.2, ∀ c ∈ s.data, c ≠ '^')
    (hM : ∀ ml ∈ modL, ∀ s ∈ ml.2, ∀ c ∈ s.data, c ≠ '^')
    {lq : String × ℚ} (h : lq ∈ generate_losses md anyL aaL modL seq d 0) :
    ∀ c ∈ lq.1.data, c ≠ '^' := by
  unfold generate_losses at h
  rw [List.mem_flatMap] at h
  obtain ⟨cc, hcc, h⟩ := h
  rw [generate_c13_zero_eq] at h
  simp only [List.map_cons, List.map_nil] at h
  rw [List.mem_singleton] at h
  have hinit : ∀ p ∈ initLossCounter, ∀ ch ∈ p.1.data, ch ≠ '^' := by
    intro p hp
    unfold initLossCounter at hp
    rw [List.mem_singleton] at hp
    subst hp
    intro ch hch
    exact absurd hch (List.not_mem_nil ch)
  have hcchars : ∀ p ∈ cc, ∀ ch ∈ p.1.data, ch ≠ '^' := by
    rcases List.mem_cons.1 hcc with rfl | hcc'
    · exact hinit
    · exact loss_combos_chars hA hAA hM _ seq initLossCounter hinit cc hcc'
  intro c hc
  rw [h] at hc
  simp only [] at hc
  rw [str_append_data] at hc
  rcases List.mem_append.1 hc with hc' | hc'
  · exact loss_counter_name_chars hcchars c hc'
  · rw [show (format_loss "^\x7b13\x7dC" ((0 : ℕ) : ℤ)).data = [] from rfl]
      at hc'
    exact absurd hc' (List.not_mem_nil c)

theorem braceKey_chars {pre : String} (hpre : ∀ c ∈ pre.data, c ≠ '^')
    (m : ℕ) : ∀ c ∈ ((pre ++ natStr m ++ "\x7d")).data, c ≠ '^' := by
  intro c hc
  rw [str_append_data, str_append_data] at hc
  rcases List.mem_append.1 hc with hc' | hc'
  · rcases List.mem_append.1 hc' with h | h
    · exact hpre c h
    · exact digit_ne_caret (natStr_digits m c h)
  · rw [show ("\x7d" : String).data = ['}'] from rfl,
      List.mem_singleton] at hc'
    subst hc'
    decide

theorem fragment_ions_no_tag {md : MassData} {pep : ModSeq}
    (hwf : wellFormed pep)
    (hlab : ∀ mod nm, nm ∈ md.LABEL_NAMES mod → ∀ c ∈ nm.data, c ≠ '^')
    {charge : ℕ} {pmc? fmc? : Option ℕ} {q : String × ℚ}
    (hq : q ∈ fragment_ions md pep charge pmc? fmc? 0 none none none) :
    ¬ hasC13Tag q.1 := by
  have hA : ∀ s ∈ PEPTIDE_LOSSES, ∀ c ∈ s.data, c ≠ '^' := by decide
  have hAI : ∀ s ∈ INTERNAL_LOSSES, ∀ c ∈ s.data, c ≠ '^' := by decide
  have hAA : ∀ al ∈ AA_LOSSES, ∀ s ∈ al.2, ∀ c ∈ s.data, c ≠ '^' := by
    decide
  have hM : ∀ ml ∈ MOD_LOSSES, ∀ s ∈ ml.2, ∀ c ∈ s.data, c ≠ '^' := by
    decide
  intro htag
  obtain ⟨u, v, hdata⟩ := htag
  rcases mem_fragment_ions hq with h | h | h | h | h
  · obtain ⟨bi, hbi, lq, hlq, ch, hch, heq⟩ := mem_b_y_ions h
    have hbase : ∀ c ∈ (bi.1 : String).data, c ≠ '^' := by
      rcases base_ions_mem hbi with ⟨idx, _, _, hab | hab⟩ |
        ⟨idx, _, _, hy⟩
      · rw [show bi.1 = "a_\x7b" ++ natStr (idx - 1) ++ "\x7d" from by
          rw [hab]]
        exact braceKey_chars (by decide) _
      · rw [show bi.1 = "b_\x7b" ++ natStr (idx - 1) ++ "\x7d" from by
          rw [hab]]
        exact braceKey_chars (by decide) _
      · rw [show bi.1 = "y_\x7b" ++ natStr (pep.length - idx - 1) ++ "\x7d"
          from by rw [hy]]
        exact braceKey_chars (by decide) _
    have hlqc : ∀ c ∈ lq.1.data, c ≠ '^' := gl_zero_chars hA hAA hM hlq
    have hqd : q.1.data =
        (bi.1.data ++ lq.1.data) ++ (charge_suffix ch).data := by
      rw [heq]
      simp only []
      rw [str_append_data, str_append_data]
    refine no_tag_concat (bi.1.data ++ lq.1.data) ?_ (charge_suffix_shape ch)
      ⟨u, v, by rw [← hqd]; exact hdata⟩
    intro c hc
    rcases List.mem_append.1 hc with h' | h'
    · exact hbase c h'
    · exact hlqc c h'
  · obtain ⟨lq, hlq, ch, hch, heq⟩ := mem_parent_ions h
    have hlqc : ∀ c ∈ lq.1.data, c ≠ '^' := gl_zero_chars hA hAA hM hlq
    have hqd : q.1.data =
        (("MH" : String).data ++ lq.1.data) ++ (charge_suffix ch).data := by
      rw [heq]
      simp only []
      rw [str_append_data, str_append_data]
    refine no_tag_concat (("MH" : String).data ++ lq.1.data) ?_
      (charge_suffix_shape ch) ⟨u, v, by rw [← hqd]; exact hdata⟩
    intro c hc
    rcases List.mem_append.1 hc with h' | h'
    · rw [show ("MH" : String).data = ['M', 'H'] from rfl] at h'
      rcases List.mem_cons.1 h' with rfl | h''
      · decide
      · rw [List.mem_singleton] at h''
        subst h''
        decide
    · exact hlqc c h'
  · obtain ⟨mod, hmem⟩ := mem_label_ions h
    exact no_tag_concat q.1.data (hlab mod q.1 hmem) (Or.inl rfl)
      ⟨u, v, by rw [List.append_nil]; exact hdata⟩
  · obtain ⟨lq, hlq, heq⟩ := mem_py_ions h
    have hlqc : ∀ c ∈ lq.1.data, c ≠ '^' :=
      gl_zero_chars (fun s hs => absurd hs (List.not_mem_nil s))
        (fun al hal => absurd hal (List.not_mem_nil al))
        (fun ml hml => absurd hml (List.not_mem_nil ml)) hlq
    have hqd : q.1.data = ("pY" : String).data ++ lq.1.data := by
      rw [heq]
      simp only []
      rw [str_append_data]
    refine no_tag_concat (("pY" : String).data ++ lq.1.data) ?_
      (Or.inl rfl) ⟨u, v, by rw [List.append_nil, ← hqd]; exact hdata⟩
    intro c hc
    rcases List.mem_append.1 hc with h' | h'
    · rw [show ("pY" : String).data = ['p', 'Y'] from rfl] at h'
      rcases List.mem_cons.1 h' with rfl | h''
      · decide
      · rw [List.mem_singleton] at h''
        subst h''
        decide
    · exact hlqc c h'
  · obtain ⟨mid, mN, mC, hpep, hmid⟩ := hwf
    obtain ⟨start, stop, hs2, hss, hsl, lq, hlq, heq⟩ := mem_internal_ions h
    have hlen : pep.length = mid.length + 2 := by
      rw [hpep]
      simp
    rw [hpep] at heq
    have hslice := @slice_in_mid mid mN mC start stop (by omega) hss
      (by omega)
    have hvl : ∀ r ∈ ((("N-term", mN) :: mid ++ [("C-term", mC)] :
        ModSeq).drop start).take (stop - start), r.1 ∈ validLetters :=
      fun r hr => hmid r (hslice.1 r hr)
    obtain ⟨c, cs, hd, hca, hcsa⟩ := seq_name_frag_alpha hvl hslice.2
    have hlqc : ∀ x ∈ lq.1.data, x ≠ '^' := gl_zero_chars hAI hAA hM hlq
    have hq1 : q.1 = sequence_name (("N-term", ([] : List String)) ::
        ((((("N-term", mN) :: mid ++ [("C-term", mC)]) : ModSeq).drop
          start).take (stop - start)) ++ [("C=O", ([] : List String))])
        ++ lq.1 := by
      rw [heq]
    have hqd : q.1.data = (c :: cs) ++ lq.1.data := by
      rw [hq1, str_append_data, hd]
    refine no_tag_concat ((c :: cs) ++ lq.1.data) ?_ (Or.inl rfl)
      ⟨u, v, by rw [List.append_nil, ← hqd]; exact hdata⟩
    intro x hx
    rcases List.mem_append.1 hx with h' | h'
    · rcases List.mem_cons.1 h' with rfl | h''
      · exact alpha_ne_caret hca
      · exact alpha_ne_caret (hcsa x h'')
    · exact hlqc x h'

/-- Claim C9: for isotope counts k < k' the key set of fragment_ions at k
is contained in the key set at k'; every key present at k' but not at k
carries the carbon-13 isotope tag; at isotope count zero no key carries
the tag; and the value of every untagged key is unchanged between k and
k'. -/
theorem claim_C9 (md : MassData) (pep : ModSeq) (hwf : wellFormed pep)
    (hlab : ∀ mod nm, nm ∈ md.LABEL_NAMES mod → ∀ c ∈ nm.data, c ≠ '^')
    (charge : ℕ) (pmc? fmc? : Option ℕ) (k k' : ℕ) (hkk : k < k') :
    (∀ key ∈ (fragment_ions md pep charge pmc? fmc? k none none
        none).map Prod.fst,
      key ∈ (fragment_ions md pep charge pmc? fmc? k' none none
        none).map Prod.fst) ∧
    (∀ key ∈ (fragment_ions md pep charge pmc? fmc? k' none none
        none).map Prod.fst,
      key ∉ (fragment_ions md pep charge pmc? fmc? k none none
        none).map Prod.fst → hasC13Tag key) ∧
    (∀ key ∈ (fragment_ions md pep charge pmc? fmc? 0 none none
        none).map Prod.fst, ¬ hasC13Tag key) ∧
    (∀ key, ¬ hasC13Tag key →
      mapLookup (fragment_ions md pep charge pmc? fmc? k none none none)
        key =
      mapLookup (fragment_ions md pep charge pmc? fmc? k' none none none)
        key) := by
  refine ⟨?_, ?_, ?_, ?_⟩
  · intro key hkey
    rw [List.mem_map] at hkey ⊢
    obtain ⟨q, hq, rfl⟩ := hkey
    exact ⟨q, fragment_ions_mono (le_of_lt hkk) hq, rfl⟩
  · intro key hkey hnot
    rw [List.mem_map] at hkey
    obtain ⟨q, hq, rfl⟩ := hkey
    rcases fragment_ions_cases k hq with h' | h'
    · exact absurd (List.mem_map.2 ⟨q, h', rfl⟩) hnot
    · exact h'
  · intro key hkey
    rw [List.mem_map] at hkey
    obtain ⟨q, hq, rfl⟩ := hkey
    exact fragment_ions_no_tag hwf hlab hq
  · intro key hnt
    exact mapLookup_congr_filter (fragment_ions_filter_untagged k k' hnt)

/-- Witness for C9: a labelled phosphopeptide at isotope counts 0 < 1. -/
theorem claim_C9_witness :
    wellFormed [("N-term", ["TMT6plex"]), ("Y", ["Phospho"]), ("G", []),
      ("R", []), ("C-term", [])] ∧
    (∀ mod nm, nm ∈ specMassData.LABEL_NAMES mod →
      ∀ c ∈ nm.data, c ≠ '^') ∧
    (0 : ℕ) < 1 ∧
    ((∀ key ∈ (fragment_ions specMassData [("N-term", ["TMT6plex"]),
        ("Y", ["Phospho"]), ("G", []), ("R", []), ("C-term", [])] 2 none
        none 0 none none none).map Prod.fst,
      key ∈ (fragment_ions specMassData [("N-term", ["TMT6plex"]),
        ("Y", ["Phospho"]), ("G", []), ("R", []), ("C-term", [])] 2 none
        none 1 none none none).map Prod.fst) ∧
    (∀ key ∈ (fragment_ions specMassData [("N-term", ["TMT6plex"]),
        ("Y", ["Phospho"]), ("G", []), ("R", []), ("C-term", [])] 2 none
        none 1 none none none).map Prod.fst,
      key ∉ (fragment_ions specMassData [("N-term", ["TMT6plex"]),
        ("Y", ["Phospho"]), ("G", []), ("R", []), ("C-term", [])] 2 none
        none 0 none none none).map Prod.fst → hasC13Tag key) ∧
    (∀ key ∈ (fragment_ions specMassData [("N-term", ["TMT6plex"]),
        ("Y", ["Phospho"]), ("G", []), ("R", []), ("C-term", [])] 2 none
        none 0 none none none).map Prod.fst, ¬ hasC13Tag key) ∧
    (∀ key, ¬ hasC13Tag key →
      mapLookup (fragment_ions specMassData [("N-term", ["TMT6plex"]),
        ("Y", ["Phospho"]), ("G", []), ("R", []), ("C-term", [])] 2 none
        none 0 none none none) key =
      mapLookup (fragment_ions specMassData [("N-term", ["TMT6plex"]),
        ("Y", ["Phospho"]), ("G", []), ("R", []), ("C-term", [])] 2 none
        none 1 none none none) key)) := by
  have hwf : wellFormed [("N-term", ["TMT6plex"]), ("Y", ["Phospho"]),
      ("G", []), ("R", []), ("C-term", [])] :=
    ⟨[("Y", ["Phospho"]), ("G", []), ("R", [])], ["TMT6plex"],
      ([] : List String), rfl, by decide⟩
  have hlab : ∀ mod nm, nm ∈ specMassData.LABEL_NAMES mod →
      ∀ c ∈ nm.data, c ≠ '^' := by
    intro mod nm h
    have h' : nm ∈ (if mod = "TMT6plex" then
        (["126", "127", "128", "129", "130", "131"] : List String)
        else []) := h
    split at h'
    · simp only [List.mem_cons, List.not_mem_nil, or_false] at h'
      rcases h' with rfl | rfl | rfl | rfl | rfl | rfl <;> decide
    · exact absurd h' (List.not_mem_nil nm)
  exact ⟨hwf, hlab, by decide,
    claim_C9 specMassData _ hwf hlab 2 none none 0 1 (by decide)⟩
